import Mathlib

/-!
# seghash: segment hashing and verification

A shallow embedding of the calculation and verification pipelines of seghash
(`calc.go`, `verify.go`, `segmenthash.go`, `util.go`), followed by the
properties proved about them.

Conventions of the embedding:

* Go `int64` values are `Int`; an operation that can leave the 64-bit range is
  followed by `wrap64`, the two's-complement reduction Go performs.
* A goroutine that sends on an unbuffered channel and then closes it is a
  function returning the list of values sent, in order.
* `fatal`, `lnfatal` and friends (`os.Exit(255)`) are the `fatal` outcome.
* For the one property about interleavings, the goroutines of `readFile` and
  `calculateHash` are given a second time as a transition system (`streamStep`).
-/

namespace Seghash

deriving instance DecidableEq for Except

/-! ## Machine integers -/

/-- Two's-complement reduction of an integer to the range of Go's `int64`. -/
def wrap64 (x : Int) : Int := (x + 2 ^ 63) % 2 ^ 64 - 2 ^ 63

/-- The largest `int64`. -/
def maxInt64 : Int := 2 ^ 63 - 1

/-- The smallest `int64`. -/
def minInt64 : Int := -(2 ^ 63)

/-- Membership in the range of `int64`. -/
def isInt64 (x : Int) : Prop := minInt64 ≤ x ∧ x ≤ maxInt64

instance (x : Int) : Decidable (isInt64 x) := by unfold isInt64; infer_instance

/-- Ceiling of the quotient of two integers, for a positive divisor. -/
def ceilDiv (a b : Int) : Int := -((-a) / b)

/-! ## Data model (`util.go`) -/

/-- The `readRange` struct: a byte range of the data source. -/
structure readRange where
  start : Int
  length : Int
deriving DecidableEq

/-! ## Range Producer (`calc.go`) -/

/-- The `for` loop of `produceReadRanges`, run for at most `fuel` iterations
from the counter value `producedBytes`. The result is the list of ranges sent
on the channel during those iterations, and whether the loop has left (the
channel was closed) by then. The counter update and the subtraction are
`int64` operations. -/
def produceReadRangesLoop (segmentSize fileSize : Int) : Nat → Int → List readRange × Bool
  | 0, producedBytes => ([], decide (¬ producedBytes < fileSize))
  | fuel + 1, producedBytes =>
    if producedBytes < fileSize then
      let r : readRange :=
        if wrap64 (fileSize - producedBytes) < segmentSize then
          { start := producedBytes, length := wrap64 (fileSize - producedBytes) }
        else
          { start := producedBytes, length := segmentSize }
      let rest := produceReadRangesLoop segmentSize fileSize fuel (wrap64 (producedBytes + segmentSize))
      (r :: rest.1, rest.2)
    else ([], true)

/-- The function `produceReadRanges`: the ranges emitted within `fuel` loop
iterations, and whether the channel was closed. -/
def produceReadRanges (fuel : Nat) (segmentSize fileSize : Int) : List readRange × Bool :=
  produceReadRangesLoop segmentSize fileSize fuel 0

/-- Each range starts where the previous one ends, the first one at `offset`. -/
def contiguousFrom : Int → List readRange → Prop
  | _, [] => True
  | offset, r :: rs => r.start = offset ∧ contiguousFrom (offset + r.length) rs

instance decContiguousFrom : (offset : Int) → (rs : List readRange) → Decidable (contiguousFrom offset rs)
  | _, [] => isTrue trivial
  | offset, r :: rs =>
    have := decContiguousFrom (offset + r.length) rs
    inferInstanceAs (Decidable (r.start = offset ∧ contiguousFrom (offset + r.length) rs))

/-- Sum of the lengths of a list of ranges. -/
def totalLength (rs : List readRange) : Int := (rs.map (fun r => r.length)).sum

/-- The ranges the loop is meant to send: `k` ranges starting at `s`, `segmentSize` apart,
each cut at `fileSize`. -/
def rangesFrom (segmentSize fileSize : Int) : Nat → Int → List readRange
  | 0, _ => []
  | k + 1, s => { start := s, length := min segmentSize (fileSize - s) } ::
      rangesFrom segmentSize fileSize k (s + segmentSize)


/-! ## Formatting of integers (`fmt`) -/

/-- Decimal digits of `n`, most significant first; `fuel` bounds the number of digits. -/
def natDigits : Nat → Nat → List Char
  | 0, _ => []
  | fuel + 1, n =>
    if n < 10 then [Char.ofNat (48 + n)]
    else natDigits fuel (n / 10) ++ [Char.ofNat (48 + n % 10)]

/-- The verbs `%d` and `%v` applied to an integer. -/
def formatInt (x : Int) : String :=
  if x < 0 then String.mk ('-' :: natDigits (x.natAbs + 1) x.natAbs)
  else String.mk (natDigits (x.natAbs + 1) x.natAbs)

/-! ## Sector addressing (`util.go`) -/

/-- The constant `sectorSize`. -/
def sectorSize : Int := 512

/-- Number of low-order bits that a magnitude loses when it is rounded to the 53-bit
significand of a `float64`; `k` bounds the search, and 11 is enough below `2^64`. -/
def float64DropBits : Nat → Nat → Nat
  | 0, _ => 0
  | k + 1, n => if n < 2 ^ 53 then 0 else float64DropBits k (n / 2) + 1

/-- The conversion `float64(n)` of a magnitude below `2^64`, as the exact value of the
resulting float: `n` rounded to 53 significant bits, ties to the even significand (the
IEEE 754 default rounding that Go's integer-to-float conversion uses). -/
def float64OfNat (n : Nat) : Nat :=
  let e := float64DropBits 11 n
  let q := n / 2 ^ e
  let r := n % 2 ^ e
  if 2 * r < 2 ^ e then q * 2 ^ e
  else if 2 ^ e < 2 * r then (q + 1) * 2 ^ e
  else if q % 2 = 0 then q * 2 ^ e
  else (q + 1) * 2 ^ e

/-- The conversion `float64(x)` of an `int64`, as the exact (integer) value of the float. -/
def float64OfInt (x : Int) : Int :=
  if x < 0 then -((float64OfNat x.natAbs : Nat) : Int) else ((float64OfNat x.natAbs : Nat) : Int)

/-- The expression `int64(math.Ceil(float64(x) / float64(sectorSize)))`. Dividing a float by
512 only changes its exponent and `math.Ceil` of a float is a float, so after the conversion
of `x` every step is exact; the result is below `2^55` in absolute value and converts back
to `int64` unchanged. -/
def ceilSectors (x : Int) : Int := ceilDiv (float64OfInt x) sectorSize

/-- The function `bytesToSectors`; `lnfatalf` is the error outcome. Go's `%` truncates
towards zero. The sum cannot leave `int64`: both terms are below `2^55` in absolute value. -/
def bytesToSectors (start length : Int) : Except String (Int × Int) :=
  if start ≠ 0 ∧ start.tmod sectorSize ≠ 0 then
    .error ("segment start is not sector aligned. start=" ++ formatInt start)
  else
    let startLba := ceilSectors start
    let endLba := startLba + ceilSectors length - 1
    .ok (startLba, endLba)

/-- The function `sectorToBytes`, in `int64` arithmetic. -/
def sectorToBytes (startLba endLba : Int) : Int × Int :=
  (wrap64 (startLba * sectorSize),
   wrap64 (wrap64 (wrap64 (endLba - startLba) + 1) * sectorSize))

/-- The least multiple of 512 that is at least `length`. -/
def roundUp512 (length : Int) : Int := ceilDiv length 512 * 512

/-! ## Bytes and text (`encoding/hex`, `strconv`, `fmt`) -/

/-- A byte. -/
abbrev Byte := Fin 256

/-- Lower-case hexadecimal digit, as written by the verb `%x`. -/
def hexDigit (d : Nat) : Char :=
  if d < 10 then Char.ofNat (48 + d) else Char.ofNat (87 + d)

/-- The verb `%x` applied to a byte slice: two lower-case digits per byte. -/
def hexEncode : List Byte → List Char
  | [] => []
  | b :: bs => hexDigit (b.val / 16) :: hexDigit (b.val % 16) :: hexEncode bs

/-- The helper `fromHexChar` of `encoding/hex`: digits of either case. -/
def fromHexChar (c : Char) : Option Nat :=
  if 48 ≤ c.toNat ∧ c.toNat ≤ 57 then some (c.toNat - 48)
  else if 97 ≤ c.toNat ∧ c.toNat ≤ 102 then some (c.toNat - 87)
  else if 65 ≤ c.toNat ∧ c.toNat ≤ 70 then some (c.toNat - 55)
  else none

/-- The loop of `hex.Decode`: the bytes decoded before the first fault, and whether there
was a fault (a character that is no hexadecimal digit, or an odd number of characters). -/
def hexDecode : List Char → List Byte × Bool
  | [] => ([], false)
  | [_] => ([], true)
  | a :: b :: rest =>
    match fromHexChar a, fromHexChar b with
    | some x, some y =>
      let r := hexDecode rest
      (Fin.ofNat (x * 16 + y) :: r.1, r.2)
    | _, _ => ([], true)

/-- The function `hex.DecodeString`: decoded bytes and whether an error was returned. -/
def hexDecodeString (s : String) : List Byte × Bool := hexDecode s.data

/-- Outcome of the digit loop of `strconv.ParseUint`. -/
inductive numError where
  | none
  | syntaxError
  | rangeError
deriving DecidableEq

/-- The largest `uint64`. -/
def maxUint64 : Nat := 2 ^ 64 - 1

/-- The digit loop of `strconv.ParseUint(s, 10, 64)` from the accumulated value `n`. -/
def parseUintLoop : List Char → Nat → Nat × numError
  | [], n => (n, .none)
  | c :: cs, n =>
    if 48 ≤ c.toNat ∧ c.toNat ≤ 57 then
      if n ≥ maxUint64 / 10 + 1 then (maxUint64, .rangeError)
      else
        let n1 := n * 10 + (c.toNat - 48)
        if n1 > maxUint64 then (maxUint64, .rangeError)
        else parseUintLoop cs n1
    else (0, .syntaxError)

/-- The function `strconv.ParseUint(s, 10, 64)`. -/
def parseUint (s : List Char) : Nat × numError :=
  match s with
  | [] => (0, .syntaxError)
  | _ => parseUintLoop s 0

/-- The function `strconv.ParseInt(s, 10, 64)` on the characters of `s`: the value
returned and whether an error was returned. An optional sign is accepted. -/
def parseIntChars (s : List Char) : Int × Bool :=
  match s with
  | [] => (0, true)
  | c :: cs =>
    let neg := decide (c = '-')
    let digits := if c = '+' ∨ c = '-' then cs else c :: cs
    let r := parseUint digits
    if r.2 = .syntaxError then (0, true)
    else if ¬ neg ∧ r.1 ≥ 2 ^ 63 then (2 ^ 63 - 1, true)
    else if neg ∧ r.1 > 2 ^ 63 then (-(2 ^ 63), true)
    else (if neg then -(r.1 : Int) else (r.1 : Int), false)

/-- The function `strconv.ParseInt(s, 10, 64)`. -/
def parseInt (s : String) : Int × Bool := parseIntChars s.data

/-- The struct `segmentChunk`. -/
structure segmentChunk where
  data : List Byte
  isLast : Bool
  baseSegmentStart : Int
deriving DecidableEq

/-- The struct `segment`; `err` holds the text of the error, if any. The zero value
`segment{}` is `{ start := 0, length := 0, hash := [], err := none }`. -/
structure segment where
  start : Int := 0
  length : Int := 0
  hash : List Byte := []
  err : Option String := none
deriving DecidableEq

/-- A record of the manifest as `encoding/csv` returns it with `FieldsPerRecord = 3`: the
three fields `record[0]`, `record[1]`, `record[2]`. Records with another number of fields
and malformed CSV text are outside this model. -/
structure csvRecord where
  hash : String
  startLba : String
  endLba : String
deriving DecidableEq

/-- The expression `strings.Join(record, string(csvDelimiter))`. -/
def csvRecord.join (record : csvRecord) : String :=
  record.hash ++ "," ++ record.startLba ++ "," ++ record.endLba

/-! ## Manifest Reader (`util.go`, `verify.go`) -/

/-- The function `readSegmentLine`, for a record that the CSV reader returned without
error: start LBA, end LBA, digest, and the error text if the row is rejected. -/
def readSegmentLine (record : csvRecord) : Int × Int × List Byte × Option String :=
  let hash := hexDecodeString record.hash
  let startLba := parseInt record.startLba
  let endLba := parseInt record.endLba
  if hash.2 ∨ startLba.2 ∨ endLba.2 ∨ endLba.1 < startLba.1 then
    (startLba.1, endLba.1, hash.1, some record.join)
  else
    (startLba.1, endLba.1, hash.1, none)

/-- The loop of the goroutine of `readHashesFromFile` over the remaining records, `line`
being the loop counter: the ranges sent on `rangeChan` and the segments sent on
`segmentChan`. -/
def readHashesLoop (dataEndSector : Int) : List csvRecord → Nat → List readRange × List segment
  | [], _ => ([], [])
  | record :: rest, line =>
    let r := readSegmentLine record
    let startLba := r.1
    let endLba := r.2.1
    let err : Option String :=
      if endLba > dataEndSector then
        some ("segment with range (" ++ formatInt startLba ++ ", " ++ formatInt endLba ++
          ") exceeds input file range")
      else r.2.2.2
    let b := sectorToBytes startLba endLba
    let seg : segment := { start := b.1, length := b.2, hash := r.2.2.1 }
    let out := readHashesLoop dataEndSector rest (line + 1)
    match err with
    | some e =>
      (out.1, { seg with err := some ("Error in line " ++ formatInt line ++ ": " ++ e) } :: out.2)
    | none => ({ start := seg.start, length := seg.length } :: out.1, seg :: out.2)

/-- The function `readHashesFromFile`: the contents of `rangeChan` and of `segmentChan`. -/
def readHashesFromFile (hashes : List csvRecord) (dataSize : Int) :
    Except String (List readRange × List segment) :=
  match bytesToSectors 0 dataSize with
  | .error e => .error e
  | .ok s => .ok (readHashesLoop s.2 hashes 1)

/-! ## Data source -/

/-- A non-nil error returned by `Read`. -/
inductive readError where
  | eof
  | other (msg : String)
deriving DecidableEq

/-- The `io.ReadSeeker` that `readFile` reads from, over a state `σ`: `Read` is given the
length of the buffer and returns the bytes it stored and its error; `Seek` is
`Seek(offset, 0)`. -/
structure ReadSeeker (σ : Type) where
  Read : σ → Nat → σ × List Byte × Option readError
  Seek : σ → Int → Except String σ

/-- A data image held as bytes, with the offset of the next read. -/
structure memFile where
  data : List Byte
  pos : Nat
deriving DecidableEq

/-- `Read` on a regular file: the bytes available up to the buffer length; `io.EOF` with
zero bytes once the offset is at or past the end. -/
def memFile.Read (f : memFile) (len : Nat) : memFile × List Byte × Option readError :=
  let d := (f.data.drop f.pos).take len
  if len = 0 then (f, [], none)
  else if d = [] then (f, [], some .eof)
  else ({ f with pos := f.pos + d.length }, d, none)

/-- `Seek(offset, 0)` on a regular file: a negative offset is an error. -/
def memFile.Seek (f : memFile) (offset : Int) : Except String memFile :=
  if offset < 0 then .error "seek: invalid argument"
  else .ok { f with pos := offset.toNat }

/-- The data image as an `io.ReadSeeker`. -/
def memFile.readSeeker : ReadSeeker memFile := { Read := memFile.Read, Seek := memFile.Seek }

/-- The function `fileSize`. -/
def fileSize (input : memFile) : Int := input.data.length

/-! ## Double-Buffered Streamer (`segmenthash.go`) -/

/-- The constant `bufferSize`. -/
def bufferSize : Int := 2 * 1024 * 1024

/-- The inner loop of `readFile` for one range, `left` being its loop variable: the state
of the source after the loop and the chunks handed to each consumer. The `err` that `Read`
returns is local to the loop body; it only ends the loop. Every iteration that goes on
lowers `left` by at least one, so `fuel = left` iterations are enough. The two buffers only
alternate as storage and do not show in the values delivered. -/
def readRangeLoop {σ : Type} (input : ReadSeeker σ) (bufSize rangeStart : Int) :
    Nat → σ → Int → σ × List segmentChunk
  | 0, st, _ => (st, [])
  | fuel + 1, st, left =>
    if left > 0 then
      let want : Int := if left < bufSize then left else bufSize
      let r := input.Read st want.toNat
      let n : Int := r.2.1.length
      if n = 0 then (r.1, [])
      else
        let left1 := if n < want then n else left
        let left2 := left1 - n
        let chunk : segmentChunk :=
          { data := r.2.1, isLast := decide (left2 ≤ 0), baseSegmentStart := rangeStart }
        if r.2.2.isSome then (r.1, [chunk])
        else
          let rest := readRangeLoop input bufSize rangeStart fuel r.1 left2
          (rest.1, chunk :: rest.2)
    else (st, [])

/-- The outer loop of `readFile` over the ranges received, `currentReadOffset` being the
tracked offset: the chunks delivered, in order, or the fatal error of a failed `Seek`. -/
def readFileLoop {σ : Type} (input : ReadSeeker σ) (bufSize : Int) :
    List readRange → σ → Int → Except String (List segmentChunk)
  | [], _, _ => .ok []
  | r :: rs, st, currentReadOffset =>
    match (if r.start ≠ currentReadOffset then input.Seek st r.start else .ok st) with
    | .error e => .error e
    | .ok st1 =>
      let out := readRangeLoop input bufSize r.start r.length.toNat st1 r.length
      match readFileLoop input bufSize rs out.1 (wrap64 (r.start + r.length)) with
      | .error e => .error e
      | .ok rest => .ok (out.2 ++ rest)

/-- The statement `for i := range out { out[i] <- chunk }` over the whole run: every chunk
is handed to each of the consumers, in order. -/
def fanOut (consumersCount : Nat) : List segmentChunk → List (List segmentChunk)
  | [] => List.replicate consumersCount []
  | chunk :: rest => (fanOut consumersCount rest).map (fun out => chunk :: out)

/-- The function `readFile`: one chunk sequence per consumer. -/
def readFile {σ : Type} (input : ReadSeeker σ) (st : σ) (bufSize : Int) (consumersCount : Nat)
    (ranges : List readRange) : Except String (List (List segmentChunk)) :=
  match readFileLoop input bufSize ranges st 0 with
  | .error e => .error e
  | .ok chunks => .ok (fanOut consumersCount chunks)

/-! ## Segment Hasher (`segmenthash.go`, `util.go`) -/

/-- The struct `hashContainer`. The `hash.Hash` it holds is given by its digest function:
the state of the accumulator is the bytes written since the last `Reset`, and `Sum(nil)`
is the digest of those bytes. -/
structure hashContainer where
  h : List Byte → List Byte
  name : String

/-- The digest functions of `crypto/md5`, `crypto/sha1`, `crypto/sha256` and
`crypto/sha512`, with the digest sizes these packages declare. -/
structure Crypto where
  md5 : List Byte → List Byte
  sha1 : List Byte → List Byte
  sha224 : List Byte → List Byte
  sha256 : List Byte → List Byte
  sha384 : List Byte → List Byte
  sha512 : List Byte → List Byte
  md5_size : ∀ bs, (md5 bs).length = 16
  sha1_size : ∀ bs, (sha1 bs).length = 20
  sha224_size : ∀ bs, (sha224 bs).length = 28
  sha256_size : ∀ bs, (sha256 bs).length = 32
  sha384_size : ∀ bs, (sha384 bs).length = 48
  sha512_size : ∀ bs, (sha512 bs).length = 64

/-- The function `getHashContainerByHash`. -/
def getHashContainerByHash (c : Crypto) (hashBytes : List Byte) : Except String hashContainer :=
  if hashBytes.length = 16 then .ok { h := c.md5, name := "md5" }
  else if hashBytes.length = 20 then .ok { h := c.sha1, name := "sha1" }
  else if hashBytes.length = 28 then .ok { h := c.sha224, name := "sha224" }
  else if hashBytes.length = 32 then .ok { h := c.sha256, name := "sha256" }
  else if hashBytes.length = 48 then .ok { h := c.sha384, name := "sha384" }
  else if hashBytes.length = 64 then .ok { h := c.sha512, name := "sha512" }
  else .error ("unknown hash type with digest length " ++ formatInt hashBytes.length ++ ".")

/-- One iteration of the loop of `getHashContainersByNames`. -/
def getHashContainerByName (c : Crypto) (hashName : String) : Except String hashContainer :=
  if hashName = "md5" then .ok { h := c.md5, name := "md5" }
  else if hashName = "sha1" then .ok { h := c.sha1, name := "sha1" }
  else if hashName = "sha224" then .ok { h := c.sha224, name := "sha224" }
  else if hashName = "sha256" then .ok { h := c.sha256, name := "sha256" }
  else if hashName = "sha384" then .ok { h := c.sha384, name := "sha384" }
  else if hashName = "sha512" then .ok { h := c.sha512, name := "sha512" }
  else .error ("unknown hash type " ++ hashName)

/-- The function `getHashContainersByNames`. -/
def getHashContainersByNames (c : Crypto) : List String → Except String (List hashContainer)
  | [] => .ok []
  | hashName :: rest =>
    match getHashContainerByName c hashName with
    | .error e => .error e
    | .ok hc =>
      match getHashContainersByNames c rest with
      | .error e => .error e
      | .ok hcs => .ok (hc :: hcs)

/-- The loop of the goroutine of `calculateHash`: `currentSegment` is its variable and
`written` the bytes written to the accumulator since its last `Reset`. `finalizeSegment`
sends the segment with its digest and leaves the zero segment and a reset accumulator. The
running length is a sum of chunk sizes and is kept as an exact integer. -/
def calculateHashLoop (hc : hashContainer) : List segmentChunk → segment → List Byte → List segment
  | [], currentSegment, written =>
    if currentSegment.length > 0 then [{ currentSegment with hash := hc.h written }] else []
  | chunk :: rest, currentSegment, written =>
    let written := written ++ chunk.data
    let currentSegment :=
      if currentSegment.length = 0 then { currentSegment with start := chunk.baseSegmentStart }
      else currentSegment
    let currentSegment :=
      { currentSegment with length := currentSegment.length + chunk.data.length }
    if chunk.isLast then
      { currentSegment with hash := hc.h written } :: calculateHashLoop hc rest {} []
    else calculateHashLoop hc rest currentSegment written

/-- The function `calculateHash`: the segments sent on its output channel. -/
def calculateHash (hc : hashContainer) (chunks : List segmentChunk) : List segment :=
  calculateHashLoop hc chunks {} []

/-! ## Manifest Writer and `calc` (`util.go`, `calc.go`) -/

/-- The method `segment.ToStringSlice`: the manifest row of a segment. -/
def segment.ToStringSlice (seg : segment) : Except String csvRecord :=
  match bytesToSectors seg.start seg.length with
  | .error e => .error e
  | .ok lba =>
    .ok { hash := String.mk (hexEncode seg.hash), startLba := formatInt lba.1,
          endLba := formatInt lba.2 }

/-- The goroutine of `writeFile`: the rows written for the segments received, in order. -/
def writeFile : List segment → Except String (List csvRecord)
  | [] => .ok []
  | seg :: rest =>
    match seg.ToStringSlice with
    | .error e => .error e
    | .ok row =>
      match writeFile rest with
      | .error e => .error e
      | .ok rows => .ok (row :: rows)

/-- How a run ends: it completes with a result, it is aborted by `fatal`, or it is still
running when the iterations allowed to the Range Producer are used up. -/
inductive Outcome (α : Type) where
  | done (a : α)
  | fatal (msg : String)
  | running
deriving DecidableEq

/-- The struct `calcArgs`; `createOutputFile` gives the name of the sink it creates. -/
structure calcArgs where
  segmentSize : Int
  input : memFile
  hashNames : List String
  createOutputFile : String → String

/-- The loop `for i, segmentChunk := range segmentChunks` of `calc`: for each consumer, the
name of its output file and the rows written to it. -/
def calcOutputs (args : calcArgs) :
    List hashContainer → List (List segmentChunk) → Except String (List (String × List csvRecord))
  | hc :: hcs, segmentChunk :: rest =>
    match writeFile (calculateHash hc segmentChunk) with
    | .error e => .error e
    | .ok rows =>
      match calcOutputs args hcs rest with
      | .error e => .error e
      | .ok outs => .ok ((args.createOutputFile (hc.name ++ ".csv"), rows) :: outs)
  | _, _ => .ok []

/-- The function `calc` (a reserved word here, hence the name), the Range Producer being
allowed `fuel` iterations: the output file names with the manifests written. -/
def calcHashes (c : Crypto) (fuel : Nat) (args : calcArgs) :
    Outcome (List (String × List csvRecord)) :=
  if args.hashNames.length > 2 then
    .fatal "cannot calculate more than two hashes simultaneously"
  else
    match getHashContainersByNames c args.hashNames with
    | .error e => .fatal e
    | .ok hashContainers =>
      let readRanges := produceReadRanges fuel args.segmentSize (fileSize args.input)
      match readFile memFile.readSeeker args.input bufferSize hashContainers.length
          readRanges.1 with
      | .error e => .fatal e
      | .ok segmentChunks =>
        match calcOutputs args hashContainers segmentChunks with
        | .error e => .fatal e
        | .ok outs => if readRanges.2 then .done outs else .running

/-! ## Verifier (`verify.go`) -/

/-- The variables of `verifySegments` and its sink: `csvWriter` is `none` while no report
was created and holds the rows written afterwards; `created` counts the calls of
`createOutput`; `unread` is what `calculatorChan` still holds. -/
structure verifyState where
  diffs : Int := 0
  diffsFname : String := ""
  errors : Int := 0
  csvWriter : Option (List (List String)) := none
  created : Nat := 0
  unread : List segment := []
deriving DecidableEq

/-- The block `if csvWriter == nil { ... }`: the report is created on first use;
`outName` is the name of the sink that `createOutput` returns. -/
def verifyState.openWriter (st : verifyState) (outName : String) : verifyState :=
  match st.csvWriter with
  | some _ => st
  | none => { st with csvWriter := some [], diffsFname := outName, created := st.created + 1 }

/-- The functions `writeErrorLine` and `writeDiffLine`: a row is appended to the report. -/
def verifyState.writeLine (st : verifyState) (row : List String) : verifyState :=
  { st with csvWriter := st.csvWriter.map (fun rows => rows ++ [row]) }

/-- The loop of `verifySegments` over the segments of `fileChan`. A receive from the
closed, empty `calculatorChan` yields the zero segment. -/
def verifySegmentsLoop (outName : String) : List segment → verifyState → Except String verifyState
  | [], st => .ok st
  | fileSegment :: rest, st =>
    match fileSegment.err with
    | some e =>
      let st := st.openWriter outName
      let st := { st with errors := st.errors + 1 }
      verifySegmentsLoop outName rest (st.writeLine [e])
    | none =>
      let calculatedSegment : segment := st.unread.headD {}
      let st := { st with unread := st.unread.tail }
      if fileSegment.start ≠ calculatedSegment.start then
        .error ("Internal error: fileSegment start(" ++ formatInt fileSegment.start ++
          ") is different from calculatedSegment start(" ++ formatInt calculatedSegment.start ++ ")")
      else if fileSegment.hash ≠ calculatedSegment.hash then
        let st := st.openWriter outName
        let st := { st with diffs := st.diffs + 1 }
        match bytesToSectors fileSegment.start fileSegment.length with
        | .error e => .error e
        | .ok lba => verifySegmentsLoop outName rest (st.writeLine [formatInt lba.1, formatInt lba.2])
      else verifySegmentsLoop outName rest st

/-- The function `verifySegments`. -/
def verifySegments (outName : String) (calculatorChan fileChan : List segment) :
    Except String verifyState :=
  verifySegmentsLoop outName fileChan { unread := calculatorChan }

/-- The struct `verifyArgs`; `createOutputFile` is the name of the sink it would create. -/
structure verifyArgs where
  input : memFile
  segmentHashesInput : List csvRecord
  createOutputFile : String

/-- The function `verify`. Reading the first record of an empty manifest returns `io.EOF`,
which `checkErr` turns into a fatal error like any other error of the first row. -/
def verify (c : Crypto) (args : verifyArgs) : Except String verifyState :=
  match args.segmentHashesInput with
  | [] => .error "EOF"
  | first :: _ =>
    match (readSegmentLine first).2.2.2 with
    | some e => .error e
    | none =>
      match getHashContainerByHash c (readSegmentLine first).2.2.1 with
      | .error e => .error e
      | .ok hcontainer =>
        match readHashesFromFile args.segmentHashesInput (fileSize args.input) with
        | .error e => .error e
        | .ok r =>
          match readFile memFile.readSeeker args.input bufferSize 1 r.1 with
          | .error e => .error e
          | .ok segmentChunks =>
            verifySegments args.createOutputFile
              (calculateHash hcontainer (segmentChunks.headD [])) r.2

/-! ## Concrete inputs used to instantiate the theorems -/

/-- A stand-in for the crypto library with digests of the declared sizes: every digest is
zero but for its last byte, the sum of the input bytes modulo 256. -/
def sumCrypto : Crypto where
  md5 := fun bs => List.replicate 15 0 ++ [Fin.ofNat (bs.map Fin.val).sum]
  sha1 := fun bs => List.replicate 19 0 ++ [Fin.ofNat (bs.map Fin.val).sum]
  sha224 := fun bs => List.replicate 27 0 ++ [Fin.ofNat (bs.map Fin.val).sum]
  sha256 := fun bs => List.replicate 31 0 ++ [Fin.ofNat (bs.map Fin.val).sum]
  sha384 := fun bs => List.replicate 47 0 ++ [Fin.ofNat (bs.map Fin.val).sum]
  sha512 := fun bs => List.replicate 63 0 ++ [Fin.ofNat (bs.map Fin.val).sum]
  md5_size := by intro; simp
  sha1_size := by intro; simp
  sha224_size := by intro; simp
  sha256_size := by intro; simp
  sha384_size := by intro; simp
  sha512_size := by intro; simp

/-! ## Reference descriptions used in the statements -/

/-- The LBA pair that `bytesToSectors` computes for a segment whose start passes its
alignment check. -/
def lbaPair (seg : segment) : Int × Int :=
  (ceilSectors seg.start, ceilSectors seg.start + ceilSectors seg.length - 1)

/-- Number of expected Segments that carry an `err`. -/
def errorCount (expected : List segment) : Nat :=
  (expected.filter (fun e => e.err.isSome)).length

/-- The non-error expected Segments, in manifest order. -/
def nonErrors (expected : List segment) : List segment :=
  expected.filter (fun e => e.err.isNone)

/-- Number of non-error expected Segments whose digest differs from the digest of the
computed Segment paired with them (the k-th computed Segment goes with the k-th non-error
expected Segment). -/
def diffCount : List segment → List segment → Nat
  | [], _ => 0
  | e :: es, cs =>
    match e.err with
    | some _ => diffCount es cs
    | none =>
      (if e.hash ≠ (cs.headD {}).hash then 1 else 0) + diffCount es cs.tail

/-- The report as the Verifier is described: in manifest order, a one-field row with the
error text for an error Segment, a two-field row with the LBA pair for a Segment whose
digest differs from that of the computed Segment paired with it, and nothing for a match. -/
def expectedReport : List segment → List segment → List (List String)
  | [], _ => []
  | e :: es, cs =>
    match e.err with
    | some msg => [msg] :: expectedReport es cs
    | none =>
      if e.hash ≠ (cs.headD {}).hash then
        [formatInt (lbaPair e).1, formatInt (lbaPair e).2] :: expectedReport es cs.tail
      else expectedReport es cs.tail

/-- The rows held by a report that had the rows `w` (or was not created yet) after `rows`
were added: it stays absent only if nothing is added. -/
def appendReport (w : Option (List (List String))) (rows : List (List String)) :
    Option (List (List String)) :=
  match w with
  | some x => some (x ++ rows)
  | none => if rows = [] then none else some rows

/-- The start-LBA and end-LBA columns of a manifest. -/
def lbaColumns (rows : List csvRecord) : List (String × String) :=
  rows.map (fun r => (r.startLba, r.endLba))

/-- The outcome of two runs taken together: both complete and their outputs are joined,
or the first abort (in the order the runs are given) is the outcome, or a run is still
going. -/
def Outcome.both {α : Type} : Outcome (List α) → Outcome (List α) → Outcome (List α)
  | .done a, .done b => .done (a ++ b)
  | .fatal e, _ => .fatal e
  | _, .fatal e => .fatal e
  | _, _ => .running

/-- The hash names of the closed set of supported algorithms. -/
def supportedNames : List String := ["md5", "sha1", "sha224", "sha256", "sha384", "sha512"]

/-- The Segment that the Streamer and a Segment Hasher make of one range of a data image:
the bytes of the range that the image holds, with their digest. -/
def segmentOf (hc : hashContainer) (data : List Byte) (r : readRange) : segment :=
  { start := r.start,
    length := (min r.length.toNat (data.length - r.start.toNat) : Nat),
    hash := hc.h ((data.drop r.start.toNat).take (min r.length.toNat (data.length - r.start.toNat))) }

/-- Ranges that the Streamer reads without a seek from the offset `cur` of an image of
`size` bytes in chunks of `B` bytes: each starts where the previous one ends, inside the
image, and lies within the image, except that the last one may reach past the end when the
end of the image is not on a chunk boundary of that range. -/
def goodRanges (size B : Nat) : Int → List readRange → Prop
  | _, [] => True
  | cur, r :: rs =>
    r.start = cur ∧ 0 < r.length ∧ cur < size ∧
      ((r.start + r.length ≤ size ∧ goodRanges size B (cur + r.length) rs) ∨
       ((size - cur.toNat) % B ≠ 0 ∧ rs = []))

/-- The manifest row that the Manifest Writer makes of one range of a data image, when
the range lies within the image and its start is sector-aligned: digest of the bytes of the
range, then the sectors as `bytesToSectors` computes them. -/
def manifestRow (hc : hashContainer) (data : List Byte) (r : readRange) : csvRecord :=
  { hash := String.mk (hexEncode (hc.h ((data.drop r.start.toNat).take r.length.toNat))),
    startLba := formatInt (ceilSectors r.start),
    endLba := formatInt (ceilSectors r.start + ceilSectors r.length - 1) }

/-- A non-empty range that lies within an image of `size` bytes and starts on a sector
boundary. -/
def rangeOk (size : Nat) (r : readRange) : Prop :=
  0 ≤ r.start ∧ r.start % 512 = 0 ∧ 0 < r.length ∧ r.start + r.length ≤ size

/-- A range whose start and length are values that `float64` holds exactly. -/
def rangeExact (r : readRange) : Prop :=
  float64OfInt r.start = r.start ∧ float64OfInt r.length = r.length

/-- The range that the Manifest Reader derives from the manifest row of the range `r`. -/
def verifyRange (r : readRange) : readRange :=
  { start := (sectorToBytes (ceilSectors r.start) (ceilSectors r.start + ceilSectors r.length - 1)).1,
    length := (sectorToBytes (ceilSectors r.start) (ceilSectors r.start + ceilSectors r.length - 1)).2 }

/-- The expected Segment that the Manifest Reader derives from the manifest row of the
range `r` of the image `data`, when the row passes its checks. -/
def expectedSegment (hc : hashContainer) (data : List Byte) (r : readRange) : segment :=
  { start := (verifyRange r).start, length := (verifyRange r).length,
    hash := hc.h ((data.drop r.start.toNat).take r.length.toNat) }

/-- The sectors of the manifest row of `r` form a pair that the Manifest Reader parses
back: a non-negative first sector, not above the last one, within `int64`. -/
def sectorsOk (r : readRange) : Prop :=
  0 ≤ ceilSectors r.start ∧ 1 ≤ ceilSectors r.length ∧
    ceilSectors r.start + ceilSectors r.length - 1 ≤ maxInt64

/-- A range that ends on a sector boundary or at the end of an image of `size` bytes. -/
def rangeTight (size : Nat) (r : readRange) : Prop :=
  r.length % 512 = 0 ∨ r.start + r.length = size

instance (size : Nat) (r : readRange) : Decidable (rangeOk size r) := by
  unfold rangeOk; infer_instance

instance (r : readRange) : Decidable (rangeExact r) := by
  unfold rangeExact; infer_instance

instance (r : readRange) : Decidable (sectorsOk r) := by
  unfold sectorsOk; infer_instance

instance decGoodRanges (size B : Nat) :
    (cur : Int) → (rs : List readRange) → Decidable (goodRanges size B cur rs)
  | _, [] => isTrue trivial
  | cur, r :: rs =>
    have := decGoodRanges size B (cur + r.length) rs
    inferInstanceAs (Decidable (r.start = cur ∧ 0 < r.length ∧ cur < size ∧
      ((r.start + r.length ≤ size ∧ goodRanges size B (cur + r.length) rs) ∨
       ((size - cur.toNat) % B ≠ 0 ∧ rs = []))))

/-- An image of `2^53 + 1` zero bytes (8 PiB and one byte). -/
@[irreducible] def hugeImage : List Byte := List.replicate (2 ^ 53 + 1) 0

/-- The container that `getHashContainerByName` returns for `"md5"`. -/
def md5Container (c : Crypto) : hashContainer := { h := c.md5, name := "md5" }

/-- A manifest row that passes every check of the Manifest Reader for a data source whose
last sector is `dataEndSector`. -/
def rowValid (dataEndSector : Int) (record : csvRecord) : Prop :=
  (readSegmentLine record).2.2.2 = none ∧ ¬ (readSegmentLine record).2.1 > dataEndSector

instance (dataEndSector : Int) (record : csvRecord) : Decidable (rowValid dataEndSector record) := by
  unfold rowValid; infer_instance

/-! ## Report of the Verifier -/

/-- What holds of the variables of `verifySegments` between two iterations of its loop: the
counters are non-negative, the report was created (once, under the name `outName`) exactly
if a diff or an error was counted, and it holds one row per diff or error. -/
def reportInvariant (outName : String) (st : verifyState) : Prop :=
  0 ≤ st.diffs ∧ 0 ≤ st.errors ∧
  st.created = (if 0 < st.diffs + st.errors then 1 else 0) ∧
  st.diffsFname = (if 0 < st.diffs + st.errors then outName else "") ∧
  (st.csvWriter.isSome ↔ 0 < st.diffs + st.errors) ∧
  ((st.csvWriter.getD []).length : Int) = st.diffs + st.errors

/-! ## Digest lengths -/

/-- The supported hash names with the digest length of each, in bytes. -/
def digestLengths : List (String × Nat) :=
  [("md5", 16), ("sha1", 20), ("sha224", 28), ("sha256", 32), ("sha384", 48), ("sha512", 64)]

/-! ## Argument validation (`argsvalidation.go`) -/

/-- The constant `minSegmentSize`. -/
def minSegmentSize : Int := 2 * 1024 * 1024

/-- The function `checkSegmentSize`; `fatal` is the error outcome. -/
def checkSegmentSize (segmentSize : Int) : Except String Unit :=
  if segmentSize < minSegmentSize then .error "segment size is less then 2M"
  else if segmentSize.tmod sectorSize ≠ 0 then .error "segment size is not a multiple of 512."
  else .ok ()

/-! ## Entry point (`segmenthash.go`) -/

/-- The function `main`, given what `parseArgs` returned (`none` for a nil pointer): the exit
code of the process, or `none` while `calc` is still running after the iterations allowed to
the Range Producer. A verify run ends in `os.Exit(diffs)`; after `calc` the function returns
and the code is 0; every `fatal` is `os.Exit(255)`. -/
def main (c : Crypto) (fuel : Nat) (cArgs : Option calcArgs) (vArgs : Option verifyArgs) :
    Option Int :=
  match cArgs, vArgs with
  | some args, _ =>
    match calcHashes c fuel args with
    | .done _ => some 0
    | .fatal _ => some 255
    | .running => none
  | none, some args =>
    match verify c args with
    | .error _ => some 255
    | .ok st =>
      let diffs := st.diffs
      let diffs := if diffs > 254 then 254 else diffs
      some diffs
  | none, none => some 255

/-! ## Groups of chunks -/

/-- The Segment that a group of chunks stands for: start of its first chunk, total size of
its chunks and digest of their bytes taken together. -/
def groupSegment (hc : hashContainer) (g : List segmentChunk) : segment :=
  { start := match g with
      | [] => 0
      | c :: _ => c.baseSegmentStart,
    length := ((g.map (fun c => c.data.length)).sum : Nat),
    hash := hc.h (g.map (fun c => c.data)).flatten }

/-- A group of chunks as the Streamer delivers it for one range: it is not empty, no chunk
is empty, and exactly its last chunk has `isLast` set. -/
def chunkGroup (g : List segmentChunk) : Prop :=
  g ≠ [] ∧ (∀ c ∈ g, c.data ≠ []) ∧ (∀ c ∈ g.dropLast, c.isLast = false) ∧
    ∀ c ∈ g.getLast?, c.isLast = true

instance (g : List segmentChunk) : Decidable (chunkGroup g) := by
  unfold chunkGroup; infer_instance

/-- The chunks that the Streamer is to deliver for the range `r` of the image `data` with
the chunk size `bufSize`: `ceil(length / bufSize)` non-empty chunks of at most `bufSize`
bytes that carry the start of the range, all but the last of exactly `bufSize` bytes and
without `isLast`, the last one with `isLast`, which together hold the bytes
`[start, start + length)` of the image. -/
def rangeChunks (data : List Byte) (bufSize : Int) (r : readRange) (g : List segmentChunk) :
    Prop :=
  (g.length : Int) = ceilDiv r.length bufSize ∧
  (∀ c ∈ g, c.data ≠ [] ∧ (c.data.length : Int) ≤ bufSize ∧ c.baseSegmentStart = r.start) ∧
  (∀ c ∈ g.dropLast, (c.data.length : Int) = bufSize ∧ c.isLast = false) ∧
  (∀ c ∈ g.getLast?, c.isLast = true) ∧
  (g.map (fun c => c.data)).flatten = (data.drop r.start.toNat).take r.length.toNat

instance (data : List Byte) (bufSize : Int) (r : readRange) (g : List segmentChunk) :
    Decidable (rangeChunks data bufSize r g) := by
  unfold rangeChunks; infer_instance

/-! ## Physical reads of the Streamer -/

/-- One call `input.Read(bufferToRead)` of the inner loop of `readFile`: the length of
`bufferToRead`, the bytes that the call stored and the error it returned. -/
structure readCall where
  requested : Int
  data : List Byte
  err : Option readError
deriving DecidableEq

/-- The calls of `input.Read` that the inner loop of `readFile` makes for one range, in
order; the loop is that of `readRangeLoop`, with the calls recorded in place of the chunks. -/
def readRangeCalls {σ : Type} (input : ReadSeeker σ) (bufSize : Int) :
    Nat → σ → Int → List readCall
  | 0, _, _ => []
  | fuel + 1, st, left =>
    if left > 0 then
      let want : Int := if left < bufSize then left else bufSize
      let r := input.Read st want.toNat
      let n : Int := r.2.1.length
      let call : readCall := { requested := want, data := r.2.1, err := r.2.2 }
      if n = 0 then [call]
      else
        let left1 := if n < want then n else left
        let left2 := left1 - n
        if r.2.2.isSome then [call]
        else call :: readRangeCalls input bufSize fuel r.1 left2
    else []

/-! ## Interleavings of the Streamer and the Segment Hashers (`segmenthash.go`)

The goroutine of `readFile` and the goroutines of `calculateHash` as a transition system.
The channels `out[i]` are unbuffered, so a send and the matching receive are one step. A
fatal error ends the process, and with it a run, at the state it has reached. -/

/-- Where a Segment Hasher goroutine stands in the loop of `calculateHash`. -/
inductive hasherPc where
  /-- At `for chunk := range in`, ready to receive. -/
  | receiving
  /-- Inside `hc.h.Write(chunk.data)`: the bytes of the chunk are read out of
  `buffers[buffer]`, which `chunk.data` aliases. -/
  | absorbing (buffer : Nat)
  /-- After `Write` returned and before the next receive: the length is added and, on a last
  chunk, the Segment is sent; the bytes of the chunk are not read any more. -/
  | accounting
  /-- Out of the loop, the channel being closed. -/
  | finished
deriving DecidableEq

/-- A Segment Hasher goroutine: where it stands and how many chunks it has received. -/
structure hasherState where
  pc : hasherPc
  received : Nat
deriving DecidableEq

/-- Number of chunks that the hasher has absorbed in full: the chunks it received, less the
one it is absorbing. The chunks are numbered from 0, so these are the chunks below this
number. -/
def hasherState.absorbed (h : hasherState) : Nat :=
  match h.pc with
  | .absorbing _ => h.received - 1
  | _ => h.received

/-- Where the Streamer goroutine stands in `readFile`. -/
inductive streamerPc where
  /-- From the head of the loops to the return of `input.Read(bufferToRead)`, the call that
  stores into `buffers[curBuffer]`. -/
  | reading
  /-- In `for i := range out`, at the send `out[i] <- segmentChunk{...}`. -/
  | sending (i : Nat)
  /-- After the deferred `close(out[i])` of every channel. -/
  | closed
deriving DecidableEq

/-- The goroutines of one run: the Streamer with its variable `curBuffer`, the number
`chunk` (from 0) of the chunk that is being sent or that the next read returning data
produces, and the Segment Hashers, one per channel `out[i]`. -/
structure streamState where
  streamer : streamerPc
  curBuffer : Nat
  chunk : Nat
  hashers : List hasherState
deriving DecidableEq

/-- A step of the run, as the scheduler and the data source decide it. -/
inductive streamEvent where
  /-- The call `input.Read` returns `n > 0` bytes: the Streamer enters the send loop. -/
  | readData
  /-- The call `input.Read` returns no byte: the range is left and the Streamer is at the
  head of the loops again; `curBuffer` is not changed. -/
  | readNothing
  /-- The send `out[i] <- chunk` meets the receive of hasher `i`. -/
  | deliver
  /-- The send loop is over: `curBuffer = curBuffer ^ 1`, back to the head of the loops. -/
  | switch
  /-- The ranges are exhausted: every channel is closed. -/
  | close
  /-- The call `hc.h.Write(chunk.data)` of hasher `j` returns. -/
  | written (j : Nat)
  /-- Hasher `j` is back at its receive. -/
  | accounted (j : Nat)
  /-- Hasher `j` finds its channel closed and leaves the loop. -/
  | leave (j : Nat)
deriving DecidableEq

/-- The state after an event, or `none` if the event cannot happen in the state. -/
def streamStep (s : streamState) : streamEvent → Option streamState
  | .readData =>
    if s.streamer = .reading then some { s with streamer := .sending 0 } else none
  | .readNothing =>
    if s.streamer = .reading then some s else none
  | .deliver =>
    match s.streamer with
    | .sending i =>
      match s.hashers[i]? with
      | some h =>
        if h.pc = .receiving then
          some { s with
            streamer := .sending (i + 1),
            hashers := s.hashers.set i
              { pc := .absorbing s.curBuffer, received := h.received + 1 } }
        else none
      | none => none
    | _ => none
  | .switch =>
    if s.streamer = .sending s.hashers.length then
      some { s with streamer := .reading, curBuffer := s.curBuffer ^^^ 1, chunk := s.chunk + 1 }
    else none
  | .close =>
    if s.streamer = .reading then some { s with streamer := .closed } else none
  | .written j =>
    match s.hashers[j]? with
    | some h =>
      match h.pc with
      | .absorbing _ => some { s with hashers := s.hashers.set j { h with pc := .accounting } }
      | _ => none
    | none => none
  | .accounted j =>
    match s.hashers[j]? with
    | some h =>
      if h.pc = .accounting then
        some { s with hashers := s.hashers.set j { h with pc := .receiving } }
      else none
    | none => none
  | .leave j =>
    match s.hashers[j]? with
    | some h =>
      if s.streamer = .closed ∧ h.pc = .receiving then
        some { s with hashers := s.hashers.set j { h with pc := .finished } }
      else none
    | none => none

/-- The state reached by a sequence of events, if each of them can happen in its turn. -/
def streamRun : streamState → List streamEvent → Option streamState
  | s, [] => some s
  | s, e :: es =>
    match streamStep s e with
    | some s1 => streamRun s1 es
    | none => none

/-- The state in which `readFile` starts its goroutine, with `consumersCount` hashers at
their receive. -/
def streamStart (consumersCount : Nat) : streamState :=
  { streamer := .reading, curBuffer := 0, chunk := 0,
    hashers := List.replicate consumersCount { pc := .receiving, received := 0 } }

/-- What holds in every state of a run with `n` hashers: the buffer in use alternates with
the chunk number, a hasher that is absorbing reads the buffer of the last chunk it received,
and every hasher has received all the chunks sent so far. -/
def streamInvariant (n : Nat) (s : streamState) : Prop :=
  s.hashers.length = n ∧ s.curBuffer = s.chunk % 2 ∧
  (∀ (j : Nat) (h : hasherState), s.hashers[j]? = some h → ∀ b, h.pc = .absorbing b →
    1 ≤ h.received ∧ b = (h.received - 1) % 2) ∧
  (match s.streamer with
   | .sending i =>
     i ≤ n ∧ ∀ (j : Nat) (h : hasherState), s.hashers[j]? = some h →
       h.received = if j < i then s.chunk + 1 else s.chunk
   | _ => ∀ (j : Nat) (h : hasherState), s.hashers[j]? = some h → h.received = s.chunk)

/-! ## End of the chunk stream -/

/-- The chunks that follow the last chunk with `isLast` set (all the chunks if there is no
such chunk). -/
def trailingChunks : List segmentChunk → List segmentChunk
  | [] => []
  | c :: cs =>
    if cs.any (fun x => x.isLast) then trailingChunks cs
    else if c.isLast then cs
    else c :: cs

/-- Total number of bytes in a list of chunks. -/
def chunkBytes (chunks : List segmentChunk) : Nat := (chunks.map (fun c => c.data.length)).sum

/-! ## Range Producer: properties -/

theorem wrap64_of_isInt64 {x : Int} (h : isInt64 x) : wrap64 x = x := by
  unfold isInt64 minInt64 maxInt64 at h
  unfold wrap64
  omega

theorem produceReadRangesLoop_eq (seg size : Int) (hseg : 0 < seg) :
    ∀ (k fuel : Nat) (pb : Int), k ≤ fuel → 0 ≤ pb → size ≤ pb + k * seg →
      (k ≠ 0 → pb + ((k : Int) - 1) * seg < size) → pb + k * seg ≤ maxInt64 →
      produceReadRangesLoop seg size fuel pb = (rangesFrom seg size k pb, true) := by
  intro k
  induction k with
  | zero =>
    intro fuel pb _ _ h _ _
    have hlt : ¬ pb < size := by simpa using h
    cases fuel with
    | zero => simp [produceReadRangesLoop, rangesFrom, hlt]
    | succ f => simp [produceReadRangesLoop, rangesFrom, hlt]
  | succ k ih =>
    intro fuel pb hfuel hpb hcover hexact hmax
    obtain ⟨f, rfl⟩ : ∃ f, fuel = f + 1 := ⟨fuel - 1, by omega⟩
    have hks : (0 : Int) ≤ k * seg := by positivity
    have hexact' : pb + (k : Int) * seg < size := by
      have := hexact (by omega)
      push_cast at this
      simpa using this
    have hlt : pb < size := by linarith
    have hmax' : pb + seg + k * seg ≤ maxInt64 := by push_cast at hmax; linarith
    have hw1 : wrap64 (size - pb) = size - pb :=
      wrap64_of_isInt64 (by unfold isInt64 minInt64 maxInt64 at *; constructor <;> omega)
    have hw2 : wrap64 (pb + seg) = pb + seg :=
      wrap64_of_isInt64 (by unfold isInt64 minInt64 maxInt64 at *; constructor <;> linarith)
    have hrest := ih f (pb + seg) (by omega) (by linarith) (by push_cast at hcover; linarith)
      (by intro hk; have : (1:Int) ≤ k := by omega
          nlinarith) hmax'
    simp only [produceReadRangesLoop, hlt, if_true, hw1, hw2, hrest, rangesFrom]
    by_cases hc : size - pb < seg
    · simp [hc, min_eq_right (le_of_lt hc)]
    · simp [hc, min_eq_left (not_lt.mp hc)]


theorem ceilDiv_mul_ge (a b : Int) (hb : 0 < b) : a ≤ ceilDiv a b * b := by
  unfold ceilDiv
  have h := Int.ediv_mul_le (-a) (ne_of_gt hb)
  linarith

theorem ceilDiv_pred_mul_lt (a b : Int) (hb : 0 < b) : (ceilDiv a b - 1) * b < a := by
  unfold ceilDiv
  have h := Int.lt_ediv_add_one_mul_self (-a) hb
  linarith

theorem ceilDiv_nonneg (a b : Int) (ha : 0 ≤ a) (hb : 0 < b) : 0 ≤ ceilDiv a b := by
  by_contra hneg
  push_neg at hneg
  have h := ceilDiv_mul_ge a b hb
  have : ceilDiv a b * b < 0 := mul_neg_of_neg_of_pos hneg hb
  linarith

theorem ceilDiv_eq_zero_iff (a b : Int) (ha : 0 ≤ a) (hb : 0 < b) : ceilDiv a b = 0 ↔ a = 0 := by
  constructor
  · intro h
    have := ceilDiv_mul_ge a b hb
    rw [h] at this
    linarith
  · rintro rfl
    simp [ceilDiv]

theorem produceReadRanges_eq (seg size : Int) (hseg : 0 < seg) (hsize : 0 ≤ size)
    (hno : ceilDiv size seg * seg ≤ maxInt64) (fuel : Nat)
    (hfuel : (ceilDiv size seg).toNat ≤ fuel) :
    produceReadRanges fuel seg size = (rangesFrom seg size (ceilDiv size seg).toNat 0, true) := by
  have hn := ceilDiv_nonneg size seg hsize hseg
  have hcast : (((ceilDiv size seg).toNat : Nat) : Int) = ceilDiv size seg := Int.toNat_of_nonneg hn
  apply produceReadRangesLoop_eq seg size hseg _ fuel 0 hfuel le_rfl
  · rw [hcast]; have := ceilDiv_mul_ge size seg hseg; linarith
  · intro _; rw [hcast]; have := ceilDiv_pred_mul_lt size seg hseg; linarith
  · rw [hcast]; linarith

theorem rangesFrom_length (seg size : Int) (k : Nat) (s : Int) :
    (rangesFrom seg size k s).length = k := by
  induction k generalizing s with
  | zero => rfl
  | succ k ih => simp [rangesFrom, ih]

theorem rangesFrom_getElem? (seg size : Int) (k : Nat) (s : Int) (i : Nat) (hi : i < k) :
    (rangesFrom seg size k s)[i]? =
      some { start := s + i * seg, length := min seg (size - (s + i * seg)) } := by
  induction k generalizing s i with
  | zero => omega
  | succ k ih =>
    cases i with
    | zero => simp [rangesFrom]
    | succ i =>
      simp only [rangesFrom, List.getElem?_cons_succ]
      rw [ih (s + seg) i (by omega)]
      push_cast
      congr 2 <;> ring_nf

theorem rangesFrom_props (seg size : Int) (hseg : 0 < seg) :
    ∀ (k : Nat) (s : Int), size ≤ s + k * seg → (k ≠ 0 → s + ((k : Int) - 1) * seg < size) →
      contiguousFrom s (rangesFrom seg size k s) ∧
      (k ≠ 0 → totalLength (rangesFrom seg size k s) = size - s) ∧
      ∀ r ∈ rangesFrom seg size k s, 0 < r.length ∧ r.length ≤ seg := by
  intro k
  induction k with
  | zero => intro s _ _; simp [rangesFrom, contiguousFrom]
  | succ k ih =>
    intro s hcover hexact
    have hex : s + (k : Int) * seg < size := by
      have := hexact (by omega); push_cast at this; simpa using this
    have hks : (0 : Int) ≤ k * seg := by positivity
    have hlt : s < size := by linarith
    rcases Nat.eq_zero_or_pos k with hk | hk
    · subst hk
      have hmin : min seg (size - s) = size - s := min_eq_right (by push_cast at hcover; linarith)
      simp [rangesFrom, contiguousFrom, totalLength, hmin]
      constructor <;> [linarith; (push_cast at hcover; linarith)]
    · have h1 : (1 : Int) ≤ k := by omega
      have hmin : min seg (size - s) = seg := min_eq_left (by nlinarith)
      obtain ⟨hc, ht, hall⟩ := ih (s + seg) (by push_cast at hcover; linarith)
        (by intro _; nlinarith)
      refine ⟨?_, ?_, ?_⟩
      · simp [rangesFrom, contiguousFrom, hmin]
        exact hc
      · intro _
        have := ht (by omega)
        simp only [totalLength] at this
        simp [rangesFrom, totalLength, hmin, this]
        ring
      · intro r hr
        simp only [rangesFrom, List.mem_cons] at hr
        rcases hr with rfl | hr
        · simp [hmin, hseg]
        · exact hall r hr

theorem ceilDiv_eq_div (a b : Int) (hb : 0 < b) :
    ceilDiv a b = if a % b = 0 then a / b else a / b + 1 := by
  have h1 := ceilDiv_mul_ge a b hb
  have h2 := ceilDiv_pred_mul_lt a b hb
  have h3 := Int.emod_add_ediv a b
  have h4 := Int.emod_nonneg a (ne_of_gt hb)
  have h5 := Int.emod_lt_of_pos a hb
  split
  · next h0 =>
    rw [h0, zero_add] at h3
    have hle : a / b ≤ ceilDiv a b := by
      by_contra hc; push_neg at hc
      have : ceilDiv a b + 1 ≤ a / b := hc
      nlinarith
    have hge : ceilDiv a b ≤ a / b := by
      by_contra hc; push_neg at hc
      have : a / b + 1 ≤ ceilDiv a b := hc
      nlinarith
    omega
  · next h0 =>
    have hpos : 0 < a % b := lt_of_le_of_ne h4 (Ne.symm h0)
    have hle : a / b + 1 ≤ ceilDiv a b := by
      by_contra hc; push_neg at hc
      have : ceilDiv a b ≤ a / b := by omega
      nlinarith
    have hge : ceilDiv a b ≤ a / b + 1 := by
      by_contra hc; push_neg at hc
      have : a / b + 2 ≤ ceilDiv a b := by omega
      nlinarith
    omega

/-- C4 (amended): for `segmentSize > 0` and `totalSize ≥ 0` such that the loop counter
stays within `int64` (`ceil(totalSize / segmentSize) * segmentSize ≤ 2^63 - 1`, which holds
whenever `totalSize + segmentSize ≤ 2^63 - 1`), `produceReadRanges` closes its channel after
`ceil(totalSize / segmentSize)` iterations, and the ranges it sent are contiguous from offset
0 (each starts where the previous one ends), their lengths sum to `totalSize`, and every
range has `0 < length ≤ segmentSize`. -/
theorem produceReadRanges_partition (segmentSize totalSize : Int) (hseg : 0 < segmentSize)
    (hsize : 0 ≤ totalSize) (hno : ceilDiv totalSize segmentSize * segmentSize ≤ maxInt64)
    (fuel : Nat) (hfuel : (ceilDiv totalSize segmentSize).toNat ≤ fuel) :
    (produceReadRanges fuel segmentSize totalSize).2 = true ∧
    contiguousFrom 0 (produceReadRanges fuel segmentSize totalSize).1 ∧
    totalLength (produceReadRanges fuel segmentSize totalSize).1 = totalSize ∧
    ∀ r ∈ (produceReadRanges fuel segmentSize totalSize).1,
      0 < r.length ∧ r.length ≤ segmentSize := by
  rw [produceReadRanges_eq segmentSize totalSize hseg hsize hno fuel hfuel]
  have hn := ceilDiv_nonneg totalSize segmentSize hsize hseg
  have hcast : (((ceilDiv totalSize segmentSize).toNat : Nat) : Int) = ceilDiv totalSize segmentSize :=
    Int.toNat_of_nonneg hn
  obtain ⟨hc, ht, hall⟩ := rangesFrom_props segmentSize totalSize hseg
    (ceilDiv totalSize segmentSize).toNat 0
    (by rw [hcast]; have := ceilDiv_mul_ge totalSize segmentSize hseg; linarith)
    (by intro _; rw [hcast]; have := ceilDiv_pred_mul_lt totalSize segmentSize hseg; linarith)
  refine ⟨rfl, hc, ?_, hall⟩
  by_cases hk : (ceilDiv totalSize segmentSize).toNat = 0
  · have h0 : ceilDiv totalSize segmentSize = 0 := by omega
    have := (ceilDiv_eq_zero_iff totalSize segmentSize hsize hseg).mp h0
    rw [hk, this]
    simp [rangesFrom, totalLength]
  · simpa using ht hk

/-- Witness for C4: a 1300-byte source cut into 512-byte ranges. -/
theorem produceReadRanges_partition_witness :
    (produceReadRanges 3 512 1300).2 = true ∧
    contiguousFrom 0 (produceReadRanges 3 512 1300).1 ∧
    totalLength (produceReadRanges 3 512 1300).1 = 1300 ∧
    ∀ r ∈ (produceReadRanges 3 512 1300).1, 0 < r.length ∧ r.length ≤ 512 :=
  produceReadRanges_partition 512 1300 (by decide) (by decide) (by decide) 3 (by decide)

/-- C4 as stated fails: with `segmentSize = 2^63 - 2` and `totalSize = 2^63 - 1` (both
positive `int64` values) the counter wraps to `-4` after the second range, so the loop goes
on and sends a third range with a negative start and a negative length. -/
theorem produceReadRanges_partition_counterexample :
    isInt64 (2 ^ 63 - 2) ∧ isInt64 (2 ^ 63 - 1) ∧
    produceReadRanges 3 (2 ^ 63 - 2) (2 ^ 63 - 1) =
      ([⟨0, 2 ^ 63 - 2⟩, ⟨2 ^ 63 - 2, 1⟩, ⟨-4, -(2 ^ 63) + 3⟩], false) ∧
    ¬ (contiguousFrom 0 (produceReadRanges 3 (2 ^ 63 - 2) (2 ^ 63 - 1)).1 ∧
       ∀ r ∈ (produceReadRanges 3 (2 ^ 63 - 2) (2 ^ 63 - 1)).1, 0 < r.length) := by
  decide

/-- C5 (amended): for `segmentSize > 0` and `totalSize ≥ 0` such that the loop counter
stays within `int64` (`ceil(totalSize / segmentSize) * segmentSize ≤ 2^63 - 1`),
`produceReadRanges` sends exactly `ceil(totalSize / segmentSize)` ranges and closes the
channel: none when `totalSize = 0`; otherwise every range but the last has length
`segmentSize` and the last has length `totalSize mod segmentSize`, or `segmentSize` when
that remainder is 0. -/
theorem produceReadRanges_count (segmentSize totalSize : Int) (hseg : 0 < segmentSize)
    (hsize : 0 ≤ totalSize) (hno : ceilDiv totalSize segmentSize * segmentSize ≤ maxInt64)
    (fuel : Nat) (hfuel : (ceilDiv totalSize segmentSize).toNat ≤ fuel) :
    (produceReadRanges fuel segmentSize totalSize).2 = true ∧
    ((produceReadRanges fuel segmentSize totalSize).1.length : Int) =
      ceilDiv totalSize segmentSize ∧
    (totalSize = 0 → (produceReadRanges fuel segmentSize totalSize).1 = []) ∧
    (∀ i : Nat, i + 1 < (produceReadRanges fuel segmentSize totalSize).1.length →
      ((produceReadRanges fuel segmentSize totalSize).1[i]?).map (fun r => r.length) =
        some segmentSize) ∧
    (0 < totalSize →
      ((produceReadRanges fuel segmentSize totalSize).1.getLast?).map (fun r => r.length) =
        some (if totalSize % segmentSize = 0 then segmentSize
              else totalSize % segmentSize)) := by
  rw [produceReadRanges_eq segmentSize totalSize hseg hsize hno fuel hfuel]
  have hn := ceilDiv_nonneg totalSize segmentSize hsize hseg
  have hcast : (((ceilDiv totalSize segmentSize).toNat : Nat) : Int) = ceilDiv totalSize segmentSize :=
    Int.toNat_of_nonneg hn
  have hge := ceilDiv_mul_ge totalSize segmentSize hseg
  have hlt := ceilDiv_pred_mul_lt totalSize segmentSize hseg
  generalize hk : (ceilDiv totalSize segmentSize).toNat = k at hcast
  simp only [rangesFrom_length]
  refine ⟨trivial, hcast, ?_, ?_, ?_⟩
  · intro h0
    have := (ceilDiv_eq_zero_iff totalSize segmentSize hsize hseg).mpr h0
    have hk0 : k = 0 := by omega
    simp [hk0, rangesFrom]
  · intro i hi
    rw [rangesFrom_getElem? segmentSize totalSize k 0 i (by omega)]
    have h1 : (i : Int) + 1 + 1 ≤ k := by omega
    have : segmentSize ≤ totalSize - (0 + i * segmentSize) := by
      rw [← hcast] at hlt
      nlinarith
    simp only [Option.map_some', min_eq_left this]
  · intro hpos
    have hkpos : 0 < k := by
      rcases Nat.eq_zero_or_pos k with h | h
      · rw [h] at hcast
        have := (ceilDiv_eq_zero_iff totalSize segmentSize hsize hseg).mp hcast.symm
        omega
      · exact h
    rw [List.getLast?_eq_getElem?, rangesFrom_length,
      rangesFrom_getElem? segmentSize totalSize k 0 (k - 1) (by omega)]
    have hcd := ceilDiv_eq_div totalSize segmentSize hseg
    have h3 := Int.emod_add_ediv totalSize segmentSize
    have h4 := Int.emod_nonneg totalSize (ne_of_gt hseg)
    have h5 := Int.emod_lt_of_pos totalSize hseg
    have hk1 : (((k - 1 : Nat) : Nat) : Int) = ceilDiv totalSize segmentSize - 1 := by omega
    simp only [Option.map_some', hk1, Option.some.injEq]
    split at hcd
    · next h0 =>
      rw [if_pos h0]
      rw [h0] at h3
      rw [hcd]
      have : totalSize - (0 + (totalSize / segmentSize - 1) * segmentSize) = segmentSize := by
        linarith
      rw [this, min_self]
    · next h0 =>
      rw [if_neg h0, hcd]
      have : totalSize - (0 + (totalSize / segmentSize + 1 - 1) * segmentSize) =
          totalSize % segmentSize := by linarith
      rw [this]
      exact min_eq_right (le_of_lt h5)

/-- Witness for C5, the scenario of `TestPredefined`: 20,000,000 bytes in segments of
3,145,728 bytes give 7 ranges, six full ones and a last one of 1,125,632 bytes. -/
theorem produceReadRanges_count_witness :
    ceilDiv 20000000 3145728 = 7 ∧ (20000000 : Int) % 3145728 = 1125632 ∧
    (produceReadRanges 7 3145728 20000000).1.map (fun r => r.length) =
      [3145728, 3145728, 3145728, 3145728, 3145728, 3145728, 1125632] ∧
    ((produceReadRanges 7 3145728 20000000).2 = true ∧
    ((produceReadRanges 7 3145728 20000000).1.length : Int) = ceilDiv 20000000 3145728 ∧
    ((20000000 : Int) = 0 → (produceReadRanges 7 3145728 20000000).1 = []) ∧
    (∀ i : Nat, i + 1 < (produceReadRanges 7 3145728 20000000).1.length →
      ((produceReadRanges 7 3145728 20000000).1[i]?).map (fun r => r.length) =
        some 3145728) ∧
    ((0 : Int) < 20000000 →
      ((produceReadRanges 7 3145728 20000000).1.getLast?).map (fun r => r.length) =
        some (if (20000000 : Int) % 3145728 = 0 then 3145728
              else 20000000 % 3145728))) :=
  ⟨by decide, by decide, by decide,
    produceReadRanges_count 3145728 20000000 (by decide) (by decide) (by decide) 7 (by decide)⟩

/-- C5 as stated fails: with `segmentSize = 2^62 + 1` and `totalSize = 2^63 - 1` the
quotient rounds up to 2, but the counter wraps to a negative value after the second range
and a third range is sent (the channel is still open after it). -/
theorem produceReadRanges_count_counterexample :
    (0 : Int) < 2 ^ 62 + 1 ∧ isInt64 (2 ^ 62 + 1) ∧ isInt64 (2 ^ 63 - 1) ∧
    ceilDiv (2 ^ 63 - 1) (2 ^ 62 + 1) = 2 ∧
    (produceReadRanges 3 (2 ^ 62 + 1) (2 ^ 63 - 1)).1.length = 3 ∧
    (produceReadRanges 3 (2 ^ 62 + 1) (2 ^ 63 - 1)).2 = false := by
  decide

/-! ## Sector addressing: properties -/

theorem float64DropBits_of_lt (k : Nat) {n : Nat} (h : n < 2 ^ 53) :
    float64DropBits k n = 0 := by
  cases k with
  | zero => rfl
  | succ k => rw [float64DropBits, if_pos h]

theorem float64OfNat_of_lt {n : Nat} (h : n < 2 ^ 53) : float64OfNat n = n := by
  simp [float64OfNat, float64DropBits_of_lt 11 h, Nat.mod_one]

theorem float64OfInt_of_le {x : Int} (h0 : 0 ≤ x) (h : x ≤ 2 ^ 53) : float64OfInt x = x := by
  obtain ⟨n, rfl⟩ := Int.eq_ofNat_of_zero_le h0
  have hn : n ≤ 2 ^ 53 := by exact_mod_cast h
  unfold float64OfInt
  simp only [Int.natAbs_ofNat]
  rw [if_neg (by omega)]
  rcases Nat.lt_or_ge n (2 ^ 53) with hlt | hge
  · rw [float64OfNat_of_lt hlt]
  · have : n = 2 ^ 53 := by omega
    subst this
    decide

theorem ceilSectors_of_exact {x : Int} (h : float64OfInt x = x) :
    ceilSectors x = ceilDiv x 512 := by
  simp [ceilSectors, h, sectorSize]

theorem roundUp512_ge (length : Int) : length ≤ roundUp512 length :=
  ceilDiv_mul_ge length 512 (by decide)

theorem roundUp512_lt (length : Int) : roundUp512 length < length + 512 := by
  have := ceilDiv_pred_mul_lt length 512 (by decide)
  unfold roundUp512
  linarith

theorem bytesToSectors_of_aligned (start length : Int) (hstart : 0 ≤ start)
    (halign : start % 512 = 0) :
    bytesToSectors start length =
      .ok (ceilSectors start, ceilSectors start + ceilSectors length - 1) := by
  have htmod : start.tmod sectorSize = 0 := by
    rw [Int.tmod_eq_emod hstart (by decide)]; exact halign
  simp [bytesToSectors, htmod]

/-- C6 (amended): for every `start ≥ 0` that is a multiple of 512 and every `length ≥ 0`,
both `int64` values that `float64` represents exactly (every value up to `2^53` is), with
`roundUp512(length) ≤ 2^63 - 1`, `bytesToSectors` does not abort and
`sectorToBytes(bytesToSectors(start, length)) = (start, roundUp512(length))`. -/
theorem sectorToBytes_bytesToSectors (start length : Int) (hstart : 0 ≤ start)
    (halign : start % 512 = 0) (hlength : 0 ≤ length) (hmax : start ≤ maxInt64)
    (hfs : float64OfInt start = start) (hfl : float64OfInt length = length)
    (hround : roundUp512 length ≤ maxInt64) :
    (bytesToSectors start length).map (fun p => sectorToBytes p.1 p.2) =
      .ok (start, roundUp512 length) := by
  have hs : ceilSectors start * 512 = start := by
    rw [ceilSectors_of_exact hfs]; unfold ceilDiv; omega
  have hge := roundUp512_ge length
  unfold roundUp512 at hround hge ⊢
  rw [← ceilSectors_of_exact hfl] at hround hge ⊢
  unfold maxInt64 at hround hmax
  rw [bytesToSectors_of_aligned start length hstart halign]
  simp only [Except.map, sectorToBytes, sectorSize, Except.ok.injEq, Prod.mk.injEq]
  generalize ceilSectors start = a at hs ⊢
  generalize ceilSectors length = b at hround hge ⊢
  unfold wrap64
  constructor <;> omega

/-- Witness for C6: the range starting at byte 1024 with 700 bytes. -/
theorem sectorToBytes_bytesToSectors_witness :
    (bytesToSectors 1024 700).map (fun p => sectorToBytes p.1 p.2) =
      .ok (1024, roundUp512 700) :=
  sectorToBytes_bytesToSectors 1024 700 (by decide) (by decide) (by decide) (by decide)
    (by decide) (by decide) (by decide)

/-- C6 as stated fails at the top of the `int64` range: for `start = 0` and
`length = 2^63 - 1` the least multiple of 512 above `length` is `2^63`, which no `int64`
holds; `sectorToBytes` returns the length `-2^63`. -/
theorem sectorToBytes_bytesToSectors_counterexample :
    isInt64 (2 ^ 63 - 1) ∧ roundUp512 (2 ^ 63 - 1) = 2 ^ 63 ∧
    (bytesToSectors 0 (2 ^ 63 - 1)).map (fun p => sectorToBytes p.1 p.2) =
      .ok (0, -(2 ^ 63)) ∧
    (bytesToSectors 0 (2 ^ 63 - 1)).map (fun p => sectorToBytes p.1 p.2) ≠
      .ok (0, roundUp512 (2 ^ 63 - 1)) := by
  decide

/-! ## Manifest Reader: properties -/

set_option maxRecDepth 4000 in
/-- C9, evaluated where the code departs from it: the row `…,-5,-3` has a valid digest and
two fields that `strconv.ParseInt` accepts, with `-3 ≥ -5` and `-3` below the last sector
of a 600-byte image, so `readHashesFromFile` emits its Segment without `err` and a range
starting at byte `-2560`; `verify` on that manifest is aborted by the failed `Seek`. -/
theorem readHashesFromFile_negative_lba :
    parseInt "-5" = (-5, false) ∧ parseInt "-3" = (-3, false) ∧
    (readHashesFromFile [⟨"d41d8cd98f00b204e9800998ecf8427e", "-5", "-3"⟩] 600).map
        (fun r => (r.1, r.2.map (fun s => (s.start, s.length, s.err)))) =
      .ok ([⟨-2560, 1536⟩], [(-2560, 1536, none)]) ∧
    verify sumCrypto ⟨⟨List.replicate 600 0, 0⟩,
        [⟨"d41d8cd98f00b204e9800998ecf8427e", "-5", "-3"⟩], "diffs.csv"⟩ =
      .error "seek: invalid argument" := by
  refine ⟨by decide, by decide, by decide, by decide⟩

/-! ## Verifier: properties -/

theorem bytesToSectors_of_tmod (start length : Int) (h : start.tmod 512 = 0) :
    bytesToSectors start length =
      .ok (ceilSectors start, ceilSectors start + ceilSectors length - 1) := by
  simp [bytesToSectors, sectorSize, h]

theorem appendReport_some_cons (w : Option (List (List String))) (row : List String)
    (rows : List (List String)) :
    appendReport (some (w.getD [] ++ [row])) rows = appendReport w (row :: rows) := by
  cases w <;> simp [appendReport]

theorem verifySegmentsLoop_spec (outName : String) :
    ∀ (expected : List segment) (st : verifyState),
      (nonErrors expected).map (fun e => e.start) <+: st.unread.map (fun c => c.start) →
      (∀ e ∈ expected, e.err = none → e.start.tmod 512 = 0) →
      ∃ st', verifySegmentsLoop outName expected st = .ok st' ∧
        st'.errors = st.errors + errorCount expected ∧
        st'.diffs = st.diffs + diffCount expected st.unread ∧
        st'.unread = st.unread.drop (nonErrors expected).length ∧
        st'.csvWriter = appendReport st.csvWriter (expectedReport expected st.unread) ∧
        st'.created = st.created +
          (if st.csvWriter = none ∧ expectedReport expected st.unread ≠ [] then 1 else 0) ∧
        st'.diffsFname =
          (if st.csvWriter = none ∧ expectedReport expected st.unread ≠ [] then outName
           else st.diffsFname) := by
  intro expected
  induction expected with
  | nil =>
    intro st _ _
    refine ⟨st, rfl, ?_⟩
    cases h : st.csvWriter <;> simp [errorCount, diffCount, nonErrors, expectedReport, appendReport]
  | cons e es ih =>
    intro st hpre hal
    have hal' : ∀ x ∈ es, x.err = none → x.start.tmod 512 = 0 :=
      fun x hx => hal x (List.mem_cons_of_mem _ hx)
    cases herr : e.err with
    | some msg =>
      have hne : nonErrors (e :: es) = nonErrors es := by simp [nonErrors, herr]
      rw [hne] at hpre
      obtain ⟨st', hrun, h1, h2, h3, h4, h5, h6⟩ :=
        ih (({ st.openWriter outName with errors := (st.openWriter outName).errors + 1 } :
          verifyState).writeLine [msg]) (by
            cases hw : st.csvWriter <;>
              simpa [verifyState.writeLine, verifyState.openWriter, hw] using hpre) hal'
      refine ⟨st', ?_, ?_, ?_, ?_, ?_, ?_, ?_⟩
      · simp only [verifySegmentsLoop, herr]; exact hrun
      · rw [h1]
        cases hw : st.csvWriter <;>
          simp [verifyState.writeLine, verifyState.openWriter, hw, errorCount, herr] <;> ring
      · rw [h2]
        cases hw : st.csvWriter <;>
          simp [verifyState.writeLine, verifyState.openWriter, hw, diffCount, herr]
      · rw [h3, hne]
        cases hw : st.csvWriter <;> simp [verifyState.writeLine, verifyState.openWriter, hw]
      · rw [h4]
        cases hw : st.csvWriter <;>
          simp [verifyState.writeLine, verifyState.openWriter, hw, expectedReport, herr,
            appendReport]
      · rw [h5]
        cases hw : st.csvWriter <;>
          simp [verifyState.writeLine, verifyState.openWriter, hw, expectedReport, herr]
      · rw [h6]
        cases hw : st.csvWriter <;>
          simp [verifyState.writeLine, verifyState.openWriter, hw, expectedReport, herr]
    | none =>
      have hne : nonErrors (e :: es) = e :: nonErrors es := by simp [nonErrors, herr]
      rw [hne] at hpre
      obtain ⟨c, cs, hcs⟩ : ∃ c cs, st.unread = c :: cs := by
        cases hu : st.unread with
        | nil => rw [hu] at hpre; simp at hpre
        | cons c cs => exact ⟨c, cs, rfl⟩
      rw [hcs] at hpre
      simp only [List.map_cons, List.cons_prefix_cons] at hpre
      obtain ⟨hstart, hpre'⟩ := hpre
      have hb := bytesToSectors_of_tmod e.start e.length (hal e (List.mem_cons_self _ _) herr)
      by_cases hh : e.hash = c.hash
      · obtain ⟨st', hrun, h1, h2, h3, h4, h5, h6⟩ :=
          ih { st with unread := st.unread.tail } (by simpa [hcs] using hpre') hal'
        refine ⟨st', ?_, ?_, ?_, ?_, ?_, ?_, ?_⟩
        · simp only [verifySegmentsLoop, herr, hcs, List.headD_cons]
          rw [if_neg (not_not.mpr hstart), if_neg (not_not.mpr hh)]
          simpa [hcs] using hrun
        · rw [h1]; simp [errorCount, herr]
        · rw [h2]; simp [diffCount, herr, hcs, hh]
        · rw [h3, hne]; simp [hcs]
        · rw [h4]; simp [expectedReport, herr, hcs, hh]
        · rw [h5]; simp [expectedReport, herr, hcs, hh]
        · rw [h6]; simp [expectedReport, herr, hcs, hh]
      · obtain ⟨st', hrun, h1, h2, h3, h4, h5, h6⟩ :=
          ih (({ ({ st with unread := st.unread.tail } : verifyState).openWriter outName with
              diffs := (({ st with unread := st.unread.tail } : verifyState).openWriter
                outName).diffs + 1 } : verifyState).writeLine
              [formatInt (lbaPair e).1, formatInt (lbaPair e).2]) (by
            cases hw : st.csvWriter <;>
              simpa [verifyState.writeLine, verifyState.openWriter, hw, hcs] using hpre') hal'
        refine ⟨st', ?_, ?_, ?_, ?_, ?_, ?_, ?_⟩
        · simp only [verifySegmentsLoop, herr, hcs, List.headD_cons]
          rw [if_neg (not_not.mpr hstart), if_pos hh, hb]
          simpa [hcs, lbaPair] using hrun
        · rw [h1]
          cases hw : st.csvWriter <;>
            simp [verifyState.writeLine, verifyState.openWriter, hw, errorCount, herr]
        · rw [h2]
          cases hw : st.csvWriter <;>
            simp [verifyState.writeLine, verifyState.openWriter, hw, diffCount, herr, hcs, hh] <;>
            ring
        · rw [h3, hne]
          cases hw : st.csvWriter <;>
            simp [verifyState.writeLine, verifyState.openWriter, hw, hcs]
        · rw [h4]
          cases hw : st.csvWriter <;>
            simp [verifyState.writeLine, verifyState.openWriter, hw, expectedReport, herr, hcs,
              hh, appendReport]
        · rw [h5]
          cases hw : st.csvWriter <;>
            simp [verifyState.writeLine, verifyState.openWriter, hw, expectedReport, herr, hcs, hh]
        · rw [h6]
          cases hw : st.csvWriter <;>
            simp [verifyState.writeLine, verifyState.openWriter, hw, expectedReport, herr, hcs, hh]

/-- C10 (amended): for every expected Segment sequence whose non-error Segments have
sector-aligned starts, and every computed Segment sequence whose starts agree pairwise with
the non-error expected Segments, `verifySegments` completes and returns errors = number of
expected Segments carrying an err, diffs = number of non-error expected Segments whose
digest differs from the digest of the corresponding computed Segment; it consumes exactly
one computed Segment per non-error expected Segment and none per error Segment, and the
report holds one row per error (one field) or diff (two fields) in manifest order and
nothing for matching segments (no report exists when there is no such row). -/
theorem verifySegments_classifies (outName : String) (computed expected : List segment)
    (hstart : (nonErrors expected).map (fun e => e.start) <+: computed.map (fun c => c.start))
    (halign : ∀ e ∈ expected, e.err = none → e.start.tmod 512 = 0) :
    ∃ st, verifySegments outName computed expected = .ok st ∧
      st.errors = errorCount expected ∧
      st.diffs = diffCount expected computed ∧
      st.unread = computed.drop (nonErrors expected).length ∧
      st.csvWriter = (if expectedReport expected computed = [] then none
                      else some (expectedReport expected computed)) := by
  obtain ⟨st, hrun, h1, h2, h3, h4, -, -⟩ :=
    verifySegmentsLoop_spec outName expected { unread := computed } hstart halign
  refine ⟨st, hrun, ?_, ?_, h3, ?_⟩
  · simpa using h1
  · simpa using h2
  · simpa [appendReport] using h4

/-- Witness for C10: an error row, a matching row and a differing row. -/
theorem verifySegments_classifies_witness :
    ∃ st, verifySegments "diffs.csv"
        [{ start := 0, length := 512, hash := [1] }, { start := 512, length := 512, hash := [2] }]
        [{ start := 0, length := 0, err := some "Error in line 1: zz,0,0" },
         { start := 0, length := 512, hash := [1] },
         { start := 512, length := 512, hash := [3] }] = .ok st ∧
      st.errors = errorCount
        [{ start := 0, length := 0, err := some "Error in line 1: zz,0,0" },
         { start := 0, length := 512, hash := [1] },
         { start := 512, length := 512, hash := [3] }] ∧
      st.diffs = diffCount
        [{ start := 0, length := 0, err := some "Error in line 1: zz,0,0" },
         { start := 0, length := 512, hash := [1] },
         { start := 512, length := 512, hash := [3] }]
        [{ start := 0, length := 512, hash := [1] }, { start := 512, length := 512, hash := [2] }] ∧
      st.unread = List.drop (nonErrors
        [{ start := 0, length := 0, err := some "Error in line 1: zz,0,0" },
         { start := 0, length := 512, hash := [1] },
         { start := 512, length := 512, hash := [3] }]).length
        [{ start := 0, length := 512, hash := [1] }, { start := 512, length := 512, hash := [2] }] ∧
      st.csvWriter = (if expectedReport
        [{ start := 0, length := 0, err := some "Error in line 1: zz,0,0" },
         { start := 0, length := 512, hash := [1] },
         { start := 512, length := 512, hash := [3] }]
        [{ start := 0, length := 512, hash := [1] }, { start := 512, length := 512, hash := [2] }]
          = [] then none
        else some (expectedReport
        [{ start := 0, length := 0, err := some "Error in line 1: zz,0,0" },
         { start := 0, length := 512, hash := [1] },
         { start := 512, length := 512, hash := [3] }]
        [{ start := 0, length := 512, hash := [1] },
         { start := 512, length := 512, hash := [2] }])) :=
  verifySegments_classifies "diffs.csv" _ _ (by decide) (by decide)

/-- C10 as stated fails: the expected Segment and the computed Segment both start at byte
5, so their starts agree, and their digests differ; `verifySegments` is aborted by the
alignment check of `bytesToSectors` instead of returning one diff. -/
theorem verifySegments_classifies_counterexample :
    (nonErrors [{ start := 5, length := 10, hash := [1] }]).map (fun e => e.start) <+:
      ([{ start := 5, length := 10, hash := [2] }] : List segment).map (fun c => c.start) ∧
    verifySegments "diffs.csv" [{ start := 5, length := 10, hash := [2] }]
      [{ start := 5, length := 10, hash := [1] }] =
      .error "segment start is not sector aligned. start=5" := by
  decide

/-! ## Fan-out -/

theorem fanOut_eq_replicate (n : Nat) (chunks : List segmentChunk) :
    fanOut n chunks = List.replicate n chunks := by
  induction chunks with
  | nil => rfl
  | cons c cs ih => simp [fanOut, ih]

theorem calculateHashLoop_geometry (hc1 hc2 : hashContainer) (chunks : List segmentChunk) :
    ∀ (cur1 cur2 : segment) (w1 w2 : List Byte),
      cur1.start = cur2.start → cur1.length = cur2.length →
      (calculateHashLoop hc1 chunks cur1 w1).map (fun s => (s.start, s.length)) =
        (calculateHashLoop hc2 chunks cur2 w2).map (fun s => (s.start, s.length)) := by
  induction chunks with
  | nil =>
    intro cur1 cur2 w1 w2 hs hl
    simp only [calculateHashLoop, hl]
    split <;> simp [hs, hl]
  | cons c cs ih =>
    intro cur1 cur2 w1 w2 hs hl
    simp only [calculateHashLoop, hl]
    by_cases h0 : cur2.length = 0 <;> by_cases hlast : c.isLast = true
    · simp [h0, hlast, ih {} {} [] [] rfl rfl]
    · simp only [h0, hlast, if_true, Bool.false_eq_true, if_false]
      exact ih _ _ _ _ rfl rfl
    · simp [h0, hlast, ih {} {} [] [] rfl rfl, hs, hl]
    · simp only [h0, hlast, if_false, Bool.false_eq_true]
      exact ih _ _ _ _ hs (by simp [hl])

theorem writeFile_geometry :
    ∀ (segs1 segs2 : List segment),
      segs1.map (fun s => (s.start, s.length)) = segs2.map (fun s => (s.start, s.length)) →
      (∀ e, writeFile segs1 = .error e ↔ writeFile segs2 = .error e) ∧
      (∀ rows1 rows2, writeFile segs1 = .ok rows1 → writeFile segs2 = .ok rows2 →
        lbaColumns rows1 = lbaColumns rows2) := by
  intro segs1
  induction segs1 with
  | nil =>
    intro segs2 h
    have : segs2 = [] := by simpa using h.symm
    subst this
    simp [writeFile, lbaColumns]
  | cons s1 r1 ih =>
    intro segs2 h
    cases segs2 with
    | nil => simp at h
    | cons s2 r2 =>
      simp only [List.map_cons, List.cons.injEq, Prod.mk.injEq] at h
      obtain ⟨⟨hs, hl⟩, hr⟩ := h
      obtain ⟨ihe, iho⟩ := ih r2 hr
      simp only [writeFile, segment.ToStringSlice, hs, hl]
      cases hb : bytesToSectors s2.start s2.length with
      | error e => simp
      | ok lba =>
        cases h1 : writeFile r1 with
        | error e1 =>
          have := (ihe e1).mp h1
          simp [this]
        | ok rows1 =>
          cases h2 : writeFile r2 with
          | error e2 =>
            have := (ihe e2).mpr h2
            rw [h1] at this
            simp at this
          | ok rows2 =>
            have := iho rows1 rows2 h1 h2
            simp only [lbaColumns] at this
            simp [lbaColumns, this]

theorem getHashContainerByName_of_supported (c : Crypto) (n : String)
    (h : n ∈ supportedNames) : ∃ hc, getHashContainerByName c n = .ok hc := by
  simp only [supportedNames, List.mem_cons, List.mem_singleton, List.not_mem_nil, or_false] at h
  rcases h with rfl | rfl | rfl | rfl | rfl | rfl <;>
    simp [getHashContainerByName]

theorem readFile_consumers {σ : Type} (input : ReadSeeker σ) (st : σ) (bufSize : Int) (k : Nat)
    (ranges : List readRange) :
    readFile input st bufSize k ranges =
      (readFileLoop input bufSize ranges st 0).map (fun chunks => List.replicate k chunks) := by
  unfold readFile
  cases readFileLoop input bufSize ranges st 0 <;> simp [Except.map, fanOut_eq_replicate]

/-- C8: for every image, segment size and pair of supported hash names, `calc` with the two
names hands the identical chunk sequence to both hashers (the one a single hasher would
get), its outcome is the two single-algorithm outcomes taken together (the same two
manifests when they complete), and the two manifests have the same number of rows and the
same startLBA and endLBA columns row by row. -/
theorem calc_fan_out (c : Crypto) (fuel : Nat) (segmentSize : Int) (input : memFile)
    (createOutputFile : String → String) (n1 n2 : String)
    (h1 : n1 ∈ supportedNames) (h2 : n2 ∈ supportedNames) :
    (∀ ranges, readFile memFile.readSeeker input bufferSize 2 ranges =
      (readFile memFile.readSeeker input bufferSize 1 ranges).map (fun one => one ++ one)) ∧
    calcHashes c fuel ⟨segmentSize, input, [n1, n2], createOutputFile⟩ =
      Outcome.both (calcHashes c fuel ⟨segmentSize, input, [n1], createOutputFile⟩)
        (calcHashes c fuel ⟨segmentSize, input, [n2], createOutputFile⟩) ∧
    (∀ outs, calcHashes c fuel ⟨segmentSize, input, [n1, n2], createOutputFile⟩ = .done outs →
      ∃ name1 rows1 name2 rows2, outs = [(name1, rows1), (name2, rows2)] ∧
        rows1.length = rows2.length ∧ lbaColumns rows1 = lbaColumns rows2) := by
  obtain ⟨hc1, e1⟩ := getHashContainerByName_of_supported c n1 h1
  obtain ⟨hc2, e2⟩ := getHashContainerByName_of_supported c n2 h2
  have hfan : ∀ ranges, readFile memFile.readSeeker input bufferSize 2 ranges =
      (readFile memFile.readSeeker input bufferSize 1 ranges).map (fun one => one ++ one) := by
    intro ranges
    rw [readFile_consumers, readFile_consumers]
    cases readFileLoop memFile.readSeeker bufferSize ranges input 0 <;> simp [Except.map]
  refine ⟨hfan, ?_⟩
  simp only [calcHashes, getHashContainersByNames, e1, e2, List.length_cons, List.length_nil,
    readFile_consumers]
  cases hr : readFileLoop memFile.readSeeker bufferSize
      (produceReadRanges fuel segmentSize (fileSize input)).1 input 0 with
  | error e => simp [Except.map, Outcome.both]
  | ok chunks =>
    obtain ⟨hge, hgo⟩ := writeFile_geometry (calculateHash hc1 chunks) (calculateHash hc2 chunks)
      (calculateHashLoop_geometry hc1 hc2 chunks {} {} [] [] rfl rfl)
    simp only [Except.map, List.replicate, calcOutputs]
    cases hw1 : writeFile (calculateHash hc1 chunks) with
    | error e =>
      simp [Outcome.both]
    | ok rows1 =>
      cases hw2 : writeFile (calculateHash hc2 chunks) with
      | error e =>
        have := (hge e).mpr hw2
        rw [hw1] at this
        simp at this
      | ok rows2 =>
        have hcols := hgo rows1 rows2 hw1 hw2
        have hlen : rows1.length = rows2.length := by
          have := congrArg List.length hcols
          simpa [lbaColumns] using this
        cases hclosed : (produceReadRanges fuel segmentSize (fileSize input)).2
        · simp [Outcome.both]
        · have g1 : ¬ (0 + 1 + 1 > 2) := by decide
          have g2 : ¬ (0 + 1 > 2) := by decide
          simp only [Outcome.both, if_true, g1, g2, if_false, List.singleton_append, true_and,
            Outcome.done.injEq]
          intro outs houts
          exact ⟨_, rows1, _, rows2, houts.symm, hlen, hcols⟩

/-- Witness for C8: MD5 and SHA-1 requested together, as in the tests. -/
theorem calc_fan_out_witness :
    (∀ ranges, readFile memFile.readSeeker ⟨[1, 2, 3], 0⟩ bufferSize 2 ranges =
      (readFile memFile.readSeeker ⟨[1, 2, 3], 0⟩ bufferSize 1 ranges).map
        (fun one => one ++ one)) ∧
    calcHashes sumCrypto 1 ⟨512, ⟨[1, 2, 3], 0⟩, ["md5", "sha1"], id⟩ =
      Outcome.both (calcHashes sumCrypto 1 ⟨512, ⟨[1, 2, 3], 0⟩, ["md5"], id⟩)
        (calcHashes sumCrypto 1 ⟨512, ⟨[1, 2, 3], 0⟩, ["sha1"], id⟩) ∧
    (∀ outs, calcHashes sumCrypto 1 ⟨512, ⟨[1, 2, 3], 0⟩, ["md5", "sha1"], id⟩ = .done outs →
      ∃ name1 rows1 name2 rows2, outs = [(name1, rows1), (name2, rows2)] ∧
        rows1.length = rows2.length ∧ lbaColumns rows1 = lbaColumns rows2) :=
  calc_fan_out sumCrypto 1 512 ⟨[1, 2, 3], 0⟩ id "md5" "sha1" (by decide) (by decide)

/-! ## Streamer and Segment Hasher over a data image -/

theorem memFile_Read_spec (f : memFile) (m : Nat) (hm : 0 < m) (hp : f.pos < f.data.length) :
    memFile.Read f m =
      ({ f with pos := f.pos + min m (f.data.length - f.pos) },
        (f.data.drop f.pos).take m, none) := by
  have hlen : ((f.data.drop f.pos).take m).length = min m (f.data.length - f.pos) := by
    simp
  have hne : (f.data.drop f.pos).take m ≠ [] := by
    intro h
    rw [h] at hlen
    simp at hlen
    omega
  simp only [memFile.Read, Nat.ne_of_gt hm, if_false, hne, hlen]

theorem readSeeker_Read (f : memFile) (m : Nat) :
    memFile.readSeeker.Read f m = memFile.Read f m := rfl

theorem readSeeker_Seek (f : memFile) (offset : Int) :
    memFile.readSeeker.Seek f offset = memFile.Seek f offset := rfl

theorem readRange_left (l B avail : Nat) :
    (if ((min (min l B) avail : Nat) : Int) < (if (l : Int) < B then (l : Int) else B)
      then ((min (min l B) avail : Nat) : Int) else (l : Int)) - ((min (min l B) avail : Nat) : Int) =
    if (avail < min l B ∨ l ≤ B) then 0 else ((l - B : Nat) : Int) := by
  split_ifs <;> omega

theorem readRangeLoop_zero {σ : Type} (input : ReadSeeker σ) (bufSize start : Int) (fuel : Nat)
    (st : σ) : readRangeLoop input bufSize start fuel st 0 = (st, []) := by
  cases fuel <;> simp [readRangeLoop]

theorem calculateHash_readRange (hc : hashContainer) (B : Nat) (hB : 0 < B) (start : Int)
    (rest : List segmentChunk) :
    ∀ (fuel l : Nat) (f : memFile) (a : Nat) (s0 : Int) (w : List Byte),
      l ≤ fuel → 0 < l → f.pos < f.data.length →
      (l ≤ f.data.length - f.pos ∨ (f.data.length - f.pos) % B ≠ 0) →
      (a = 0 ∨ s0 = start) →
      (readRangeLoop memFile.readSeeker B start fuel f l).1 =
        { f with pos := f.pos + min l (f.data.length - f.pos) } ∧
      calculateHashLoop hc ((readRangeLoop memFile.readSeeker B start fuel f l).2 ++ rest)
          { start := s0, length := a } w =
        { start := start, length := ((a + min l (f.data.length - f.pos) : Nat) : Int),
          hash := hc.h (w ++ (f.data.drop f.pos).take (min l (f.data.length - f.pos))) } ::
          calculateHashLoop hc rest {} [] := by
  intro fuel
  induction fuel with
  | zero => intro l f a s0 w h1 h2; omega
  | succ fuel ih =>
    intro l f a s0 w hfuel hl hp hC ha
    have hlpos : ((l : Nat) : Int) > 0 := by exact_mod_cast hl
    have hwant : (if (l : Int) < (B : Int) then (l : Int) else (B : Int)).toNat = min l B := by
      split <;> omega
    have hwantpos : 0 < min l B := by omega
    have hread := memFile_Read_spec f (min l B) hwantpos hp
    simp only [readRangeLoop, hlpos, if_true, hwant, readSeeker_Read, hread]
    have hlen : ((f.data.drop f.pos).take (min l B)).length =
        min (min l B) (f.data.length - f.pos) := by simp
    have hn0 : ¬ ((((f.data.drop f.pos).take (min l B)).length : Int) = 0) := by
      rw [hlen]; omega
    simp only [hn0, if_false, Option.isSome_none, Bool.false_eq_true]
    rw [hlen, readRange_left l B (f.data.length - f.pos)]
    by_cases hend : f.data.length - f.pos < min l B ∨ l ≤ B
    · -- the range ends with this chunk
      have hmin : min (min l B) (f.data.length - f.pos) = min l (f.data.length - f.pos) := by
        omega
      have htake : (f.data.drop f.pos).take (min l B) =
          (f.data.drop f.pos).take (min l (f.data.length - f.pos)) := by
        rw [List.take_eq_take]; simp only [List.length_drop]; omega
      simp only [hend, if_true, readRangeLoop_zero, hmin, true_and, List.singleton_append,
        le_refl, decide_True]
      rw [htake]
      have hlenk : ((f.data.drop f.pos).take (min l (f.data.length - f.pos))).length =
          min l (f.data.length - f.pos) := by simp
      rcases ha with ha | ha
      · subst ha
        simp [calculateHashLoop, hlenk]
      · subst ha
        by_cases ha0 : a = 0
        · subst ha0; simp [calculateHashLoop, hlenk]
        · have : ¬ ((a : Int) = 0) := by exact_mod_cast ha0
          simp [calculateHashLoop, hlenk, this]
    · -- a full chunk, and the range goes on
      have hlB : B < l := by omega
      have havB : B ≤ f.data.length - f.pos := by omega
      have hmin : min (min l B) (f.data.length - f.pos) = B := by omega
      have hmin2 : min l B = B := by omega
      have hgt : B < f.data.length - f.pos := by
        rcases hC with h | h
        · omega
        · rcases Nat.lt_or_ge B (f.data.length - f.pos) with h' | h'
          · exact h'
          · have : f.data.length - f.pos = B := by omega
            rw [this, Nat.mod_self] at h
            exact absurd rfl h
      have hC' : l - B ≤ f.data.length - (f.pos + B) ∨ (f.data.length - (f.pos + B)) % B ≠ 0 := by
        rcases hC with h | h
        · left; omega
        · right
          rw [Nat.mod_eq_sub_mod havB] at h
          have : f.data.length - (f.pos + B) = f.data.length - f.pos - B := by omega
          rw [this]; exact h
      obtain ⟨ih1, ih2⟩ := ih (l - B) { data := f.data, pos := f.pos + B } (a + B) start
        (w ++ (f.data.drop f.pos).take B) (by omega) (by omega) (by simp only; omega)
        (by simpa using hC') (Or.inr rfl)
      simp only [hend, if_false]
      simp only [hmin]
      simp only [hmin2]
      have hdec : decide (((l - B : Nat) : Int) ≤ 0) = false := by
        simp only [decide_eq_false_iff_not]; omega
      rw [hdec]
      have hlenB : ((f.data.drop f.pos).take B).length = B := by
        simp only [List.length_take, List.length_drop]; omega
      have hk : min l (f.data.length - f.pos) = B + min (l - B) (f.data.length - (f.pos + B)) := by
        omega
      constructor
      · rw [ih1]; simp only [memFile.mk.injEq, true_and]; omega
      · have hstep : calculateHashLoop hc
            ({ data := (f.data.drop f.pos).take B, isLast := false, baseSegmentStart := start } ::
              ((readRangeLoop memFile.readSeeker (B : Int) start fuel
                { data := f.data, pos := f.pos + B } ((l - B : Nat) : Int)).2 ++ rest))
            { start := s0, length := (a : Int) } w =
            calculateHashLoop hc
              ((readRangeLoop memFile.readSeeker (B : Int) start fuel
                { data := f.data, pos := f.pos + B } ((l - B : Nat) : Int)).2 ++ rest)
              { start := start, length := ((a + B : Nat) : Int) } (w ++ (f.data.drop f.pos).take B) := by
          rcases ha with ha | ha
          · subst ha
            simp [calculateHashLoop, hlenB]
          · subst ha
            by_cases ha0 : a = 0
            · subst ha0; simp [calculateHashLoop, hlenB]
            · have : ¬ ((a : Int) = 0) := by exact_mod_cast ha0
              simp [calculateHashLoop, hlenB, this]
        have hgoal := hstep.trans ih2
        simp only [List.cons_append] at hgoal ⊢
        rw [hgoal, hk, List.take_add, List.drop_drop]
        simp only [List.append_assoc, Nat.add_assoc]

theorem calculateHash_readFile (hc : hashContainer) (B : Nat) (hB : 0 < B) (data : List Byte)
    (hsize : (data.length : Int) ≤ maxInt64) :
    ∀ (ranges : List readRange) (pos : Nat) (cur : Int), cur = pos →
      goodRanges data.length B cur ranges →
      ∃ chunks, readFileLoop memFile.readSeeker B ranges ⟨data, pos⟩ cur = .ok chunks ∧
        calculateHash hc chunks = ranges.map (segmentOf hc data) := by
  intro ranges
  induction ranges with
  | nil => intro pos cur _ _; exact ⟨[], rfl, rfl⟩
  | cons r rs ih =>
    intro pos cur hcur hgood
    obtain ⟨hstart, hlen, hin, hcase⟩ := hgood
    have hpos : pos < data.length := by rw [hcur] at hin; exact_mod_cast hin
    have hl : 0 < r.length.toNat := by omega
    have hlcast : ((r.length.toNat : Nat) : Int) = r.length := Int.toNat_of_nonneg (le_of_lt hlen)
    have hstartNat : r.start.toNat = pos := by rw [hstart, hcur]; simp
    have hC : r.length.toNat ≤ data.length - pos ∨ (data.length - pos) % B ≠ 0 := by
      rcases hcase with ⟨h, _⟩ | ⟨h, _⟩
      · left; rw [hstart, hcur] at h; omega
      · right; rw [hcur] at h; simpa using h
    have hloop := fun rest =>
      calculateHash_readRange hc B hB r.start rest r.length.toNat r.length.toNat ⟨data, pos⟩ 0 0 []
        le_rfl hl hpos hC (Or.inl rfl)
    have hcall : readRangeLoop memFile.readSeeker (B : Int) r.start r.length.toNat ⟨data, pos⟩
        r.length = readRangeLoop memFile.readSeeker (B : Int) r.start r.length.toNat ⟨data, pos⟩
        ((r.length.toNat : Nat) : Int) := by rw [hlcast]
    have hnoseek : ¬ (r.start ≠ cur) := not_not.mpr hstart
    simp only [readFileLoop, hnoseek, if_false, hcall]
    have hst := (hloop []).1
    have hseg : ∀ rest, calculateHashLoop hc
        ((readRangeLoop memFile.readSeeker (B : Int) r.start r.length.toNat ⟨data, pos⟩
          ((r.length.toNat : Nat) : Int)).2 ++ rest) {} [] =
        segmentOf hc data r :: calculateHashLoop hc rest {} [] := by
      intro rest
      have := (hloop rest).2
      simp only [CharP.cast_eq_zero, Nat.zero_add, List.nil_append] at this
      rw [this, segmentOf, hstartNat]
    rcases hcase with ⟨hfull, hgood'⟩ | ⟨_, hnil⟩
    · have hmin : min r.length.toNat (data.length - pos) = r.length.toNat := by
        rw [hstart, hcur] at hfull; omega
      have hw : wrap64 (r.start + r.length) = cur + r.length := by
        rw [hstart]
        apply wrap64_of_isInt64
        rw [hstart] at hfull
        unfold isInt64 minInt64 maxInt64 at *
        constructor <;> omega
      obtain ⟨chunks', hrun, hcalc⟩ := ih (pos + r.length.toNat) (cur + r.length)
        (by rw [hcur]; push_cast; rw [hlcast]) hgood'
      rw [hst, hw]
      simp only [hmin, hrun]
      refine ⟨_, rfl, ?_⟩
      unfold calculateHash at hcalc ⊢
      rw [hseg, hcalc, List.map_cons]
    · subst hnil
      simp only [readFileLoop]
      refine ⟨_, rfl, ?_⟩
      unfold calculateHash
      rw [hseg]
      simp [calculateHashLoop]

/-! ## Text round trips -/

theorem fromHexChar_hexDigit : ∀ d : Fin 16, fromHexChar (hexDigit d.val) = some d.val := by
  decide

theorem hexDecode_hexEncode (bs : List Byte) : hexDecode (hexEncode bs) = (bs, false) := by
  induction bs with
  | nil => rfl
  | cons b bs ih =>
    have h1 := fromHexChar_hexDigit ⟨b.val / 16, by omega⟩
    have h2 := fromHexChar_hexDigit ⟨b.val % 16, by omega⟩
    simp only at h1 h2
    simp only [hexEncode, hexDecode, h1, h2, ih]
    have : (Fin.ofNat (b.val / 16 * 16 + b.val % 16) : Byte) = b := by
      apply Fin.ext
      simp only [Fin.ofNat, Fin.val_mk]
      omega
    rw [this]

theorem hexDecodeString_hexEncode (bs : List Byte) :
    hexDecodeString (String.mk (hexEncode bs)) = (bs, false) := by
  simp [hexDecodeString, hexDecode_hexEncode]

theorem digit_toNat : ∀ d : Fin 10, (Char.ofNat (48 + d.val)).toNat = 48 + d.val := by
  decide

theorem parseUintLoop_natDigits :
    ∀ (fuel n : Nat) (rest : List Char), n < fuel → n ≤ maxUint64 →
      parseUintLoop (natDigits fuel n ++ rest) 0 =
        (if n < 10 then parseUintLoop (Char.ofNat (48 + n) :: rest) 0 else parseUintLoop rest n) := by
  intro fuel
  induction fuel with
  | zero => intro n rest h; omega
  | succ fuel ih =>
    intro n rest hn hmax
    by_cases h10 : n < 10
    · simp [natDigits, h10]
    · have hd := digit_toNat ⟨n % 10, by omega⟩
      simp only at hd
      have hq : n / 10 < fuel := by omega
      have hqmax : n / 10 ≤ maxUint64 := by omega
      simp only [natDigits, h10, if_false, List.append_assoc, List.singleton_append]
      rw [ih (n / 10) _ hq hqmax]
      have hstep : ∀ m, m ≤ n / 10 → m * 10 + n % 10 ≤ n := by intro m hm; omega
      by_cases hq10 : n / 10 < 10
      · have hd2 := digit_toNat ⟨n / 10, by omega⟩
        simp only at hd2
        simp only [hq10, if_true]
        unfold maxUint64 at hmax
        simp only [parseUintLoop, hd2, hd, maxUint64]
        have e1 : 48 + n / 10 - 48 = n / 10 := by omega
        have e2 : 48 + n % 10 - 48 = n % 10 := by omega
        have e3 : n / 10 * 10 + n % 10 = n := by omega
        simp only [e1, e2, e3]
        have g1 : (48 ≤ 48 + n / 10 ∧ 48 + n / 10 ≤ 57) := by omega
        have g2 : (48 ≤ 48 + n % 10 ∧ 48 + n % 10 ≤ 57) := by omega
        have g3 : ¬ ((0 : Nat) ≥ (2 ^ 64 - 1) / 10 + 1) := by decide
        have g4 : ¬ (0 * 10 + n / 10 > 2 ^ 64 - 1) := by omega
        have g5 : ¬ (n / 10 ≥ (2 ^ 64 - 1) / 10 + 1) := by omega
        have g6 : ¬ (n > 2 ^ 64 - 1) := by omega
        have g7 : ¬ (n / 10 > 2 ^ 64 - 1) := by omega
        have g8 : ¬ (n / 10 * 10 + n % 10 > 2 ^ 64 - 1) := by omega
        simp only [g1, g2, g3, g4, g5, g6, g7, g8, and_self, if_true, if_false, Nat.zero_mul,
          Nat.zero_add, e3]
      · simp only [hq10, if_false]
        unfold maxUint64 at hmax
        simp only [parseUintLoop, hd, maxUint64]
        have e2 : 48 + n % 10 - 48 = n % 10 := by omega
        have e3 : n / 10 * 10 + n % 10 = n := by omega
        have g2 : (48 ≤ 48 + n % 10 ∧ 48 + n % 10 ≤ 57) := by omega
        have g5 : ¬ (n / 10 ≥ (2 ^ 64 - 1) / 10 + 1) := by omega
        have g6 : ¬ (n > 2 ^ 64 - 1) := by omega
        have g8 : ¬ (n / 10 * 10 + n % 10 > 2 ^ 64 - 1) := by omega
        simp only [e2, g2, g5, g6, g8, and_self, if_true, if_false, e3]

theorem natDigits_head :
    ∀ (fuel n : Nat), n < fuel → ∃ d : Fin 10, ∃ tl, natDigits fuel n = Char.ofNat (48 + d.val) :: tl := by
  intro fuel
  induction fuel with
  | zero => intro n h; omega
  | succ fuel ih =>
    intro n hn
    by_cases h10 : n < 10
    · exact ⟨⟨n, h10⟩, [], by simp [natDigits, h10]⟩
    · obtain ⟨d, tl, h⟩ := ih (n / 10) (by omega)
      exact ⟨d, tl ++ [Char.ofNat (48 + n % 10)], by simp [natDigits, h10, h]⟩

theorem digit_not_sign : ∀ d : Fin 10,
    Char.ofNat (48 + d.val) ≠ '+' ∧ Char.ofNat (48 + d.val) ≠ '-' := by
  decide

theorem parseUintLoop_digit (d : Fin 10) :
    parseUintLoop [Char.ofNat (48 + d.val)] 0 = (d.val, .none) := by
  revert d
  decide

theorem parseInt_formatInt (x : Int) (h0 : 0 ≤ x) (hmax : x ≤ maxInt64) :
    parseInt (formatInt x) = (x, false) := by
  obtain ⟨n, rfl⟩ := Int.eq_ofNat_of_zero_le h0
  have hn : n ≤ 2 ^ 63 - 1 := by unfold maxInt64 at hmax; omega
  obtain ⟨d, tl, hhead⟩ := natDigits_head (n + 1) n (by omega)
  have hloop := parseUintLoop_natDigits (n + 1) n [] (by omega) (by unfold maxUint64; omega)
  rw [List.append_nil] at hloop
  have hval : parseUintLoop (natDigits (n + 1) n) 0 = (n, .none) := by
    rw [hloop]
    by_cases h10 : n < 10
    · simp only [h10, if_true]
      exact parseUintLoop_digit ⟨n, h10⟩
    · simp [h10, parseUintLoop]
  have hneg : ¬ ((n : Int) < 0) := by omega
  obtain ⟨hp, hm⟩ := digit_not_sign d
  simp only [parseInt, formatInt, hneg, if_false, Int.natAbs_ofNat]
  rw [hhead] at hval ⊢
  simp only [parseIntChars, hp, hm, or_self, if_false, parseUint, hval, decide_False,
    Bool.false_eq_true, false_and, not_false_eq_true, true_and]
  have g1 : ¬ (n ≥ 2 ^ 63) := by omega
  simp only [g1, if_false]
  rfl

/-! ## The calculation pipeline over a data image -/

theorem segmentOf_of_inside (hc : hashContainer) (data : List Byte) (r : readRange)
    (h0 : 0 ≤ r.start) (hl : 0 < r.length) (hin : r.start + r.length ≤ data.length) :
    segmentOf hc data r =
      { start := r.start, length := r.length,
        hash := hc.h ((data.drop r.start.toNat).take r.length.toNat) } := by
  have hmin : min r.length.toNat (data.length - r.start.toNat) = r.length.toNat := by omega
  simp only [segmentOf, hmin]
  congr 1
  omega

theorem ToStringSlice_segmentOf (hc : hashContainer) (data : List Byte) (r : readRange)
    (h : rangeOk data.length r) :
    (segmentOf hc data r).ToStringSlice = .ok (manifestRow hc data r) := by
  obtain ⟨h0, hal, hl, hin⟩ := h
  rw [segmentOf_of_inside hc data r h0 hl hin]
  simp only [segment.ToStringSlice, bytesToSectors_of_aligned r.start r.length h0 hal,
    manifestRow]

theorem writeFile_segmentOf (hc : hashContainer) (data : List Byte) :
    ∀ rs : List readRange, (∀ r ∈ rs, rangeOk data.length r) →
      writeFile (rs.map (segmentOf hc data)) = .ok (rs.map (manifestRow hc data)) := by
  intro rs
  induction rs with
  | nil => intro _; rfl
  | cons r rs ih =>
    intro h
    simp only [List.map_cons, writeFile,
      ToStringSlice_segmentOf hc data r (h r (List.mem_cons_self _ _)),
      ih (fun x hx => h x (List.mem_cons_of_mem _ hx))]

theorem calcOutputs_replicate (args : calcArgs) (chunks : List segmentChunk)
    (rowsOf : hashContainer → List csvRecord) :
    ∀ (hcs : List hashContainer) (k : Nat), k = hcs.length →
      (∀ hc ∈ hcs, writeFile (calculateHash hc chunks) = .ok (rowsOf hc)) →
      calcOutputs args hcs (List.replicate k chunks) =
        .ok (hcs.map (fun hc => (args.createOutputFile (hc.name ++ ".csv"), rowsOf hc))) := by
  intro hcs
  induction hcs with
  | nil => intro k hk _; subst hk; rfl
  | cons hc hcs ih =>
    intro k hk h
    subst hk
    simp only [List.length_cons, List.replicate_succ, calcOutputs,
      h hc (List.mem_cons_self _ _), List.map_cons,
      ih hcs.length rfl (fun x hx => h x (List.mem_cons_of_mem _ hx))]

theorem calcHashes_eq (c : Crypto) (fuel : Nat) (segmentSize : Int) (data : List Byte)
    (names : List String) (createOutputFile : String → String) (hcs : List hashContainer)
    (rs : List readRange) (hsize : (data.length : Int) ≤ maxInt64)
    (hnames : names.length ≤ 2) (hhcs : getHashContainersByNames c names = .ok hcs)
    (hrs : produceReadRanges fuel segmentSize data.length = (rs, true))
    (hgood : goodRanges data.length 2097152 0 rs) (hok : ∀ r ∈ rs, rangeOk data.length r) :
    calcHashes c fuel ⟨segmentSize, ⟨data, 0⟩, names, createOutputFile⟩ =
      .done (hcs.map (fun hc =>
        (createOutputFile (hc.name ++ ".csv"), rs.map (manifestRow hc data)))) := by
  obtain ⟨chunks, hread, hcalc⟩ := calculateHash_readFile ⟨id, ""⟩ 2097152 (by decide)
    data hsize rs 0 0 rfl hgood
  have hcalc' : ∀ hc : hashContainer, calculateHash hc chunks = rs.map (segmentOf hc data) := by
    intro hc
    obtain ⟨chunks', hread', hcalc'⟩ := calculateHash_readFile hc 2097152 (by decide)
      data hsize rs 0 0 rfl hgood
    rw [hread] at hread'
    cases hread'
    exact hcalc'
  have hbuf : bufferSize = ((2097152 : Nat) : Int) := by decide
  have hnot : ¬ (names.length > 2) := by omega
  simp only [calcHashes, hnot, if_false, hhcs, fileSize, hrs, readFile_consumers, hbuf]
  simp only [Nat.cast_ofNat, CharP.cast_eq_zero] at hread
  simp only [Nat.cast_ofNat, hread, Except.map, if_true]
  rw [calcOutputs_replicate _ chunks (fun hc => rs.map (manifestRow hc data)) hcs _ rfl
    (fun hc _ => by rw [hcalc' hc]; exact writeFile_segmentOf hc data rs hok)]

/-! ## The verification pipeline over a manifest written by `calc` -/

theorem readSegmentLine_manifestRow (hc : hashContainer) (data : List Byte) (r : readRange)
    (h : sectorsOk r) :
    readSegmentLine (manifestRow hc data r) =
      (ceilSectors r.start, ceilSectors r.start + ceilSectors r.length - 1,
        hc.h ((data.drop r.start.toNat).take r.length.toNat), none) := by
  obtain ⟨h0, h1, hmax⟩ := h
  have hp1 := parseInt_formatInt (ceilSectors r.start) h0 (by omega)
  have hp2 := parseInt_formatInt (ceilSectors r.start + ceilSectors r.length - 1) (by omega) hmax
  have hlt : ¬ (ceilSectors r.start + ceilSectors r.length - 1 < ceilSectors r.start) := by omega
  simp only [readSegmentLine, manifestRow, hexDecodeString_hexEncode, hp1, hp2, hlt,
    Bool.false_eq_true, or_self, if_false]

theorem readHashesLoop_cons_ok (hc : hashContainer) (data : List Byte) (r : readRange)
    (rest : List csvRecord) (e : Int) (line : Nat) (h : sectorsOk r)
    (hend : ceilSectors r.start + ceilSectors r.length - 1 ≤ e) :
    readHashesLoop e (manifestRow hc data r :: rest) line =
      (verifyRange r :: (readHashesLoop e rest (line + 1)).1,
        expectedSegment hc data r :: (readHashesLoop e rest (line + 1)).2) := by
  have hgt : ¬ (ceilSectors r.start + ceilSectors r.length - 1 > e) := by omega
  simp only [readHashesLoop, readSegmentLine_manifestRow hc data r h, hgt, if_false,
    verifyRange, expectedSegment]

theorem readHashesLoop_cons_exceeds (hc : hashContainer) (data : List Byte) (r : readRange)
    (rest : List csvRecord) (e : Int) (line : Nat) (h : sectorsOk r)
    (hend : e < ceilSectors r.start + ceilSectors r.length - 1) :
    readHashesLoop e (manifestRow hc data r :: rest) line =
      ((readHashesLoop e rest (line + 1)).1,
        { expectedSegment hc data r with
          err := some ("Error in line " ++ formatInt line ++ ": " ++
            ("segment with range (" ++ formatInt (ceilSectors r.start) ++ ", " ++
              formatInt (ceilSectors r.start + ceilSectors r.length - 1) ++
              ") exceeds input file range")) } ::
          (readHashesLoop e rest (line + 1)).2) := by
  have hgt : ceilSectors r.start + ceilSectors r.length - 1 > e := hend
  simp only [readHashesLoop, readSegmentLine_manifestRow hc data r h, hgt, if_true,
    verifyRange, expectedSegment]

theorem readHashesLoop_manifest (hc : hashContainer) (data : List Byte) (e : Int) :
    ∀ (rs : List readRange) (line : Nat),
      (∀ r ∈ rs, sectorsOk r ∧ ceilSectors r.start + ceilSectors r.length - 1 ≤ e) →
      readHashesLoop e (rs.map (manifestRow hc data)) line =
        (rs.map verifyRange, rs.map (expectedSegment hc data)) := by
  intro rs
  induction rs with
  | nil => intro _ _; rfl
  | cons r rs ih =>
    intro line h
    obtain ⟨h1, h2⟩ := h r (List.mem_cons_self _ _)
    rw [List.map_cons, readHashesLoop_cons_ok hc data r _ e line h1 h2,
      ih (line + 1) (fun x hx => h x (List.mem_cons_of_mem _ hx))]
    rfl

theorem readHashesFromFile_eq (hashes : List csvRecord) (dataSize : Int) :
    readHashesFromFile hashes dataSize =
      .ok (readHashesLoop (ceilSectors dataSize - 1) hashes 1) := by
  have h0 : ceilSectors 0 = 0 := by decide
  simp [readHashesFromFile, bytesToSectors, h0]

theorem getHashContainerByHash_of_name (c : Crypto) (n : String) (hc : hashContainer)
    (h : getHashContainerByName c n = .ok hc) (bs : List Byte) :
    getHashContainerByHash c (hc.h bs) = .ok hc := by
  unfold getHashContainerByName at h
  split_ifs at h <;> cases h <;>
    simp [getHashContainerByHash, c.md5_size, c.sha1_size, c.sha224_size, c.sha256_size,
      c.sha384_size, c.sha512_size]

theorem verify_eq (c : Crypto) (data : List Byte) (first : csvRecord) (rest : List csvRecord)
    (outName : String) (hc : hashContainer) (firstHash : List Byte) (a b : Int)
    (ranges : List readRange) (expected : List segment)
    (hsize : (data.length : Int) ≤ maxInt64)
    (hfirst : readSegmentLine first = (a, b, firstHash, none))
    (hhc : getHashContainerByHash c firstHash = .ok hc)
    (hread : readHashesLoop (ceilSectors data.length - 1) (first :: rest) 1 = (ranges, expected))
    (hgood : goodRanges data.length 2097152 0 ranges) :
    verify c ⟨⟨data, 0⟩, first :: rest, outName⟩ =
      verifySegments outName (ranges.map (segmentOf hc data)) expected := by
  obtain ⟨chunks, hrf, hcalc⟩ := calculateHash_readFile hc 2097152 (by decide)
    data hsize ranges 0 0 rfl hgood
  have hbuf : bufferSize = ((2097152 : Nat) : Int) := by decide
  simp only [Nat.cast_ofNat, CharP.cast_eq_zero] at hrf
  simp only [verify, hfirst, hhc, readHashesFromFile_eq, fileSize, hread, readFile_consumers,
    hbuf, Nat.cast_ofNat, hrf, Except.map, List.replicate, List.headD_cons, hcalc]

theorem verifySegmentsLoop_match (outName : String) :
    ∀ (expected computed : List segment) (restE restC : List segment) (st : verifyState),
      List.Forall₂ (fun e c => e.err = none ∧ e.start = c.start ∧ e.hash = c.hash)
        expected computed →
      verifySegmentsLoop outName (expected ++ restE) { st with unread := computed ++ restC } =
        verifySegmentsLoop outName restE { st with unread := restC } := by
  intro expected computed restE restC st h
  induction h with
  | nil => rfl
  | @cons e c es cs hec _ ih =>
    obtain ⟨herr, hstart, hhash⟩ := hec
    simp only [List.cons_append, verifySegmentsLoop, herr, List.headD_cons, List.tail_cons]
    rw [if_neg (not_not.mpr hstart), if_neg (not_not.mpr hhash)]
    exact ih

theorem verifyRange_of_exact (size : Nat) (r : readRange) (hsize : (size : Int) ≤ 2 ^ 62)
    (hok : rangeOk size r) (hex : rangeExact r) :
    verifyRange r = { start := r.start, length := roundUp512 r.length } := by
  obtain ⟨h0, hal, hl, hin⟩ := hok
  obtain ⟨hfs, hfl⟩ := hex
  have h1 := roundUp512_ge r.length
  have h2 := roundUp512_lt r.length
  simp only [verifyRange, ceilSectors_of_exact hfs, ceilSectors_of_exact hfl, sectorToBytes,
    sectorSize]
  unfold roundUp512 at h1 h2 ⊢
  have hs : ceilDiv r.start 512 * 512 = r.start := by unfold ceilDiv; omega
  generalize ceilDiv r.start 512 = a at hs ⊢
  generalize ceilDiv r.length 512 = b at h1 h2 ⊢
  unfold wrap64
  congr 1 <;> omega

theorem sectorsOk_of_exact (size : Nat) (r : readRange) (hsize : (size : Int) ≤ 2 ^ 62)
    (hok : rangeOk size r) (hex : rangeExact r) :
    sectorsOk r ∧
      ceilSectors r.start + ceilSectors r.length - 1 ≤ ceilDiv size 512 - 1 := by
  obtain ⟨h0, hal, hl, hin⟩ := hok
  obtain ⟨hfs, hfl⟩ := hex
  simp only [sectorsOk, ceilSectors_of_exact hfs, ceilSectors_of_exact hfl]
  unfold ceilDiv maxInt64
  refine ⟨⟨?_, ?_, ?_⟩, ?_⟩ <;> omega

theorem segmentOf_verifyRange (hc : hashContainer) (data : List Byte) (r : readRange)
    (hsize : (data.length : Int) ≤ 2 ^ 62) (hok : rangeOk data.length r) (hex : rangeExact r)
    (htight : rangeTight data.length r) :
    segmentOf hc data (verifyRange r) =
      { start := r.start, length := r.length,
        hash := hc.h ((data.drop r.start.toNat).take r.length.toNat) } := by
  rw [verifyRange_of_exact data.length r hsize hok hex]
  obtain ⟨h0, hal, hl, hin⟩ := hok
  have h1 := roundUp512_ge r.length
  have hmin : min (roundUp512 r.length).toNat (data.length - r.start.toNat) = r.length.toNat := by
    rcases htight with h | h
    · have : roundUp512 r.length = r.length := by unfold roundUp512 ceilDiv; omega
      rw [this]; omega
    · omega
  simp only [segmentOf, hmin]
  congr 1
  omega

theorem goodRanges_of_contiguous (size : Nat) :
    ∀ (rs : List readRange) (cur : Int), contiguousFrom cur rs →
      (∀ r ∈ rs, rangeOk size r) → goodRanges size 2097152 cur rs := by
  intro rs
  induction rs with
  | nil => intro _ _ _; trivial
  | cons r rs ih =>
    intro cur hc hok
    obtain ⟨hstart, hrest⟩ := hc
    obtain ⟨h0, hal, hl, hin⟩ := hok r (List.mem_cons_self _ _)
    refine ⟨hstart, hl, by omega, Or.inl ⟨hin, ?_⟩⟩
    exact ih (cur + r.length) hrest (fun x hx => hok x (List.mem_cons_of_mem _ hx))

theorem goodRanges_verifyRange (size : Nat) (hsize : (size : Int) ≤ 2 ^ 62) :
    ∀ (rs : List readRange) (cur : Int), contiguousFrom cur rs →
      (∀ r ∈ rs, rangeOk size r ∧ rangeExact r ∧ rangeTight size r) →
      goodRanges size 2097152 cur (rs.map verifyRange) := by
  intro rs
  induction rs with
  | nil => intro _ _ _; trivial
  | cons r rs ih =>
    intro cur hc hall
    obtain ⟨hstart, hrest⟩ := hc
    obtain ⟨hok, hex, htight⟩ := hall r (List.mem_cons_self _ _)
    rw [List.map_cons, verifyRange_of_exact size r hsize hok hex]
    obtain ⟨h0, hal, hl, hin⟩ := hok
    have h1 := roundUp512_ge r.length
    show r.start = cur ∧ 0 < roundUp512 r.length ∧ cur < size ∧
      ((r.start + roundUp512 r.length ≤ size ∧
          goodRanges size 2097152 (cur + roundUp512 r.length) (rs.map verifyRange)) ∨
        ((size - cur.toNat) % 2097152 ≠ 0 ∧ rs.map verifyRange = []))
    refine ⟨hstart, by omega, by omega, ?_⟩
    by_cases h512 : r.length % 512 = 0
    · have hround : roundUp512 r.length = r.length := by unfold roundUp512 ceilDiv; omega
      left
      rw [hround]
      exact ⟨hin, ih (cur + r.length) hrest (fun x hx => hall x (List.mem_cons_of_mem _ hx))⟩
    · right
      have hend : r.start + r.length = size := by
        rcases htight with h | h
        · exact absurd h h512
        · exact h
      constructor
      · omega
      · cases rs with
        | nil => rfl
        | cons r2 rs2 =>
          obtain ⟨hs2, _⟩ := hrest
          obtain ⟨⟨_, _, hl2, hin2⟩, _⟩ := hall r2 (List.mem_cons_of_mem _ (List.mem_cons_self _ _))
          omega

theorem rangesFrom_mem (seg size : Int) :
    ∀ (k : Nat) (s : Int) (r : readRange), r ∈ rangesFrom seg size k s →
      ∃ i : Nat, i < k ∧
        r = { start := s + i * seg, length := min seg (size - (s + i * seg)) } := by
  intro k
  induction k with
  | zero => intro s r h; simp [rangesFrom] at h
  | succ k ih =>
    intro s r h
    simp only [rangesFrom, List.mem_cons] at h
    rcases h with rfl | h
    · exact ⟨0, by omega, by simp⟩
    · obtain ⟨i, hi, rfl⟩ := ih (s + seg) r h
      refine ⟨i + 1, by omega, ?_⟩
      have e : s + seg + (i : Int) * seg = s + ((i + 1 : Nat) : Int) * seg := by
        push_cast; ring
      rw [e]

theorem rangesFrom_ok (seg : Int) (size : Nat) (hseg : 0 < seg) (hal : seg % 512 = 0)
    (hsz : (size : Int) ≤ 2 ^ 53) :
    ∀ r ∈ rangesFrom seg size (ceilDiv size seg).toNat 0,
      rangeOk size r ∧ rangeExact r ∧ rangeTight size r := by
  intro r hr
  obtain ⟨i, hi, rfl⟩ := rangesFrom_mem seg size _ 0 r hr
  have hn := ceilDiv_nonneg size seg (by positivity) hseg
  have hlt := ceilDiv_pred_mul_lt size seg hseg
  have hik : (i : Int) ≤ ceilDiv size seg - 1 := by omega
  have hi0 : (0 : Int) ≤ i := by positivity
  have hstart : (i : Int) * seg < size := by nlinarith
  have hstart0 : (0 : Int) ≤ i * seg := by positivity
  have hdvd : (i : Int) * seg % 512 = 0 :=
    Int.emod_eq_zero_of_dvd (Dvd.dvd.mul_left (Int.dvd_of_emod_eq_zero hal) _)
  simp only [zero_add]
  have hlen : 0 < min seg ((size : Int) - i * seg) := lt_min hseg (by linarith)
  have hle : min seg ((size : Int) - i * seg) ≤ size - i * seg := min_le_right _ _
  refine ⟨⟨hstart0, hdvd, hlen, by simp only; linarith⟩, ⟨?_, ?_⟩, ?_⟩
  · exact float64OfInt_of_le hstart0 (by simp only; linarith)
  · exact float64OfInt_of_le (le_of_lt hlen) (by simp only; linarith)
  · rcases le_total seg ((size : Int) - i * seg) with h | h
    · left; simp only [min_eq_left h]; exact hal
    · right; simp only [min_eq_right h]; ring

theorem getHashContainersByNames_of_supported (c : Crypto) :
    ∀ names : List String, (∀ n ∈ names, n ∈ supportedNames) →
      ∃ hcs, getHashContainersByNames c names = .ok hcs ∧
        List.Forall₂ (fun n hc => getHashContainerByName c n = .ok hc) names hcs := by
  intro names
  induction names with
  | nil => intro _; exact ⟨[], rfl, List.Forall₂.nil⟩
  | cons n ns ih =>
    intro h
    obtain ⟨hc, e⟩ := getHashContainerByName_of_supported c n (h n (List.mem_cons_self _ _))
    obtain ⟨hcs, e2, hall⟩ := ih (fun x hx => h x (List.mem_cons_of_mem _ hx))
    exact ⟨hc :: hcs, by simp [getHashContainersByNames, e, e2], List.Forall₂.cons e hall⟩

theorem verifySegments_of_match (outName : String) (expected computed : List segment)
    (h : List.Forall₂ (fun e c => e.err = none ∧ e.start = c.start ∧ e.hash = c.hash)
      expected computed) :
    verifySegments outName computed expected = .ok {} := by
  have := verifySegmentsLoop_match outName expected computed [] [] {} h
  simpa [verifySegments, verifySegmentsLoop] using this

theorem forall₂_map_map {α β γ : Type} (R : β → γ → Prop) (f : α → β) (g : α → γ) :
    ∀ l : List α, (∀ x ∈ l, R (f x) (g x)) → List.Forall₂ R (l.map f) (l.map g) := by
  intro l
  induction l with
  | nil => intro _; exact List.Forall₂.nil
  | cons x xs ih =>
    intro h
    exact List.Forall₂.cons (h x (List.mem_cons_self _ _))
      (ih (fun y hy => h y (List.mem_cons_of_mem _ hy)))

theorem ceilDiv_size_bound (seg : Int) (size : Nat) (hseg : 0 < seg) (hmax : seg ≤ maxInt64)
    (hsz : (size : Int) ≤ 2 ^ 53) : ceilDiv size seg * seg ≤ maxInt64 := by
  have hlt := ceilDiv_pred_mul_lt size seg hseg
  unfold maxInt64 at *
  by_cases h : ceilDiv size seg ≤ 1
  · nlinarith
  · push_neg at h
    have h2 : 2 ≤ ceilDiv size seg := by omega
    have : seg ≤ (ceilDiv size seg - 1) * seg := by nlinarith
    have e : ceilDiv size seg * seg = (ceilDiv size seg - 1) * seg + seg := by ring
    rw [e]
    have : (ceilDiv size seg - 1) * seg < 2 ^ 53 := by linarith
    have : seg < 2 ^ 53 := by linarith
    norm_num at *
    linarith

theorem calcHashes_of_valid (c : Crypto) (data : List Byte) (segmentSize : Int)
    (names : List String) (createOutputFile : String → String) (fuel : Nat)
    (hcs : List hashContainer) (hsz : (data.length : Int) ≤ 2 ^ 53) (hseg : 0 < segmentSize)
    (hal : segmentSize % 512 = 0) (hmax : segmentSize ≤ maxInt64) (hcount : names.length ≤ 2)
    (hhcs : getHashContainersByNames c names = .ok hcs)
    (hfuel : (ceilDiv data.length segmentSize).toNat ≤ fuel) :
    calcHashes c fuel ⟨segmentSize, ⟨data, 0⟩, names, createOutputFile⟩ =
      .done (hcs.map (fun hc => (createOutputFile (hc.name ++ ".csv"),
        (rangesFrom segmentSize data.length (ceilDiv data.length segmentSize).toNat 0).map
          (manifestRow hc data)))) := by
  have hno := ceilDiv_size_bound segmentSize data.length hseg hmax hsz
  have hrs := produceReadRanges_eq segmentSize data.length hseg (by positivity) hno fuel hfuel
  have hall := rangesFrom_ok segmentSize data.length hseg hal hsz
  have hn := ceilDiv_nonneg data.length segmentSize (by positivity) hseg
  have hcast : (((ceilDiv data.length segmentSize).toNat : Nat) : Int) =
      ceilDiv data.length segmentSize := Int.toNat_of_nonneg hn
  obtain ⟨hcont, -, -⟩ := rangesFrom_props segmentSize data.length hseg
    (ceilDiv data.length segmentSize).toNat 0
    (by rw [hcast]; have := ceilDiv_mul_ge data.length segmentSize hseg; linarith)
    (by intro _; rw [hcast]; have := ceilDiv_pred_mul_lt data.length segmentSize hseg; linarith)
  exact calcHashes_eq c fuel segmentSize data names createOutputFile hcs _
    (by unfold maxInt64; norm_num at hsz ⊢; linarith) hcount hhcs hrs
    (goodRanges_of_contiguous data.length _ 0 hcont (fun r hr => (hall r hr).1))
    (fun r hr => (hall r hr).1)

theorem verify_manifest (c : Crypto) (n : String) (hc : hashContainer)
    (hname : getHashContainerByName c n = .ok hc) (data image : List Byte)
    (hlen : image.length = data.length) (rs : List readRange) (hne : rs ≠ [])
    (hsz : (data.length : Int) ≤ 2 ^ 53) (hcont : contiguousFrom 0 rs)
    (hall : ∀ r ∈ rs, rangeOk data.length r ∧ rangeExact r ∧ rangeTight data.length r)
    (outName : String) :
    verify c ⟨⟨image, 0⟩, rs.map (manifestRow hc data), outName⟩ =
      verifySegments outName
        (rs.map (fun r =>
          ({ start := r.start, length := r.length,
             hash := hc.h ((image.drop r.start.toNat).take r.length.toNat) } : segment)))
        (rs.map (expectedSegment hc data)) := by
  have hsz62 : (data.length : Int) ≤ 2 ^ 62 := by norm_num at hsz ⊢; linarith
  have hsize : float64OfInt (data.length : Int) = data.length :=
    float64OfInt_of_le (by positivity) hsz
  have hsec : ∀ r ∈ rs, sectorsOk r ∧
      ceilSectors r.start + ceilSectors r.length - 1 ≤ ceilSectors (image.length : Int) - 1 := by
    intro r hr
    rw [hlen, ceilSectors_of_exact hsize]
    exact sectorsOk_of_exact data.length r hsz62 (hall r hr).1 (hall r hr).2.1
  obtain ⟨r0, rs', rfl⟩ : ∃ r0 rs', rs = r0 :: rs' := by
    cases rs with
    | nil => exact absurd rfl hne
    | cons r0 rs' => exact ⟨r0, rs', rfl⟩
  have hread := readHashesLoop_manifest hc data (ceilSectors (image.length : Int) - 1)
    (r0 :: rs') 1 hsec
  have hgood := goodRanges_verifyRange data.length hsz62 (r0 :: rs') 0 hcont hall
  rw [← hlen] at hgood
  rw [List.map_cons] at hread ⊢
  rw [verify_eq c image (manifestRow hc data r0) _ outName hc _ _ _ _ _
    (by rw [hlen]; unfold maxInt64; norm_num at hsz ⊢; linarith)
    (readSegmentLine_manifestRow hc data r0 (hsec r0 (List.mem_cons_self _ _)).1)
    (getHashContainerByHash_of_name c n hc hname _) hread hgood]
  congr 1
  rw [List.map_map]
  apply List.map_congr_left
  intro r hr
  rw [← hlen] at hall hsz62
  exact segmentOf_verifyRange hc image r hsz62 (hall r hr).1 (hall r hr).2.1 (hall r hr).2.2

theorem forall₂_right_mem {α β : Type} (R : α → β → Prop) :
    ∀ (l1 : List α) (l2 : List β), List.Forall₂ R l1 l2 → ∀ b ∈ l2, ∃ a ∈ l1, R a b := by
  intro l1 l2 h
  induction h with
  | nil => intro b hb; simp at hb
  | @cons a b as bs hab _ ih =>
    intro x hx
    rcases List.mem_cons.mp hx with rfl | hx
    · exact ⟨a, List.mem_cons_self _ _, hab⟩
    · obtain ⟨y, hy, hR⟩ := ih x hx
      exact ⟨y, List.mem_cons_of_mem _ hy, hR⟩

theorem rangesFrom_ne_nil (seg : Int) (size : Nat) (hseg : 0 < seg) (hpos : 0 < size) :
    rangesFrom seg size (ceilDiv size seg).toNat 0 ≠ [] := by
  intro h
  have hl := congrArg List.length h
  rw [rangesFrom_length] at hl
  have hn := ceilDiv_nonneg size seg (by positivity) hseg
  have h0 : ceilDiv (size : Int) seg = 0 := by
    simp only [List.length_nil] at hl; omega
  have := (ceilDiv_eq_zero_iff size seg (by positivity) hseg).mp h0
  omega

theorem rangesFrom_contiguous (seg : Int) (size : Nat) (hseg : 0 < seg) :
    contiguousFrom 0 (rangesFrom seg size (ceilDiv size seg).toNat 0) := by
  have hn := ceilDiv_nonneg size seg (by positivity) hseg
  have hcast : (((ceilDiv (size : Int) seg).toNat : Nat) : Int) = ceilDiv size seg :=
    Int.toNat_of_nonneg hn
  exact (rangesFrom_props seg size hseg (ceilDiv size seg).toNat 0
    (by rw [hcast]; have := ceilDiv_mul_ge size seg hseg; linarith)
    (by intro _; rw [hcast]; have := ceilDiv_pred_mul_lt size seg hseg; linarith)).1

theorem verify_own_manifest (c : Crypto) (n : String) (hc : hashContainer)
    (hname : getHashContainerByName c n = .ok hc) (data : List Byte) (segmentSize : Int)
    (outName : String) (hne : data ≠ []) (hsz : (data.length : Int) ≤ 2 ^ 53)
    (hseg : 0 < segmentSize) (hal : segmentSize % 512 = 0) :
    verify c ⟨⟨data, 0⟩,
      (rangesFrom segmentSize data.length (ceilDiv data.length segmentSize).toNat 0).map
        (manifestRow hc data), outName⟩ = .ok {} := by
  have hpos : 0 < data.length := List.length_pos.mpr hne
  have hall := rangesFrom_ok segmentSize data.length hseg hal hsz
  have hsz62 : (data.length : Int) ≤ 2 ^ 62 := by norm_num at hsz ⊢; linarith
  rw [verify_manifest c n hc hname data data rfl _
    (rangesFrom_ne_nil segmentSize data.length hseg hpos) hsz
    (rangesFrom_contiguous segmentSize data.length hseg) hall outName]
  apply verifySegments_of_match
  apply forall₂_map_map
  intro r hr
  refine ⟨rfl, ?_, rfl⟩
  simp only [expectedSegment,
    verifyRange_of_exact data.length r hsz62 (hall r hr).1 (hall r hr).2.1]

/-- Where `bytesToSectors` is exact: for every non-empty data image of at most 2^53 bytes,
every `int64` segment size that is a positive multiple of 512 and every choice of one or two
supported hash algorithms, `calc` completes with one manifest per algorithm, and `verify` on
the same image against each of these manifests completes with zero diffs and zero errors and
creates no report file; the image size need not be a multiple of 512 or of the segment
size. -/
theorem verify_after_calc (c : Crypto) (data : List Byte) (segmentSize : Int)
    (names : List String) (createOutputFile : String → String) (outName : String) (fuel : Nat)
    (hne : data ≠ []) (hsz : (data.length : Int) ≤ 2 ^ 53) (hseg : 0 < segmentSize)
    (hal : segmentSize % 512 = 0) (hmax : segmentSize ≤ maxInt64)
    (hnames : ∀ n ∈ names, n ∈ supportedNames) (hcount : names.length ≤ 2)
    (hfuel : (ceilDiv data.length segmentSize).toNat ≤ fuel) :
    ∃ outs, calcHashes c fuel ⟨segmentSize, ⟨data, 0⟩, names, createOutputFile⟩ = .done outs ∧
      outs.length = names.length ∧
      ∀ out ∈ outs, ∃ st, verify c ⟨⟨data, 0⟩, out.2, outName⟩ = .ok st ∧
        st.diffs = 0 ∧ st.errors = 0 ∧ st.csvWriter = none ∧ st.created = 0 := by
  obtain ⟨hcs, hhcs, hall⟩ := getHashContainersByNames_of_supported c names hnames
  refine ⟨_, calcHashes_of_valid c data segmentSize names createOutputFile fuel hcs hsz hseg hal
    hmax hcount hhcs hfuel, ?_, ?_⟩
  · rw [List.length_map]; exact hall.length_eq.symm
  · intro out hout
    obtain ⟨hc, hhc, rfl⟩ := List.mem_map.mp hout
    obtain ⟨n, _, hname⟩ := forall₂_right_mem _ names hcs hall hc hhc
    exact ⟨{}, verify_own_manifest c n hc hname data segmentSize outName hne hsz hseg hal,
      rfl, rfl, rfl, rfl⟩

/-- An instance of `verify_after_calc`: a 3-byte image, 512-byte segments, MD5 and SHA-1. -/
theorem verify_after_calc_witness :
    ∃ outs, calcHashes sumCrypto 1 ⟨512, ⟨[1, 2, 3], 0⟩, ["md5", "sha1"], id⟩ = .done outs ∧
      outs.length = ["md5", "sha1"].length ∧
      ∀ out ∈ outs, ∃ st, verify sumCrypto ⟨⟨[1, 2, 3], 0⟩, out.2, "diffs.csv"⟩ = .ok st ∧
        st.diffs = 0 ∧ st.errors = 0 ∧ st.csvWriter = none ∧ st.created = 0 :=
  verify_after_calc sumCrypto [1, 2, 3] 512 ["md5", "sha1"] id "diffs.csv" 1 (by decide)
    (by decide) (by decide) (by decide) (by decide) (by decide) (by decide) (by decide)


/-! ## An image beyond the exact range of `float64` -/

theorem hugeImage_length : hugeImage.length = 2 ^ 53 + 1 := by
  unfold hugeImage
  exact List.length_replicate _ _

theorem calcHashes_hugeImage :
    calcHashes sumCrypto 2 ⟨2 ^ 53, ⟨hugeImage, 0⟩, ["md5"], id⟩ =
      .done [("md5.csv", [manifestRow (md5Container sumCrypto) hugeImage ⟨0, 2 ^ 53⟩,
        manifestRow (md5Container sumCrypto) hugeImage ⟨2 ^ 53, 1⟩])] := by
  have h := calcHashes_eq sumCrypto 2 (2 ^ 53) hugeImage ["md5"] id [md5Container sumCrypto]
    [⟨0, 2 ^ 53⟩, ⟨2 ^ 53, 1⟩] (by rw [hugeImage_length]; decide) (by decide) rfl
    (by rw [hugeImage_length]; decide) (by rw [hugeImage_length]; decide)
    (by rw [hugeImage_length]; decide)
  rw [h]
  have e : (md5Container sumCrypto).name ++ ".csv" = "md5.csv" := by decide
  simp only [List.map_cons, List.map_nil, id, e]
theorem verify_hugeImage (image : List Byte) (hlen : image.length = 2 ^ 53 + 1) :
    verify sumCrypto ⟨⟨image, 0⟩,
      [manifestRow (md5Container sumCrypto) hugeImage ⟨0, 2 ^ 53⟩,
       manifestRow (md5Container sumCrypto) hugeImage ⟨2 ^ 53, 1⟩], "diffs.csv"⟩ =
    verifySegments "diffs.csv"
      [segmentOf (md5Container sumCrypto) image (verifyRange ⟨0, 2 ^ 53⟩)]
      [expectedSegment (md5Container sumCrypto) hugeImage ⟨0, 2 ^ 53⟩,
       { expectedSegment (md5Container sumCrypto) hugeImage ⟨2 ^ 53, 1⟩ with
         err := some ("Error in line " ++ formatInt ((1 + 1 : Nat) : Int) ++ ": " ++
            ("segment with range (" ++ formatInt (ceilSectors (2 ^ 53)) ++ ", " ++
              formatInt (ceilSectors (2 ^ 53) + ceilSectors 1 - 1) ++
              ") exceeds input file range")) }] := by
  have hread : readHashesLoop (ceilSectors (image.length : Int) - 1)
      [manifestRow (md5Container sumCrypto) hugeImage ⟨0, 2 ^ 53⟩,
       manifestRow (md5Container sumCrypto) hugeImage ⟨2 ^ 53, 1⟩] 1 =
      ([verifyRange ⟨0, 2 ^ 53⟩],
       [expectedSegment (md5Container sumCrypto) hugeImage ⟨0, 2 ^ 53⟩,
        { expectedSegment (md5Container sumCrypto) hugeImage ⟨2 ^ 53, 1⟩ with
         err := some ("Error in line " ++ formatInt ((1 + 1 : Nat) : Int) ++ ": " ++
            ("segment with range (" ++ formatInt (ceilSectors (2 ^ 53)) ++ ", " ++
              formatInt (ceilSectors (2 ^ 53) + ceilSectors 1 - 1) ++
              ") exceeds input file range")) }]) := by
    rw [hlen]
    rw [readHashesLoop_cons_ok _ _ _ _ _ _ (by decide) (by decide),
      readHashesLoop_cons_exceeds _ _ _ _ _ _ (by decide) (by decide)]
    rfl
  exact verify_eq sumCrypto image _ _ "diffs.csv" (md5Container sumCrypto) _ _ _ _ _
    (by rw [hlen]; decide)
    (readSegmentLine_manifestRow (md5Container sumCrypto) hugeImage ⟨0, 2 ^ 53⟩ (by decide))
    (getHashContainerByHash_of_name sumCrypto "md5" (md5Container sumCrypto) rfl _)
    hread (by rw [hlen]; decide)
theorem segmentOf_hugeImage_first (image : List Byte) (hlen : image.length = 2 ^ 53 + 1) :
    segmentOf (md5Container sumCrypto) image (verifyRange ⟨0, 2 ^ 53⟩) =
      { start := 0, length := 2 ^ 53,
        hash := sumCrypto.md5 ((image.drop (0 : Int).toNat).take ((2 : Int) ^ 53).toNat) } := by
  have hvr : verifyRange ⟨0, 2 ^ 53⟩ = ⟨0, 2 ^ 53⟩ := by decide
  rw [hvr]
  exact segmentOf_of_inside _ _ _ (by decide) (by decide) (by rw [hlen]; decide)

theorem expectedSegment_hugeImage_first :
    expectedSegment (md5Container sumCrypto) hugeImage ⟨0, 2 ^ 53⟩ =
      { start := 0, length := 2 ^ 53,
        hash := sumCrypto.md5 ((hugeImage.drop (0 : Int).toNat).take ((2 : Int) ^ 53).toNat) } := by
  have hvr : verifyRange ⟨0, 2 ^ 53⟩ = ⟨0, 2 ^ 53⟩ := by decide
  simp only [expectedSegment, hvr, md5Container]

theorem hugeImage_error_text :
    "Error in line " ++ formatInt ((1 + 1 : Nat) : Int) ++ ": " ++
      ("segment with range (" ++ formatInt (ceilSectors (2 ^ 53)) ++ ", " ++
        formatInt (ceilSectors (2 ^ 53) + ceilSectors 1 - 1) ++
        ") exceeds input file range") =
    "Error in line 2: segment with range (17592186044416, 17592186044416) exceeds input file range" := by
  decide

/-- C1 fails on the code: for an image of `2^53 + 1` bytes and the segment size `2^53`,
`calc` writes the rows `(0, 2^44 - 1)` and `(2^44, 2^44)`, while `verify` takes the last
sector of the image to be `2^44 - 1`, because `bytesToSectors` converts the image size
through `float64` and `float64(2^53 + 1)` is `2^53`; `verify` on the same image therefore
reports one error, for the second row of the manifest that `calc` wrote, and creates a
report. -/
theorem verify_rejects_own_manifest :
    hugeImage.length = 2 ^ 53 + 1 ∧ (0 : Int) < 2 ^ 53 ∧ (2 ^ 53 : Int) % 512 = 0 ∧
    ∃ rows, calcHashes sumCrypto 2 ⟨2 ^ 53, ⟨hugeImage, 0⟩, ["md5"], id⟩ =
        .done [("md5.csv", rows)] ∧
      lbaColumns rows = [("0", "17592186044415"), ("17592186044416", "17592186044416")] ∧
      ∃ st, verify sumCrypto ⟨⟨hugeImage, 0⟩, rows, "diffs.csv"⟩ = .ok st ∧
        st.diffs = 0 ∧ st.errors = 1 ∧
        st.csvWriter = some [["Error in line 2: segment with range (17592186044416, 17592186044416) exceeds input file range"]] := by
  refine ⟨hugeImage_length, by decide, by decide, _, calcHashes_hugeImage, ?_, ?_⟩
  · simp only [lbaColumns, List.map_cons, List.map_nil, manifestRow]
    decide
  · rw [verify_hugeImage hugeImage hugeImage_length, segmentOf_hugeImage_first hugeImage hugeImage_length,
      expectedSegment_hugeImage_first, hugeImage_error_text]
    refine ⟨
      { errors := 1, diffsFname := "diffs.csv", created := 1,
        csvWriter := some [["Error in line 2: segment with range (17592186044416, 17592186044416) exceeds input file range"]] },
      ?_, rfl, rfl, rfl⟩
    simp only [verifySegments, verifySegmentsLoop, List.headD_cons, List.tail_cons, ne_eq,
      not_true_eq_false, if_false, verifyState.openWriter, verifyState.writeLine]
    rfl

/-! ## The rows of a manifest -/

theorem manifestRow_rangesFrom (hc : hashContainer) (data : List Byte) (seg : Int)
    (hsz : (data.length : Int) ≤ 2 ^ 53) (hseg : 0 < seg) (hal : seg % 512 = 0) (i : Nat)
    (hi : i < (ceilDiv data.length seg).toNat) :
    ∃ row, ((rangesFrom seg data.length (ceilDiv data.length seg).toNat 0).map
        (manifestRow hc data))[i]? = some row ∧
      row.startLba = formatInt (i * seg / 512) ∧
      row.endLba = formatInt (if i + 1 < (ceilDiv data.length seg).toNat
        then (i + 1) * seg / 512 - 1 else ceilDiv data.length 512 - 1) := by
  have hn := ceilDiv_nonneg data.length seg (by positivity) hseg
  have hlt := ceilDiv_pred_mul_lt data.length seg hseg
  have hge := ceilDiv_mul_ge data.length seg hseg
  have hget := rangesFrom_getElem? seg data.length _ 0 i hi
  have hmem := List.getElem?_mem hget
  obtain ⟨hok, ⟨hfs, hfl⟩, -⟩ := rangesFrom_ok seg data.length hseg hal hsz _ hmem
  obtain ⟨m, hm⟩ := Int.dvd_of_emod_eq_zero hal
  have hstart : (0 : Int) + i * seg = 512 * (i * m) := by rw [hm]; ring
  have hdiv : (i : Int) * seg / 512 = i * m := by
    rw [zero_add] at hstart
    rw [hstart, Int.mul_ediv_cancel_left _ (by decide)]
  have hfs' : float64OfInt (512 * (i * m)) = 512 * (i * m) := by
    have := hfs; simp only [hstart] at this; exact this
  have hfl' : float64OfInt (min seg ((data.length : Int) - 512 * (i * m))) =
      min seg ((data.length : Int) - 512 * (i * m)) := by
    have := hfl; simp only [hstart] at this; exact this
  refine ⟨_, by rw [List.getElem?_map, hget]; rfl, ?_, ?_⟩
  · simp only [manifestRow, hstart, ceilSectors_of_exact hfs', hdiv]
    congr 1
    unfold ceilDiv; omega
  · simp only [manifestRow, hstart, ceilSectors_of_exact hfs', ceilSectors_of_exact hfl']
    congr 1
    have hi0 : (0 : Int) ≤ i := by positivity
    by_cases hnext : i + 1 < (ceilDiv data.length seg).toNat
    · have hik : (i : Int) + 1 ≤ ceilDiv data.length seg - 1 := by omega
      have hfull : seg ≤ (data.length : Int) - 512 * (i * m) := by
        have : ((i : Int) + 1) * seg ≤ (ceilDiv data.length seg - 1) * seg :=
          mul_le_mul_of_nonneg_right hik (le_of_lt hseg)
        have e : ((i : Int) + 1) * seg = 512 * (i * m) + seg := by rw [hm]; ring
        linarith
      have hdiv2 : ((i : Int) + 1) * seg / 512 = (i + 1) * m := by
        have : ((i : Int) + 1) * seg = 512 * ((i + 1) * m) := by rw [hm]; ring
        rw [this, Int.mul_ediv_cancel_left _ (by decide)]
      simp only [hnext, if_true, min_eq_left hfull, hdiv2]
      rw [hm]
      unfold ceilDiv
      have : (i + 1 : Int) * m = i * m + m := by ring
      rw [this]
      generalize (i : Int) * m = a
      omega
    · have hik : (i : Int) = ceilDiv data.length seg - 1 := by omega
      have hlast : (data.length : Int) - 512 * (i * m) ≤ seg := by
        have e : ceilDiv (data.length : Int) seg * seg = 512 * (i * m) + seg := by
          have : ceilDiv (data.length : Int) seg = i + 1 := by omega
          rw [this, hm]; ring
        linarith
      simp only [hnext, if_false, min_eq_right hlast]
      unfold ceilDiv
      generalize (i : Int) * m = a
      omega
/-- Where `bytesToSectors` is exact: for every non-empty image of `totalSize` bytes, at most
2^53, every `int64` segment size that is a positive multiple of 512 and every choice of one or two
supported hash algorithms, `calc` completes, and each manifest it writes has exactly
`ceil(totalSize / segmentSize)` rows, in ascending order: row `i` has
`startLBA = i * segmentSize / 512` (so the first row starts at LBA 0), every row but the
last has `endLBA = (i + 1) * segmentSize / 512 - 1` (so the next row starts at its
`endLBA + 1`), and the last row has `endLBA = ceil(totalSize / 512) - 1`. -/
theorem calc_manifest_rows (c : Crypto) (data : List Byte) (segmentSize : Int)
    (names : List String) (createOutputFile : String → String) (fuel : Nat)
    (hne : data ≠ []) (hsz : (data.length : Int) ≤ 2 ^ 53) (hseg : 0 < segmentSize)
    (hal : segmentSize % 512 = 0) (hmax : segmentSize ≤ maxInt64)
    (hnames : ∀ n ∈ names, n ∈ supportedNames) (hcount : names.length ≤ 2)
    (hfuel : (ceilDiv data.length segmentSize).toNat ≤ fuel) :
    ∃ outs, calcHashes c fuel ⟨segmentSize, ⟨data, 0⟩, names, createOutputFile⟩ = .done outs ∧
      outs.length = names.length ∧
      ∀ out ∈ outs,
        (out.2.length : Int) = ceilDiv data.length segmentSize ∧ 0 < out.2.length ∧
        ∀ i : Nat, i < out.2.length → ∃ row, out.2[i]? = some row ∧
          row.startLba = formatInt (i * segmentSize / 512) ∧
          row.endLba = formatInt (if i + 1 < out.2.length
            then (i + 1) * segmentSize / 512 - 1 else ceilDiv data.length 512 - 1) := by
  obtain ⟨hcs, hhcs, hall⟩ := getHashContainersByNames_of_supported c names hnames
  refine ⟨_, calcHashes_of_valid c data segmentSize names createOutputFile fuel hcs hsz hseg hal
    hmax hcount hhcs hfuel, ?_, ?_⟩
  · rw [List.length_map]; exact hall.length_eq.symm
  · intro out hout
    obtain ⟨hc, -, rfl⟩ := List.mem_map.mp hout
    have hn := ceilDiv_nonneg data.length segmentSize (by positivity) hseg
    have hpos : 0 < data.length := List.length_pos.mpr hne
    have hk := rangesFrom_ne_nil segmentSize data.length hseg hpos
    simp only [List.length_map, rangesFrom_length] at hk ⊢
    refine ⟨Int.toNat_of_nonneg hn, ?_, ?_⟩
    · have := List.length_pos.mpr hk
      rwa [rangesFrom_length] at this
    · intro i hi
      exact manifestRow_rangesFrom hc data segmentSize hsz hseg hal i hi

/-- An instance of `calc_manifest_rows`: a 1300-byte image in 512-byte segments, MD5 and
SHA-1. -/
theorem calc_manifest_rows_witness :
    ∃ outs, calcHashes sumCrypto 3 ⟨512, ⟨List.replicate 1300 7, 0⟩, ["md5", "sha1"], id⟩ =
        .done outs ∧
      outs.length = ["md5", "sha1"].length ∧
      ∀ out ∈ outs,
        (out.2.length : Int) = ceilDiv (List.replicate 1300 (7 : Byte)).length 512 ∧
        0 < out.2.length ∧
        ∀ i : Nat, i < out.2.length → ∃ row, out.2[i]? = some row ∧
          row.startLba = formatInt (i * 512 / 512) ∧
          row.endLba = formatInt (if i + 1 < out.2.length
            then (i + 1) * 512 / 512 - 1
            else ceilDiv (List.replicate 1300 (7 : Byte)).length 512 - 1) :=
  calc_manifest_rows sumCrypto (List.replicate 1300 7) 512 ["md5", "sha1"] id 3
    (by decide) (by rw [List.length_replicate]; decide) (by decide) (by decide) (by decide)
    (by decide) (by decide) (by rw [List.length_replicate]; decide)

theorem calcHashes_hugeImage_single :
    calcHashes sumCrypto 1 ⟨2 ^ 54, ⟨hugeImage, 0⟩, ["md5"], id⟩ =
      .done [("md5.csv", [manifestRow (md5Container sumCrypto) hugeImage ⟨0, 2 ^ 53 + 1⟩])] := by
  have h := calcHashes_eq sumCrypto 1 (2 ^ 54) hugeImage ["md5"] id [md5Container sumCrypto]
    [⟨0, 2 ^ 53 + 1⟩] (by rw [hugeImage_length]; decide) (by decide) rfl
    (by rw [hugeImage_length]; decide) (by rw [hugeImage_length]; decide)
    (by rw [hugeImage_length]; decide)
  rw [h]
  have e : (md5Container sumCrypto).name ++ ".csv" = "md5.csv" := by decide
  simp only [List.map_cons, List.map_nil, id, e]

/-- C7 fails on the code: for an image of `2^53 + 1` bytes and the segment size `2^54`,
`calc` writes the single row `(0, 2^44 - 1)`, because `bytesToSectors` converts the length
of the segment through `float64` and `float64(2^53 + 1)` is `2^53`, while
`ceil(totalSize / 512) - 1` is `2^44`. -/
theorem calc_last_row_end_lba :
    hugeImage.length = 2 ^ 53 + 1 ∧ (0 : Int) < 2 ^ 54 ∧ (2 ^ 54 : Int) % 512 = 0 ∧
    ceilDiv (2 ^ 53 + 1) 512 - 1 = 17592186044416 ∧
    ∃ row, calcHashes sumCrypto 1 ⟨2 ^ 54, ⟨hugeImage, 0⟩, ["md5"], id⟩ =
        .done [("md5.csv", [row])] ∧
      row.startLba = "0" ∧ row.endLba = "17592186044415" := by
  refine ⟨hugeImage_length, by decide, by decide, by decide, _, calcHashes_hugeImage_single,
    ?_, ?_⟩
  · simp only [manifestRow]; decide
  · simp only [manifestRow]; decide

/-! ## Tamper detection -/

theorem rangesFrom_append (seg size : Int) :
    ∀ (a b : Nat) (s : Int),
      rangesFrom seg size (a + b) s = rangesFrom seg size a s ++ rangesFrom seg size b (s + a * seg) := by
  intro a
  induction a with
  | zero => intro b s; simp [rangesFrom]
  | succ a ih =>
    intro b s
    have e : a + 1 + b = (a + b) + 1 := by omega
    rw [e]
    simp only [rangesFrom, List.cons_append, ih b (s + seg)]
    have e2 : s + seg + (a : Int) * seg = s + ((a + 1 : Nat) : Int) * seg := by push_cast; ring
    rw [e2]

theorem slice_set_eq (data : List Byte) (j : Nat) (b : Byte) (s l : Nat)
    (h : j < s ∨ s + l ≤ j) :
    ((data.set j b).drop s).take l = (data.drop s).take l := by
  apply List.ext_getElem?
  intro i
  simp only [List.getElem?_take, List.getElem?_drop]
  split
  · next hi =>
    rw [List.getElem?_set_ne]
    omega
  · rfl

theorem ceilSectors_roundUp512 (length : Int) (h0 : 0 ≤ length) (h : length ≤ 2 ^ 53) :
    ceilSectors (roundUp512 length) = ceilSectors length := by
  have h1 := roundUp512_ge length
  have h2 : roundUp512 length ≤ 2 ^ 53 := by unfold roundUp512 ceilDiv; omega
  rw [ceilSectors_of_exact (float64OfInt_of_le (by omega) h2),
    ceilSectors_of_exact (float64OfInt_of_le h0 h)]
  unfold roundUp512 ceilDiv
  omega
theorem verifySegments_one_diff (outName : String) (preE preC postE postC : List segment)
    (e c : segment)
    (hpre : List.Forall₂ (fun e c => e.err = none ∧ e.start = c.start ∧ e.hash = c.hash)
      preE preC)
    (hpost : List.Forall₂ (fun e c => e.err = none ∧ e.start = c.start ∧ e.hash = c.hash)
      postE postC)
    (herr : e.err = none) (hstart : e.start = c.start) (hhash : e.hash ≠ c.hash) (a b : Int)
    (hb : bytesToSectors e.start e.length = .ok (a, b)) :
    verifySegments outName (preC ++ c :: postC) (preE ++ e :: postE) =
      .ok { diffs := 1, diffsFname := outName, errors := 0,
            csvWriter := some [[formatInt a, formatInt b]], created := 1, unread := [] } := by
  unfold verifySegments
  have h1 := verifySegmentsLoop_match outName preE preC (e :: postE) (c :: postC) {} hpre
  simp only at h1
  rw [h1]
  simp only [verifySegmentsLoop, herr, List.headD_cons, List.tail_cons]
  rw [if_neg (not_not.mpr hstart), if_pos hhash, hb]
  have h2 := verifySegmentsLoop_match outName postE postC [] []
    { diffs := 1, diffsFname := outName, errors := 0,
      csvWriter := some [[formatInt a, formatInt b]], created := 1, unread := [] } hpost
  simp only [List.append_nil, verifySegmentsLoop] at h2
  simpa [verifyState.openWriter, verifyState.writeLine] using h2

/-- Where `bytesToSectors` is exact: for every non-empty data image of at most 2^53 bytes,
every `int64` segment size that is a positive multiple of 512 and every supported hash algorithm, with
the manifest that `calc` produced from the image: if the byte at an offset `j` inside the
byte range of segment `k` is replaced and the digest function distinguishes the two
contents of segment `k`, then `verify` on the modified image completes with diff count 1
and error count 0, and its report holds exactly one row, the (startLBA, endLBA) pair of
row `k` of the manifest. -/
theorem verify_detects_tamper (c : Crypto) (n : String) (hc : hashContainer) (data : List Byte)
    (segmentSize : Int) (createOutputFile : String → String) (outName : String) (fuel k j : Nat)
    (b : Byte) (hname : getHashContainerByName c n = .ok hc) (hne : data ≠ [])
    (hsz : (data.length : Int) ≤ 2 ^ 53) (hseg : 0 < segmentSize)
    (hal : segmentSize % 512 = 0) (hmax : segmentSize ≤ maxInt64)
    (hfuel : (ceilDiv data.length segmentSize).toNat ≤ fuel)
    (hlo : k * segmentSize ≤ j)
    (hhi : (j : Int) < k * segmentSize + min segmentSize (data.length - k * segmentSize))
    (hdist : hc.h (((data.set j b).drop (k * segmentSize).toNat).take
        (min segmentSize (data.length - k * segmentSize)).toNat) ≠
      hc.h ((data.drop (k * segmentSize).toNat).take
        (min segmentSize (data.length - k * segmentSize)).toNat)) :
    ∃ name rows row,
      calcHashes c fuel ⟨segmentSize, ⟨data, 0⟩, [n], createOutputFile⟩ = .done [(name, rows)] ∧
      rows[k]? = some row ∧
      verify c ⟨⟨data.set j b, 0⟩, rows, outName⟩ =
        .ok { diffs := 1, diffsFname := outName, errors := 0,
              csvWriter := some [[row.startLba, row.endLba]], created := 1, unread := [] } := by
  have hpos : 0 < data.length := List.length_pos.mpr hne
  have hn := ceilDiv_nonneg data.length segmentSize (by positivity) hseg
  have hge := ceilDiv_mul_ge data.length segmentSize hseg
  have hk0 : (0 : Int) ≤ k := by positivity
  have hks : (0 : Int) ≤ k * segmentSize := by positivity
  have hmin_le : min segmentSize ((data.length : Int) - k * segmentSize) ≤
      data.length - k * segmentSize := min_le_right _ _
  have hmin_le' : min segmentSize ((data.length : Int) - k * segmentSize) ≤ segmentSize :=
    min_le_left _ _
  have hkK : k < (ceilDiv data.length segmentSize).toNat := by
    by_contra hcon
    have : ceilDiv (data.length : Int) segmentSize ≤ k := by omega
    have : ceilDiv (data.length : Int) segmentSize * segmentSize ≤ k * segmentSize :=
      mul_le_mul_of_nonneg_right this (le_of_lt hseg)
    linarith
  obtain ⟨m, hm⟩ : ∃ m, (ceilDiv (data.length : Int) segmentSize).toNat = k + (m + 1) :=
    ⟨(ceilDiv (data.length : Int) segmentSize).toNat - k - 1, by omega⟩
  have hall := rangesFrom_ok segmentSize data.length hseg hal hsz
  have hsz62 : (data.length : Int) ≤ 2 ^ 62 := by norm_num at hsz ⊢; linarith
  have hsplit := rangesFrom_append segmentSize data.length k (m + 1) 0
  rw [← hm] at hsplit
  simp only [rangesFrom, zero_add] at hsplit
  have hhcs : getHashContainersByNames c [n] = .ok [hc] := by
    simp [getHashContainersByNames, hname]
  have hcalc := calcHashes_of_valid c data segmentSize [n] createOutputFile fuel [hc] hsz hseg
    hal hmax (by simp) hhcs hfuel
  have hget := rangesFrom_getElem? segmentSize data.length _ 0 k hkK
  simp only [zero_add] at hget
  refine ⟨_, _, manifestRow hc data ⟨k * segmentSize, min segmentSize (data.length - k * segmentSize)⟩,
    hcalc, by rw [List.getElem?_map, hget]; rfl, ?_⟩
  have hrmem : (⟨k * segmentSize, min segmentSize (data.length - k * segmentSize)⟩ : readRange) ∈
      rangesFrom segmentSize data.length (ceilDiv data.length segmentSize).toNat 0 :=
    List.getElem?_mem hget
  obtain ⟨hrok, hrex, -⟩ := hall _ hrmem
  rw [verify_manifest c n hc hname data (data.set j b) (List.length_set _ _ _) _
    (rangesFrom_ne_nil segmentSize data.length hseg hpos) hsz
    (rangesFrom_contiguous segmentSize data.length hseg) hall outName]
  rw [hsplit, List.map_append, List.map_append, List.map_cons, List.map_cons]
  have hlenr : (min segmentSize ((data.length : Int) - k * segmentSize)) ≤ 2 ^ 53 := by
    linarith
  have hlen0 : 0 < min segmentSize ((data.length : Int) - k * segmentSize) := hrok.2.2.1
  have hvr := verifyRange_of_exact data.length _ hsz62 hrok hrex
  apply verifySegments_one_diff
  · apply forall₂_map_map
    intro r hr
    have hrs : r ∈ rangesFrom segmentSize data.length (ceilDiv data.length segmentSize).toNat 0 := by
      rw [hsplit]; exact List.mem_append_left _ hr
    obtain ⟨hok, hex, -⟩ := hall r hrs
    refine ⟨rfl, ?_, ?_⟩
    · simp only [expectedSegment, verifyRange_of_exact data.length r hsz62 hok hex]
    · obtain ⟨i, hi, rfl⟩ := rangesFrom_mem segmentSize data.length k 0 r hr
      simp only [expectedSegment, zero_add]
      congr 1
      symm
      apply slice_set_eq
      right
      have hi1 : (i : Int) + 1 ≤ k := by omega
      have h1 : ((i : Int) + 1) * segmentSize ≤ k * segmentSize :=
        mul_le_mul_of_nonneg_right hi1 (le_of_lt hseg)
      have h2 : min segmentSize ((data.length : Int) - i * segmentSize) ≤ segmentSize :=
        min_le_left _ _
      have h3 : (0 : Int) ≤ i * segmentSize := by positivity
      have h4 : ((i : Int) + 1) * segmentSize = i * segmentSize + segmentSize := by ring
      omega
  · apply forall₂_map_map
    intro r hr
    have hrs : r ∈ rangesFrom segmentSize data.length (ceilDiv data.length segmentSize).toNat 0 := by
      rw [hsplit]; exact List.mem_append_right _ (List.mem_cons_of_mem _ hr)
    obtain ⟨hok, hex, -⟩ := hall r hrs
    refine ⟨rfl, ?_, ?_⟩
    · simp only [expectedSegment, verifyRange_of_exact data.length r hsz62 hok hex]
    · obtain ⟨i, hi, rfl⟩ := rangesFrom_mem segmentSize data.length m _ r hr
      simp only [expectedSegment]
      congr 1
      symm
      apply slice_set_eq
      left
      have h3 : (0 : Int) ≤ i * segmentSize := by positivity
      omega
  · rfl
  · simp only [expectedSegment, hvr]
  · simp only [expectedSegment]
    exact Ne.symm hdist
  · simp only [expectedSegment, hvr]
    rw [bytesToSectors_of_aligned _ _ hrok.1 hrok.2.1,
      ceilSectors_roundUp512 _ (le_of_lt hlen0) hlenr]

/-- An instance of `verify_detects_tamper`: the second byte of a 3-byte image is replaced. -/
theorem verify_detects_tamper_witness :
    ∃ name rows row,
      calcHashes sumCrypto 1 ⟨512, ⟨[1, 2, 3], 0⟩, ["md5"], id⟩ = .done [(name, rows)] ∧
      rows[0]? = some row ∧
      verify sumCrypto ⟨⟨[1, 2, 3].set 1 9, 0⟩, rows, "diffs.csv"⟩ =
        .ok { diffs := 1, diffsFname := "diffs.csv", errors := 0,
              csvWriter := some [[row.startLba, row.endLba]], created := 1, unread := [] } :=
  verify_detects_tamper sumCrypto "md5" (md5Container sumCrypto) [1, 2, 3] 512 id "diffs.csv"
    1 0 1 9 rfl (by decide) (by decide) (by decide) (by decide) (by decide) (by decide)
    (by decide) (by decide) (by decide)

theorem hugeImage_take : (hugeImage.drop (0 : Int).toNat).take ((2 : Int) ^ 53).toNat =
    List.replicate (2 ^ 53) 0 := by
  unfold hugeImage
  have e : ((2 : Int) ^ 53).toNat = 2 ^ 53 := by decide
  have e0 : (0 : Int).toNat = 0 := rfl
  rw [e, e0, List.drop_zero, List.take_replicate]
  congr 1

theorem hugeImage_set_take :
    ((hugeImage.set 0 1).drop (0 : Int).toNat).take ((2 : Int) ^ 53).toNat =
      1 :: List.replicate (2 ^ 53 - 1) 0 := by
  unfold hugeImage
  have e : ((2 : Int) ^ 53).toNat = (2 ^ 53 - 1) + 1 := by decide
  have e0 : (0 : Int).toNat = 0 := rfl
  rw [e, e0, List.drop_zero, List.replicate_succ, List.set_cons_zero, List.take_succ_cons,
    List.take_replicate]
  congr 2

theorem sumCrypto_md5_replicate (n : Nat) :
    sumCrypto.md5 (List.replicate n 0) = List.replicate 15 0 ++ [0] := by
  simp [sumCrypto]
  rfl

theorem sumCrypto_md5_one_replicate (n : Nat) :
    sumCrypto.md5 (1 :: List.replicate n 0) = List.replicate 15 0 ++ [1] := by
  simp [sumCrypto]
  rfl
/-- C2 fails on the code: for the image of `2^53 + 1` zero bytes and the segment size
`2^53`, replacing byte 0 (inside segment 0) by 1 changes the digest of segment 0, and
`verify` on the modified image reports the diff row of segment 0 but also one error, for
the second row, whose end LBA `2^44` lies past the last sector `2^44 - 1` that
`bytesToSectors` derives through `float64(2^53 + 1) = 2^53`: the error count is 1 and the
report has two rows. -/
theorem verify_tamper_extra_error :
    hugeImage.length = 2 ^ 53 + 1 ∧ (0 : Int) < 2 ^ 53 ∧ (2 ^ 53 : Int) % 512 = 0 ∧
    sumCrypto.md5 (((hugeImage.set 0 1).drop (0 : Int).toNat).take ((2 : Int) ^ 53).toNat) ≠
      sumCrypto.md5 ((hugeImage.drop (0 : Int).toNat).take ((2 : Int) ^ 53).toNat) ∧
    ∃ rows, calcHashes sumCrypto 2 ⟨2 ^ 53, ⟨hugeImage, 0⟩, ["md5"], id⟩ =
        .done [("md5.csv", rows)] ∧
      ∃ st, verify sumCrypto ⟨⟨hugeImage.set 0 1, 0⟩, rows, "diffs.csv"⟩ = .ok st ∧
        st.diffs = 1 ∧ st.errors = 1 ∧
        st.csvWriter = some [["0", "17592186044415"],
          ["Error in line 2: segment with range (17592186044416, 17592186044416) exceeds input file range"]] := by
  have hne : sumCrypto.md5 (((hugeImage.set 0 1).drop (0 : Int).toNat).take ((2 : Int) ^ 53).toNat) ≠
      sumCrypto.md5 ((hugeImage.drop (0 : Int).toNat).take ((2 : Int) ^ 53).toNat) := by
    rw [hugeImage_take, hugeImage_set_take, sumCrypto_md5_replicate, sumCrypto_md5_one_replicate]
    decide
  have hlen : (hugeImage.set 0 1).length = 2 ^ 53 + 1 := by
    rw [List.length_set]; exact hugeImage_length
  refine ⟨hugeImage_length, by decide, by decide, hne, _, calcHashes_hugeImage, ?_⟩
  rw [verify_hugeImage _ hlen, segmentOf_hugeImage_first _ hlen,
    expectedSegment_hugeImage_first, hugeImage_error_text]
  have hb : bytesToSectors 0 (2 ^ 53) = .ok (0, 17592186044415) := by decide
  have e1 : formatInt 0 = "0" := by decide
  have e2 : formatInt 17592186044415 = "17592186044415" := by decide
  refine ⟨
    { diffs := 1, errors := 1, diffsFname := "diffs.csv", created := 1,
      csvWriter := some [["0", "17592186044415"],
        ["Error in line 2: segment with range (17592186044416, 17592186044416) exceeds input file range"]] },
    ?_, rfl, rfl, rfl⟩
  simp only [verifySegments, verifySegmentsLoop, List.headD_cons, List.tail_cons, ne_eq,
    not_true_eq_false, if_false]
  rw [if_pos (Ne.symm hne), hb]
  simp only [verifySegmentsLoop, verifyState.openWriter, verifyState.writeLine, e1, e2]
  rfl

/-! ## A manifest with a malformed row -/

theorem readHashesLoop_append (e : Int) :
    ∀ (a b : List csvRecord) (line : Nat),
      readHashesLoop e (a ++ b) line =
        ((readHashesLoop e a line).1 ++ (readHashesLoop e b (line + a.length)).1,
         (readHashesLoop e a line).2 ++ (readHashesLoop e b (line + a.length)).2) := by
  intro a
  induction a with
  | nil => intro b line; simp [readHashesLoop]
  | cons r rs ih =>
    intro b line
    have e1 : line + (rs.length + 1) = line + 1 + rs.length := by omega
    simp only [List.cons_append, readHashesLoop, List.length_cons, e1]
    split <;> simp [ih b (line + 1)]

theorem readHashesLoop_valid (e : Int) :
    ∀ (rows : List csvRecord) (line line2 : Nat), (∀ r ∈ rows, rowValid e r) →
      readHashesLoop e rows line = readHashesLoop e rows line2 ∧
      ∀ s ∈ (readHashesLoop e rows line).2, s.err = none := by
  intro rows
  induction rows with
  | nil => intro _ _ _; simp [readHashesLoop]
  | cons r rs ih =>
    intro line line2 h
    obtain ⟨h1, h2⟩ := h r (List.mem_cons_self _ _)
    obtain ⟨ih1, ih2⟩ := ih (line + 1) (line2 + 1) (fun x hx => h x (List.mem_cons_of_mem _ hx))
    simp only [readHashesLoop, h1, h2, if_false, ih1]
    refine ⟨trivial, ?_⟩
    intro s hs
    rcases List.mem_cons.mp hs with rfl | hs
    · rfl
    · rw [← ih1] at hs; exact ih2 s hs

theorem readHashesLoop_bad (e : Int) (bad : csvRecord) (rest : List csvRecord) (line : Nat)
    (hbad : (hexDecodeString bad.hash).2 = true) :
    readHashesLoop e (bad :: rest) line =
      ((readHashesLoop e rest (line + 1)).1,
        { start := (sectorToBytes (readSegmentLine bad).1 (readSegmentLine bad).2.1).1,
          length := (sectorToBytes (readSegmentLine bad).1 (readSegmentLine bad).2.1).2,
          hash := (readSegmentLine bad).2.2.1,
          err := some ("Error in line " ++ formatInt line ++ ": " ++
            (if (readSegmentLine bad).2.1 > e then
              "segment with range (" ++ formatInt (readSegmentLine bad).1 ++ ", " ++
                formatInt (readSegmentLine bad).2.1 ++ ") exceeds input file range"
             else bad.join)) } :: (readHashesLoop e rest (line + 1)).2) := by
  have herr : (readSegmentLine bad).2.2.2 = some bad.join := by
    simp [readSegmentLine, hbad]
  by_cases hgt : (readSegmentLine bad).2.1 > e
  · simp only [readHashesLoop, hgt, if_true]
  · simp only [readHashesLoop, hgt, if_false, herr]

theorem verifySegmentsLoop_append (outName : String) :
    ∀ (a b : List segment) (st : verifyState),
      verifySegmentsLoop outName (a ++ b) st =
        match verifySegmentsLoop outName a st with
        | .error e => .error e
        | .ok st1 => verifySegmentsLoop outName b st1 := by
  intro a
  induction a with
  | nil => intro b st; rfl
  | cons s rest ih =>
    intro b st
    simp only [List.cons_append, verifySegmentsLoop]
    split
    · exact ih _ _
    · split
      · rfl
      · split
        · split
          · rfl
          · exact ih _ _
        · exact ih _ _
theorem verifySegmentsLoop_errors_unchanged (outName : String) :
    ∀ (expected : List segment) (st fin : verifyState), (∀ s ∈ expected, s.err = none) →
      verifySegmentsLoop outName expected st = .ok fin → fin.errors = st.errors := by
  intro expected
  induction expected with
  | nil => intro st fin _ h; simp only [verifySegmentsLoop, Except.ok.injEq] at h; rw [h]
  | cons s rest ih =>
    intro st fin hall h
    have hs := hall s (List.mem_cons_self _ _)
    have hrest : ∀ x ∈ rest, x.err = none := fun x hx => hall x (List.mem_cons_of_mem _ hx)
    simp only [verifySegmentsLoop, hs] at h
    split at h
    · cases h
    · split at h
      · split at h
        · cases h
        · have := ih _ fin hrest h
          rw [this]
          cases hw : st.csvWriter <;> simp [verifyState.writeLine, verifyState.openWriter, hw]
      · have := ih _ fin hrest h
        rw [this]

theorem verifySegmentsLoop_shifted (outName : String) (errRow : List String)
    (A : List (List String)) :
    ∀ (expected : List segment) (st st' fin : verifyState) (B : List (List String)),
      (∀ s ∈ expected, s.err = none) →
      st'.unread = st.unread → st'.diffs = st.diffs → st'.errors = st.errors + 1 →
      st.csvWriter.getD [] = A ++ B → st'.csvWriter = some (A ++ errRow :: B) →
      verifySegmentsLoop outName expected st = .ok fin →
      ∃ fin' B', verifySegmentsLoop outName expected st' = .ok fin' ∧
        fin'.diffs = fin.diffs ∧ fin'.errors = fin.errors + 1 ∧
        fin.csvWriter.getD [] = A ++ B' ∧ fin'.csvWriter = some (A ++ errRow :: B') := by
  intro expected
  induction expected with
  | nil =>
    intro st st' fin B _ hu hd he hw hw' h
    simp only [verifySegmentsLoop, Except.ok.injEq] at h
    subst h
    exact ⟨st', B, rfl, hd, he, hw, hw'⟩
  | cons s rest ih =>
    intro st st' fin B hall hu hd he hw hw' h
    have hs := hall s (List.mem_cons_self _ _)
    have hrest : ∀ x ∈ rest, x.err = none := fun x hx => hall x (List.mem_cons_of_mem _ hx)
    simp only [verifySegmentsLoop, hs, hu] at h ⊢
    split at h
    · cases h
    · next hstart =>
      rw [if_neg hstart]
      split at h
      · next hhash =>
        rw [if_pos hhash]
        split at h
        · cases h
        · next lba hb =>
          refine ih _ _ fin (B ++ [[formatInt lba.1, formatInt lba.2]]) hrest ?_ ?_ ?_ ?_ ?_ h
          · cases h1 : st.csvWriter <;>
              simp [verifyState.writeLine, verifyState.openWriter, h1, hw']
          · cases h1 : st.csvWriter <;>
              simp [verifyState.writeLine, verifyState.openWriter, h1, hw', hd]
          · cases h1 : st.csvWriter <;>
              simp [verifyState.writeLine, verifyState.openWriter, h1, hw', he]
          · cases h1 : st.csvWriter with
            | none =>
              rw [h1] at hw
              simp only [Option.getD_none] at hw
              obtain ⟨rfl, rfl⟩ := List.append_eq_nil.mp hw.symm
              simp [verifyState.writeLine, verifyState.openWriter, h1]
            | some w =>
              rw [h1] at hw
              simp only [Option.getD_some] at hw
              simp [verifyState.writeLine, verifyState.openWriter, h1, hw]
          · cases h1 : st.csvWriter <;>
              simp [verifyState.writeLine, verifyState.openWriter, h1, hw']
      · next hhash =>
        rw [if_neg hhash]
        exact ih { st with unread := st.unread.tail } { st' with unread := st.unread.tail }
          fin B hrest rfl hd he hw hw' h
/-- C3 (amended): for every manifest in which exactly one row, not the first, has non-hex
text in its digest field, all other rows pass the checks of the Manifest Reader, and
`verify` of the manifest without that row completes: `verify` of the manifest completes
too, with an error count of exactly 1 (and 0 without the row), the same diff count, and a
report that holds the rows of the report without the malformed row, in the same order, plus
one error row naming the number of the malformed row among the records of the manifest
(its line number when the manifest has no blank lines). With the malformed row as the first
row of any manifest, `verify` aborts, the raw row being the message. -/
theorem verify_malformed_row (c : Crypto) (input : List Byte) (first : csvRecord)
    (pre post : List csvRecord) (bad : csvRecord) (outName : String) (st0 : verifyState)
    (hbad : (hexDecodeString bad.hash).2 = true)
    (hvalid : ∀ r ∈ first :: pre ++ post, rowValid (ceilSectors input.length - 1) r)
    (hrun : verify c ⟨⟨input, 0⟩, first :: pre ++ post, outName⟩ = .ok st0) :
    (∃ st text rowsA rowsB,
      verify c ⟨⟨input, 0⟩, first :: pre ++ bad :: post, outName⟩ = .ok st ∧
      st.errors = 1 ∧ st0.errors = 0 ∧ st.diffs = st0.diffs ∧
      st0.csvWriter.getD [] = rowsA ++ rowsB ∧
      st.csvWriter = some (rowsA ++
        ["Error in line " ++ formatInt ((pre.length + 2 : Nat) : Int) ++ ": " ++ text] :: rowsB)) ∧
    ∀ (data : memFile) (rest : List csvRecord) (out : String),
      verify c ⟨data, bad :: rest, out⟩ = .error bad.join := by
  have hfirstrow : ∀ (data : memFile) (rest : List csvRecord) (out : String),
      verify c ⟨data, bad :: rest, out⟩ = .error bad.join := by
    intro data rest out
    simp [verify, readSegmentLine, hbad]
  refine ⟨?_, hfirstrow⟩
  have hvpre : ∀ r ∈ first :: pre, rowValid (ceilSectors input.length - 1) r := by
    intro r hr
    exact hvalid r (List.mem_append_left _ hr)
  have hvpost : ∀ r ∈ post, rowValid (ceilSectors input.length - 1) r := by
    intro r hr
    exact hvalid r (List.mem_append_right _ hr)
  obtain ⟨hpost_line, hpost_ok⟩ := readHashesLoop_valid (ceilSectors input.length - 1) post
    (1 + (first :: pre).length) (1 + (first :: pre).length + 1) hvpost
  obtain ⟨-, hpre_ok⟩ := readHashesLoop_valid (ceilSectors input.length - 1) (first :: pre)
    1 1 hvpre
  have h0 := readHashesLoop_append (ceilSectors input.length - 1) (first :: pre) post 1
  have h1 := readHashesLoop_append (ceilSectors input.length - 1) (first :: pre) (bad :: post) 1
  rw [readHashesLoop_bad _ bad post _ hbad, ← hpost_line] at h1
  rw [List.cons_append] at h0 h1
  simp only [List.cons_append, verify, readHashesFromFile_eq, fileSize, h0] at hrun
  simp only [List.cons_append, verify, readHashesFromFile_eq, fileSize, h1]
  split at hrun
  · cases hrun
  · next hfirst =>
    try simp only [hfirst]
    split at hrun
    · cases hrun
    · next hc hhc =>
      try simp only [hhc]
      split at hrun
      · cases hrun
      · next chunks hchunks =>
        try simp only [hchunks]
        unfold verifySegments at hrun ⊢
        rw [verifySegmentsLoop_append] at hrun ⊢
        split at hrun
        · cases hrun
        · next st1 hst1 =>
          try simp only [hst1]
          have he1 := verifySegmentsLoop_errors_unchanged outName _ _ st1 hpre_ok hst1
          have he0 := verifySegmentsLoop_errors_unchanged outName _ _ st0 hpost_ok hrun
          simp only [verifySegmentsLoop]
          obtain ⟨fin', B', hfin, hd, he, hw, hw'⟩ := verifySegmentsLoop_shifted outName
            ["Error in line " ++ formatInt ((1 + (first :: pre).length : Nat) : Int) ++ ": " ++
              (if (readSegmentLine bad).2.1 > ceilSectors input.length - 1 then
                "segment with range (" ++ formatInt (readSegmentLine bad).1 ++ ", " ++
                  formatInt (readSegmentLine bad).2.1 ++ ") exceeds input file range"
               else bad.join)]
            (st1.csvWriter.getD []) _ st1
            (({ st1.openWriter outName with errors := (st1.openWriter outName).errors + 1 } :
              verifyState).writeLine
              ["Error in line " ++ formatInt ((1 + (first :: pre).length : Nat) : Int) ++ ": " ++
                (if (readSegmentLine bad).2.1 > ceilSectors input.length - 1 then
                  "segment with range (" ++ formatInt (readSegmentLine bad).1 ++ ", " ++
                    formatInt (readSegmentLine bad).2.1 ++ ") exceeds input file range"
                 else bad.join)])
            st0 [] hpost_ok
            (by cases hw1 : st1.csvWriter <;>
              simp [verifyState.writeLine, verifyState.openWriter, hw1])
            (by cases hw1 : st1.csvWriter <;>
              simp [verifyState.writeLine, verifyState.openWriter, hw1])
            (by cases hw1 : st1.csvWriter <;>
              simp [verifyState.writeLine, verifyState.openWriter, hw1])
            (by simp)
            (by cases hw1 : st1.csvWriter <;>
              simp [verifyState.writeLine, verifyState.openWriter, hw1])
            hrun
          have hline : (1 + (first :: pre).length : Nat) = pre.length + 2 := by
            simp only [List.length_cons]; omega
          rw [hline] at hw'
          refine ⟨fin', _, st1.csvWriter.getD [], B', hfin, ?_, ?_, hd, hw, hw'⟩
          · rw [he, he0, he1]; rfl
          · rw [he0, he1]
/-- Witness for C3: the manifest of a 3-byte image with a malformed second row. -/
theorem verify_malformed_row_witness :
    (∃ st text rowsA rowsB,
      verify sumCrypto ⟨⟨[1, 2, 3], 0⟩,
        ⟨"00000000000000000000000000000006", "0", "0"⟩ :: [] ++ ⟨"zz", "0", "0"⟩ :: [],
        "diffs.csv"⟩ = .ok st ∧
      st.errors = 1 ∧ ({} : verifyState).errors = 0 ∧ st.diffs = ({} : verifyState).diffs ∧
      ({} : verifyState).csvWriter.getD [] = rowsA ++ rowsB ∧
      st.csvWriter = some (rowsA ++
        ["Error in line " ++ formatInt ((([] : List csvRecord).length + 2 : Nat) : Int) ++ ": " ++
          text] :: rowsB)) ∧
    ∀ (data : memFile) (rest : List csvRecord) (out : String),
      verify sumCrypto ⟨data, ⟨"zz", "0", "0"⟩ :: rest, out⟩ =
        .error (csvRecord.join ⟨"zz", "0", "0"⟩) :=
  verify_malformed_row sumCrypto [1, 2, 3] ⟨"00000000000000000000000000000006", "0", "0"⟩ [] []
    ⟨"zz", "0", "0"⟩ "diffs.csv" {} (by decide) (by decide) (by decide)

/-- C3 as stated fails when the malformed row is the first one: `verify` reads the first
row to find the hash algorithm and `checkErr` aborts on its error, although the manifest
without that row verifies cleanly. -/
theorem verify_malformed_row_counterexample :
    (hexDecodeString "zz").2 = true ∧
    rowValid (ceilSectors 3 - 1) ⟨"00000000000000000000000000000006", "0", "0"⟩ ∧
    verify sumCrypto ⟨⟨[1, 2, 3], 0⟩,
      [⟨"00000000000000000000000000000006", "0", "0"⟩], "diffs.csv"⟩ = .ok {} ∧
    verify sumCrypto ⟨⟨[1, 2, 3], 0⟩,
      [⟨"zz", "0", "0"⟩, ⟨"00000000000000000000000000000006", "0", "0"⟩], "diffs.csv"⟩ =
      .error "zz,0,0" := by
  decide

/-! ## Iterations of the inner read loop -/

theorem readRangeLoop_fuel {σ : Type} (input : ReadSeeker σ) (bufSize start : Int) :
    ∀ (fuel1 fuel2 : Nat) (st : σ) (left : Int), left.toNat ≤ fuel1 → left.toNat ≤ fuel2 →
      readRangeLoop input bufSize start fuel1 st left =
        readRangeLoop input bufSize start fuel2 st left := by
  intro fuel1
  induction fuel1 with
  | zero =>
    intro fuel2 st left h1 _
    have hle : ¬ left > 0 := by omega
    cases fuel2 <;> simp [readRangeLoop, hle]
  | succ f1 ih =>
    intro fuel2 st left h1 h2
    by_cases hpos : left > 0
    · obtain ⟨f2, rfl⟩ : ∃ f2, fuel2 = f2 + 1 := ⟨fuel2 - 1, by omega⟩
      simp only [readRangeLoop, hpos, if_true]
      generalize (if left < bufSize then left else bufSize) = want
      generalize input.Read st want.toNat = r
      by_cases hn : ((r.2.1.length : Nat) : Int) = 0
      · simp only [hn, if_true]
      · simp only [hn, if_false]
        by_cases herr : r.2.2.isSome = true
        · simp only [herr, if_true]
        · simp only [herr, if_false]
          have hlen : (1 : Int) ≤ ((r.2.1.length : Nat) : Int) := by omega
          rw [ih f2 r.1 _ (by split <;> omega) (by split <;> omega)]
    · cases fuel2 <;> simp [readRangeLoop, hpos]

/-! ## The report of the Verifier is created once -/

theorem reportInvariant_row (outName : String) (st s1 : verifyState) (row : List String)
    (d e : Int) (hd : (d = 1 ∧ e = 0) ∨ (d = 0 ∧ e = 1)) (h : reportInvariant outName st)
    (hw1 : s1.csvWriter = (st.openWriter outName).csvWriter.map (fun rows => rows ++ [row]))
    (hc1 : s1.created = (st.openWriter outName).created)
    (hf1 : s1.diffsFname = (st.openWriter outName).diffsFname)
    (hd1 : s1.diffs = st.diffs + d) (he1 : s1.errors = st.errors + e) :
    reportInvariant outName s1 ∧ st.created ≤ s1.created ∧
      ∀ rows, st.csvWriter = some rows → s1.csvWriter = some (rows ++ [row]) := by
  obtain ⟨h1, h2, h3, h4, h5, h6⟩ := h
  unfold reportInvariant
  rw [hw1, hc1, hf1, hd1, he1]
  cases hw : st.csvWriter with
  | none =>
    simp only [hw, Option.isSome_none, Bool.false_eq_true, false_iff, not_lt] at h5
    have hd0 : st.diffs = 0 := by omega
    have he0 : st.errors = 0 := by omega
    simp only [verifyState.openWriter, hw, hd0, he0]
    rcases hd with ⟨rfl, rfl⟩ | ⟨rfl, rfl⟩ <;> simp [h3, hd0, he0]
  | some rows =>
    simp only [hw, Option.isSome_some, true_iff] at h5
    simp only [hw, Option.getD_some] at h6
    simp only [verifyState.openWriter, hw, Option.map_some',
      Option.isSome_some, true_iff, Option.getD_some, List.length_append, List.length_singleton]
    simp only [h5, if_true] at h3 h4
    have hpos : 0 < st.diffs + d + (st.errors + e) := by
      rcases hd with ⟨rfl, rfl⟩ | ⟨rfl, rfl⟩ <;> omega
    refine ⟨⟨by omega, by omega, ?_, ?_, hpos, ?_⟩, le_refl _, by simp⟩
    · rw [if_pos hpos]; exact h3
    · rw [if_pos hpos]; exact h4
    · push_cast; omega

theorem openWriter_diffs (outName : String) (st : verifyState) :
    (st.openWriter outName).diffs = st.diffs := by
  unfold verifyState.openWriter; split <;> rfl

theorem openWriter_errors (outName : String) (st : verifyState) :
    (st.openWriter outName).errors = st.errors := by
  unfold verifyState.openWriter; split <;> rfl

theorem verifySegmentsLoop_report (outName : String) :
    ∀ (fileChan : List segment) (st fin : verifyState),
      verifySegmentsLoop outName fileChan st = .ok fin → reportInvariant outName st →
      reportInvariant outName fin ∧ st.created ≤ fin.created ∧
        ∀ rows, st.csvWriter = some rows → ∃ more, fin.csvWriter = some (rows ++ more) := by
  intro fileChan
  induction fileChan with
  | nil =>
    intro st fin h hinv
    simp only [verifySegmentsLoop, Except.ok.injEq] at h
    subst h
    exact ⟨hinv, le_refl _, fun rows hr => ⟨[], by simpa using hr⟩⟩
  | cons s rest ih =>
    intro st fin h hinv
    simp only [verifySegmentsLoop] at h
    split at h
    · next e _ =>
      obtain ⟨hi, hc, hr⟩ := reportInvariant_row outName st
        (verifyState.writeLine
          { st.openWriter outName with errors := (st.openWriter outName).errors + 1 } [e])
        [e] 0 1 (Or.inr ⟨rfl, rfl⟩) hinv rfl rfl rfl
        (by simp [verifyState.writeLine, openWriter_diffs])
        (by simp [verifyState.writeLine, openWriter_errors])
      obtain ⟨hi2, hc2, hr2⟩ := ih _ fin h hi
      refine ⟨hi2, le_trans hc hc2, fun rows hrows => ?_⟩
      obtain ⟨more, hm⟩ := hr2 _ (hr rows hrows)
      exact ⟨[e] :: more, by simpa using hm⟩
    · split at h
      · cases h
      · split at h
        · split at h
          · cases h
          · next lba _ =>
            obtain ⟨hi, hc, hr⟩ := reportInvariant_row outName
              { st with unread := st.unread.tail }
              (verifyState.writeLine
                { verifyState.openWriter { st with unread := st.unread.tail } outName with
                  diffs := (verifyState.openWriter { st with unread := st.unread.tail }
                    outName).diffs + 1 }
                [formatInt lba.1, formatInt lba.2])
              [formatInt lba.1, formatInt lba.2] 1 0
              (Or.inl ⟨rfl, rfl⟩) hinv rfl rfl rfl
              (by simp [verifyState.writeLine, openWriter_diffs])
              (by simp [verifyState.writeLine, openWriter_errors])
            obtain ⟨hi2, hc2, hr2⟩ := ih _ fin h hi
            refine ⟨hi2, le_trans hc hc2, fun rows hrows => ?_⟩
            obtain ⟨more, hm⟩ := hr2 _ (hr rows hrows)
            exact ⟨[formatInt lba.1, formatInt lba.2] :: more, by simpa using hm⟩
        · exact ih { st with unread := st.unread.tail } fin h hinv

/-- C11: in every run of `verifySegments` that gets through the rows `pre` (a whole run, or
the part of a longer run up to any row), `createOutput` was called exactly once if a diff or
an error was counted and never otherwise, the report name is the name of the created sink
in the first case and the empty string in the second, and the one report holds a row per
diff or error; in the longer run the same sink stays in use (no further creation) and the
later rows are added after the ones it held. -/
theorem verifySegments_report_created (outName : String)
    (calculatorChan pre post : List segment) (stp : verifyState)
    (hpre : verifySegments outName calculatorChan pre = .ok stp) :
    stp.created = (if 0 < stp.diffs + stp.errors then 1 else 0) ∧
    stp.diffsFname = (if 0 < stp.diffs + stp.errors then outName else "") ∧
    (stp.csvWriter.isSome ↔ 0 < stp.diffs + stp.errors) ∧
    ((stp.csvWriter.getD []).length : Int) = stp.diffs + stp.errors ∧
    ∀ st, verifySegments outName calculatorChan (pre ++ post) = .ok st →
      st.created = (if 0 < st.diffs + st.errors then 1 else 0) ∧
      st.diffsFname = (if 0 < st.diffs + st.errors then outName else "") ∧
      stp.created ≤ st.created ∧
      ∀ rows, stp.csvWriter = some rows → ∃ more, st.csvWriter = some (rows ++ more) := by
  have h0 : reportInvariant outName { unread := calculatorChan } := by
    unfold reportInvariant; simp
  obtain ⟨hinv, -, -⟩ := verifySegmentsLoop_report outName pre _ stp hpre h0
  obtain ⟨-, -, h3, h4, h5, h6⟩ := id hinv
  refine ⟨h3, h4, h5, h6, fun st hst => ?_⟩
  unfold verifySegments at hst hpre
  rw [verifySegmentsLoop_append, hpre] at hst
  obtain ⟨⟨-, -, k3, k4, -, -⟩, kc, kr⟩ :=
    verifySegmentsLoop_report outName post stp st hst hinv
  exact ⟨k3, k4, kc, kr⟩

/-- Witness for C11: a run over an error row and a matching row, as the first part of a run
that goes on with a differing row. -/
theorem verifySegments_report_created_witness :
    verifySegments "diffs.csv"
        [{ start := 0, length := 512, hash := [1] }, { start := 512, length := 512, hash := [2] }]
        [{ start := 0, length := 0, err := some "Error in line 1: zz,0,0" },
         { start := 0, length := 512, hash := [1] }] =
      .ok { errors := 1, diffsFname := "diffs.csv", created := 1,
            csvWriter := some [["Error in line 1: zz,0,0"]],
            unread := [{ start := 512, length := 512, hash := [2] }] } ∧
    ((1 : Nat) = (if (0 : Int) < 0 + 1 then 1 else 0) ∧
     "diffs.csv" = (if (0 : Int) < 0 + 1 then "diffs.csv" else "") ∧
     ((some [["Error in line 1: zz,0,0"]] : Option (List (List String))).isSome ↔
        (0 : Int) < 0 + 1) ∧
     ((([["Error in line 1: zz,0,0"]] : List (List String)).length : Nat) : Int) = 0 + 1 ∧
     ∀ st, verifySegments "diffs.csv"
        [{ start := 0, length := 512, hash := [1] }, { start := 512, length := 512, hash := [2] }]
        ([{ start := 0, length := 0, err := some "Error in line 1: zz,0,0" },
          { start := 0, length := 512, hash := [1] }] ++
         [{ start := 512, length := 512, hash := [3] }]) = .ok st →
       st.created = (if 0 < st.diffs + st.errors then 1 else 0) ∧
       st.diffsFname = (if 0 < st.diffs + st.errors then "diffs.csv" else "") ∧
       1 ≤ st.created ∧
       ∀ rows, some [["Error in line 1: zz,0,0"]] = some rows →
         ∃ more, st.csvWriter = some (rows ++ more)) :=
  ⟨by decide,
   verifySegments_report_created "diffs.csv"
     [{ start := 0, length := 512, hash := [1] }, { start := 512, length := 512, hash := [2] }]
     [{ start := 0, length := 0, err := some "Error in line 1: zz,0,0" },
      { start := 0, length := 512, hash := [1] }]
     [{ start := 512, length := 512, hash := [3] }]
     { errors := 1, diffsFname := "diffs.csv", created := 1,
       csvWriter := some [["Error in line 1: zz,0,0"]],
       unread := [{ start := 512, length := 512, hash := [2] }] }
     (by decide)⟩

/-! ## Digest length identifies the algorithm -/

theorem getHashContainerByHash_unknown (c : Crypto) (digest : List Byte)
    (h : ∀ p ∈ digestLengths, digest.length ≠ p.2) :
    getHashContainerByHash c digest =
      .error ("unknown hash type with digest length " ++ formatInt digest.length ++ ".") := by
  simp only [digestLengths, List.mem_cons, List.mem_singleton, List.not_mem_nil, or_false,
    forall_eq_or_imp, forall_eq] at h
  obtain ⟨h1, h2, h3, h4, h5, h6⟩ := h
  simp [getHashContainerByHash, h1, h2, h3, h4, h5, h6]

/-- C12: the digest lengths of the six supported algorithms (16, 20, 28, 32, 48 and 64
bytes) are pairwise distinct; for each supported name `n`, `getHashContainersByNames` selects
a container named `n` whose digests have the length listed for `n`, and
`getHashContainerByHash` applied to any digest of that length returns that container; applied
to a digest of any other length (0 included) it aborts with the unknown-hash-type error. -/
theorem getHashContainerByHash_of_digest_length (c : Crypto) (n : String) (len : Nat)
    (hn : (n, len) ∈ digestLengths) :
    (digestLengths.map Prod.fst = supportedNames ∧
      (digestLengths.map Prod.snd).Pairwise (fun a b => a ≠ b)) ∧
    (∃ hc, getHashContainersByNames c [n] = .ok [hc] ∧ hc.name = n ∧
      (∀ data, (hc.h data).length = len) ∧
      ∀ digest : List Byte, (digest.length = len ∨ ∃ data, digest.length = (hc.h data).length) →
        getHashContainerByHash c digest = .ok hc) ∧
    (∀ digest : List Byte, (∀ p ∈ digestLengths, digest.length ≠ p.2) →
      getHashContainerByHash c digest =
        .error ("unknown hash type with digest length " ++ formatInt digest.length ++ ".")) ∧
    getHashContainerByHash c [] = .error "unknown hash type with digest length 0." := by
  refine ⟨⟨by decide, by decide⟩, ?_, getHashContainerByHash_unknown c, by
    simp [getHashContainerByHash]; decide⟩
  simp only [digestLengths, List.mem_cons, List.mem_singleton, List.not_mem_nil, or_false,
    Prod.mk.injEq] at hn
  rcases hn with ⟨rfl, rfl⟩ | ⟨rfl, rfl⟩ | ⟨rfl, rfl⟩ | ⟨rfl, rfl⟩ | ⟨rfl, rfl⟩ | ⟨rfl, rfl⟩
  · refine ⟨{ h := c.md5, name := "md5" }, by simp [getHashContainersByNames, getHashContainerByName],
      rfl, c.md5_size, fun digest hd => ?_⟩
    have hl : digest.length = 16 := by
      rcases hd with h | ⟨data, h⟩
      · exact h
      · rw [h]; exact c.md5_size data
    simp [getHashContainerByHash, hl]
  · refine ⟨{ h := c.sha1, name := "sha1" }, by simp [getHashContainersByNames, getHashContainerByName],
      rfl, c.sha1_size, fun digest hd => ?_⟩
    have hl : digest.length = 20 := by
      rcases hd with h | ⟨data, h⟩
      · exact h
      · rw [h]; exact c.sha1_size data
    simp [getHashContainerByHash, hl]
  · refine ⟨{ h := c.sha224, name := "sha224" }, by simp [getHashContainersByNames, getHashContainerByName],
      rfl, c.sha224_size, fun digest hd => ?_⟩
    have hl : digest.length = 28 := by
      rcases hd with h | ⟨data, h⟩
      · exact h
      · rw [h]; exact c.sha224_size data
    simp [getHashContainerByHash, hl]
  · refine ⟨{ h := c.sha256, name := "sha256" }, by simp [getHashContainersByNames, getHashContainerByName],
      rfl, c.sha256_size, fun digest hd => ?_⟩
    have hl : digest.length = 32 := by
      rcases hd with h | ⟨data, h⟩
      · exact h
      · rw [h]; exact c.sha256_size data
    simp [getHashContainerByHash, hl]
  · refine ⟨{ h := c.sha384, name := "sha384" }, by simp [getHashContainersByNames, getHashContainerByName],
      rfl, c.sha384_size, fun digest hd => ?_⟩
    have hl : digest.length = 48 := by
      rcases hd with h | ⟨data, h⟩
      · exact h
      · rw [h]; exact c.sha384_size data
    simp [getHashContainerByHash, hl]
  · refine ⟨{ h := c.sha512, name := "sha512" }, by simp [getHashContainersByNames, getHashContainerByName],
      rfl, c.sha512_size, fun digest hd => ?_⟩
    have hl : digest.length = 64 := by
      rcases hd with h | ⟨data, h⟩
      · exact h
      · rw [h]; exact c.sha512_size data
    simp [getHashContainerByHash, hl]

/-- Witness for C12: the name `md5` with its 16-byte digests. -/
theorem getHashContainerByHash_of_digest_length_witness :
    (("md5", 16) ∈ digestLengths) ∧
    ((digestLengths.map Prod.fst = supportedNames ∧
      (digestLengths.map Prod.snd).Pairwise (fun a b => a ≠ b)) ∧
    (∃ hc, getHashContainersByNames sumCrypto ["md5"] = .ok [hc] ∧ hc.name = "md5" ∧
      (∀ data, (hc.h data).length = 16) ∧
      ∀ digest : List Byte, (digest.length = 16 ∨ ∃ data, digest.length = (hc.h data).length) →
        getHashContainerByHash sumCrypto digest = .ok hc) ∧
    (∀ digest : List Byte, (∀ p ∈ digestLengths, digest.length ≠ p.2) →
      getHashContainerByHash sumCrypto digest =
        .error ("unknown hash type with digest length " ++ formatInt digest.length ++ ".")) ∧
    getHashContainerByHash sumCrypto [] = .error "unknown hash type with digest length 0.") :=
  ⟨by decide, getHashContainerByHash_of_digest_length sumCrypto "md5" 16 (by decide)⟩

/-! ## A manifest row that desynchronises the Verifier -/

set_option maxRecDepth 8000 in
/-- C13 fails on the code: the manifest row `d41d8cd98f00b204e9800998ecf8427e,-36028797018963967,0`
passes every check of the Manifest Reader for a 600-byte image (a negative LBA is not
rejected), `sectorToBytes` wraps it to the range with start 512 and length 0, for which the
Streamer delivers no chunk and the Segment Hasher no Segment, and `verifySegments` aborts in
its start-mismatch branch. -/
theorem verify_start_mismatch_reached :
    (readHashesFromFile
        [{ hash := "d41d8cd98f00b204e9800998ecf8427e", startLba := "-36028797018963967",
           endLba := "0" }] 600).map
      (fun r => (r.1, r.2.map (fun s => (s.start, s.length, s.err)))) =
      .ok ([{ start := 512, length := 0 }], [(512, 0, none)]) ∧
    readFile memFile.readSeeker { data := List.replicate 600 0, pos := 0 } bufferSize 1
      [{ start := 512, length := 0 }] = .ok [[]] ∧
    calculateHash (md5Container sumCrypto) [] = [] ∧
    verify sumCrypto
      { input := { data := List.replicate 600 0, pos := 0 },
        segmentHashesInput :=
          [{ hash := "d41d8cd98f00b204e9800998ecf8427e", startLba := "-36028797018963967",
             endLba := "0" }],
        createOutputFile := "Diffs.csv" } =
      .error "Internal error: fileSegment start(512) is different from calculatedSegment start(0)" := by
  refine ⟨by decide, by decide, by decide, by decide⟩

/-! ## Segment starts are sector-aligned in both pipelines -/

theorem wrap64_emod_512 (x : Int) : wrap64 x % 512 = x % 512 := by
  unfold wrap64
  omega

theorem produceReadRangesLoop_aligned (seg size : Int) (hseg : seg % 512 = 0) :
    ∀ (fuel : Nat) (pb : Int), pb % 512 = 0 →
      ∀ r ∈ (produceReadRangesLoop seg size fuel pb).1, r.start % 512 = 0 := by
  intro fuel
  induction fuel with
  | zero => intro pb _ r hr; simp [produceReadRangesLoop] at hr
  | succ k ih =>
    intro pb hpb r hr
    simp only [produceReadRangesLoop] at hr
    split at hr
    · simp only [List.mem_cons] at hr
      rcases hr with rfl | hr
      · split <;> exact hpb
      · refine ih (wrap64 (pb + seg)) ?_ r hr
        rw [wrap64_emod_512]; omega
    · simp at hr

theorem readRangeLoop_base {σ : Type} (input : ReadSeeker σ) (bufSize start : Int) :
    ∀ (fuel : Nat) (st : σ) (left : Int),
      ∀ c ∈ (readRangeLoop input bufSize start fuel st left).2, c.baseSegmentStart = start := by
  intro fuel
  induction fuel with
  | zero => intro st left c hc; simp [readRangeLoop] at hc
  | succ k ih =>
    intro st left c hc
    by_cases hpos : left > 0
    · simp only [readRangeLoop, hpos, if_true] at hc
      generalize (if left < bufSize then left else bufSize) = want at hc
      generalize input.Read st want.toNat = r at hc
      by_cases hn : ((r.2.1.length : Nat) : Int) = 0
      · simp only [hn, if_true] at hc
        simp at hc
      · simp only [hn, if_false] at hc
        by_cases herr : r.2.2.isSome = true
        · simp only [herr, if_true, List.mem_singleton] at hc
          rw [hc]
        · simp only [herr, if_false] at hc
          rcases List.mem_cons.mp hc with h1 | h2
          · rw [h1]
          · exact ih _ _ c h2
    · simp [readRangeLoop, hpos] at hc

theorem readFileLoop_base {σ : Type} (input : ReadSeeker σ) (bufSize : Int) :
    ∀ (rs : List readRange) (st : σ) (cur : Int) (chunks : List segmentChunk),
      readFileLoop input bufSize rs st cur = .ok chunks →
      ∀ c ∈ chunks, ∃ r ∈ rs, c.baseSegmentStart = r.start := by
  intro rs
  induction rs with
  | nil =>
    intro st cur chunks h c hc
    simp only [readFileLoop, Except.ok.injEq] at h
    subst h
    simp at hc
  | cons r rest ih =>
    intro st cur chunks h c hc
    simp only [readFileLoop] at h
    split at h
    · cases h
    · split at h
      · cases h
      · next restChunks hrest =>
        simp only [Except.ok.injEq] at h
        subst h
        rcases List.mem_append.mp hc with h1 | h2
        · exact ⟨r, List.mem_cons_self _ _, readRangeLoop_base input bufSize r.start _ _ _ c h1⟩
        · obtain ⟨r2, hr2, he⟩ := ih _ _ restChunks hrest c h2
          exact ⟨r2, List.mem_cons_of_mem _ hr2, he⟩

theorem calculateHashLoop_start (hc : hashContainer) (P : Int → Prop) :
    ∀ (chunks : List segmentChunk) (cur : segment) (w : List Byte),
      (cur.length = 0 ∨ P cur.start) → (∀ c ∈ chunks, P c.baseSegmentStart) →
      ∀ s ∈ calculateHashLoop hc chunks cur w, P s.start := by
  intro chunks
  induction chunks with
  | nil =>
    intro cur w hcur _ s hs
    simp only [calculateHashLoop] at hs
    split at hs
    · next hpos =>
      simp only [List.mem_singleton] at hs
      subst hs
      rcases hcur with h0 | hp
      · omega
      · exact hp
    · simp at hs
  | cons c rest ih =>
    intro cur w hcur hall s hs
    have hc0 := hall c (List.mem_cons_self _ _)
    have hrest : ∀ x ∈ rest, P x.baseSegmentStart := fun x hx => hall x (List.mem_cons_of_mem _ hx)
    have hstart : P (if cur.length = 0 then { cur with start := c.baseSegmentStart }
        else cur).start := by
      split
      · exact hc0
      · next hne =>
        rcases hcur with h0 | hp
        · exact absurd h0 hne
        · exact hp
    simp only [calculateHashLoop] at hs
    split at hs
    · simp only [List.mem_cons] at hs
      rcases hs with rfl | hs
      · exact hstart
      · exact ih ({} : segment) [] (Or.inl rfl) hrest s hs
    · refine ih _ _ ?_ hrest s hs
      exact Or.inr hstart

theorem bytesToSectors_of_emod (start length : Int) (h : start % 512 = 0) :
    bytesToSectors start length =
      .ok (ceilSectors start, ceilSectors start + ceilSectors length - 1) :=
  bytesToSectors_of_tmod start length (Int.tmod_eq_zero_of_dvd (Int.dvd_of_emod_eq_zero h))

theorem writeFile_of_aligned :
    ∀ segs : List segment, (∀ s ∈ segs, s.start % 512 = 0) → ∃ rows, writeFile segs = .ok rows := by
  intro segs
  induction segs with
  | nil => intro _; exact ⟨[], rfl⟩
  | cons s rest ih =>
    intro h
    obtain ⟨rows, hrows⟩ := ih (fun x hx => h x (List.mem_cons_of_mem _ hx))
    have hs := bytesToSectors_of_emod s.start s.length (h s (List.mem_cons_self _ _))
    simp only [writeFile, segment.ToStringSlice, hs, hrows]
    exact ⟨_, rfl⟩

theorem calcOutputs_of_aligned (args : calcArgs) :
    ∀ (hcs : List hashContainer) (chunkss : List (List segmentChunk)),
      (∀ hc ∈ hcs, ∀ chunks ∈ chunkss, ∀ s ∈ calculateHash hc chunks, s.start % 512 = 0) →
      ∃ outs, calcOutputs args hcs chunkss = .ok outs := by
  intro hcs
  induction hcs with
  | nil => intro chunkss _; exact ⟨[], by simp [calcOutputs]⟩
  | cons hc rest ih =>
    intro chunkss h
    cases chunkss with
    | nil => exact ⟨[], by simp [calcOutputs]⟩
    | cons chunks more =>
      obtain ⟨rows, hrows⟩ := writeFile_of_aligned (calculateHash hc chunks)
        (h hc (List.mem_cons_self _ _) chunks (List.mem_cons_self _ _))
      obtain ⟨outs, houts⟩ := ih more (fun hc2 h2 ch hch =>
        h hc2 (List.mem_cons_of_mem _ h2) ch (List.mem_cons_of_mem _ hch))
      simp only [calcOutputs, hrows, houts]
      exact ⟨_, rfl⟩

theorem readHashesLoop_aligned (dataEndSector : Int) :
    ∀ (records : List csvRecord) (line : Nat),
      ∀ s ∈ (readHashesLoop dataEndSector records line).2, s.start % 512 = 0 := by
  intro records
  induction records with
  | nil => intro line s hs; simp [readHashesLoop] at hs
  | cons record rest ih =>
    intro line s hs
    have halign : ∀ a b : Int, (sectorToBytes a b).1 % 512 = 0 := by
      intro a b
      simp only [sectorToBytes, sectorSize, wrap64_emod_512]
      omega
    simp only [readHashesLoop] at hs
    split at hs
    · rcases List.mem_cons.mp hs with h1 | h2
      · rw [h1]; exact halign (readSegmentLine record).1 (readSegmentLine record).2.1
      · exact ih _ s h2
    · rcases List.mem_cons.mp hs with h1 | h2
      · rw [h1]; exact halign (readSegmentLine record).1 (readSegmentLine record).2.1
      · exact ih _ s h2

theorem checkSegmentSize_ok (segmentSize : Int) (h : checkSegmentSize segmentSize = .ok ()) :
    minSegmentSize ≤ segmentSize ∧ segmentSize % 512 = 0 := by
  unfold checkSegmentSize at h
  split at h
  · cases h
  · split at h
    · cases h
    · next h1 h2 =>
      refine ⟨by omega, ?_⟩
      have h3 : segmentSize.tmod sectorSize = 0 := by simpa using h2
      exact Int.emod_eq_zero_of_dvd (Int.dvd_of_tmod_eq_zero h3)

/-- C14: for every segment size that `checkSegmentSize` accepts and every image, every
Segment that `calc` passes to the Manifest Writer has a start that is a multiple of 512, so
that `bytesToSectors` returns for it and the Manifest Writer loop does not abort; and for
every manifest and data size, `readHashesFromFile` does not abort and every Segment it
derives from a row has a start that is a multiple of 512, so that `bytesToSectors` returns
for it in `verifySegments`. -/
theorem bytesToSectors_alignment_unreachable (c : Crypto) (fuel : Nat) (args : calcArgs)
    (hsize : checkSegmentSize args.segmentSize = .ok ()) :
    (∀ hcs chunkss, getHashContainersByNames c args.hashNames = .ok hcs →
      readFile memFile.readSeeker args.input bufferSize hcs.length
        (produceReadRanges fuel args.segmentSize (fileSize args.input)).1 = .ok chunkss →
      (∀ hc ∈ hcs, ∀ chunks ∈ chunkss, ∀ seg ∈ calculateHash hc chunks,
        seg.start % 512 = 0 ∧ ∃ lba, bytesToSectors seg.start seg.length = .ok lba) ∧
      ∃ outs, calcOutputs args hcs chunkss = .ok outs) ∧
    (∀ (manifest : List csvRecord) (dataSize : Int),
      ∃ r, readHashesFromFile manifest dataSize = .ok r ∧
        ∀ seg ∈ r.2, seg.start % 512 = 0 ∧
          ∃ lba, bytesToSectors seg.start seg.length = .ok lba) := by
  obtain ⟨-, hseg⟩ := checkSegmentSize_ok _ hsize
  constructor
  · intro hcs chunkss _ hread
    have hal : ∀ hc ∈ hcs, ∀ chunks ∈ chunkss, ∀ seg ∈ calculateHash hc chunks,
        seg.start % 512 = 0 := by
      intro hc _ chunks hchunks seg hsegm
      rw [readFile_consumers] at hread
      cases hloop : readFileLoop memFile.readSeeker bufferSize
          (produceReadRanges fuel args.segmentSize (fileSize args.input)).1 args.input 0 with
      | error e => rw [hloop] at hread; cases hread
      | ok all =>
        rw [hloop] at hread
        simp only [Except.map, Except.ok.injEq] at hread
        subst hread
        have hch : chunks = all := List.eq_of_mem_replicate hchunks
        subst hch
        refine calculateHashLoop_start hc (fun x => x % 512 = 0) chunks {} [] (Or.inl rfl)
          (fun ch hchm => ?_) seg hsegm
        obtain ⟨r, hr, he⟩ := readFileLoop_base _ _ _ _ _ _ hloop ch hchm
        rw [he]
        exact produceReadRangesLoop_aligned _ _ hseg fuel 0 rfl r hr
    exact ⟨fun hc hhc chunks hch seg hsegm =>
        ⟨hal hc hhc chunks hch seg hsegm,
          _, bytesToSectors_of_emod _ _ (hal hc hhc chunks hch seg hsegm)⟩,
      calcOutputs_of_aligned args hcs chunkss hal⟩
  · intro manifest dataSize
    refine ⟨readHashesLoop (ceilSectors 0 + ceilSectors dataSize - 1) manifest 1, ?_, ?_⟩
    · simp [readHashesFromFile, bytesToSectors]
    · intro seg hsegm
      have h := readHashesLoop_aligned _ manifest 1 seg hsegm
      exact ⟨h, _, bytesToSectors_of_emod _ _ h⟩

/-- Witness for C14: a three-byte image with the smallest segment size accepted. -/
theorem bytesToSectors_alignment_unreachable_witness :
    checkSegmentSize 2097152 = .ok () ∧
    ((∀ hcs chunkss, getHashContainersByNames sumCrypto ["md5"] = .ok hcs →
      readFile memFile.readSeeker { data := [1, 2, 3], pos := 0 } bufferSize hcs.length
        (produceReadRanges 3 2097152 (fileSize { data := [1, 2, 3], pos := 0 })).1 = .ok chunkss →
      (∀ hc ∈ hcs, ∀ chunks ∈ chunkss, ∀ seg ∈ calculateHash hc chunks,
        seg.start % 512 = 0 ∧ ∃ lba, bytesToSectors seg.start seg.length = .ok lba) ∧
      ∃ outs, calcOutputs
        { segmentSize := 2097152, input := { data := [1, 2, 3], pos := 0 },
          hashNames := ["md5"], createOutputFile := fun name => name } hcs chunkss = .ok outs) ∧
    (∀ (manifest : List csvRecord) (dataSize : Int),
      ∃ r, readHashesFromFile manifest dataSize = .ok r ∧
        ∀ seg ∈ r.2, seg.start % 512 = 0 ∧
          ∃ lba, bytesToSectors seg.start seg.length = .ok lba)) :=
  ⟨by decide,
   bytesToSectors_alignment_unreachable sumCrypto 3
     { segmentSize := 2097152, input := { data := [1, 2, 3], pos := 0 },
       hashNames := ["md5"], createOutputFile := fun name => name } (by decide)⟩

/-! ## Exit code of a verify run -/

theorem verify_ok_verifySegments (c : Crypto) (args : verifyArgs) (st : verifyState)
    (h : verify c args = .ok st) :
    ∃ calculatorChan fileChan,
      verifySegments args.createOutputFile calculatorChan fileChan = .ok st := by
  unfold verify at h
  split at h
  · cases h
  · split at h
    · cases h
    · split at h
      · cases h
      · split at h
        · cases h
        · split at h
          · cases h
          · exact ⟨_, _, h⟩

theorem verify_ok_reportInvariant (c : Crypto) (args : verifyArgs) (st : verifyState)
    (h : verify c args = .ok st) : reportInvariant args.createOutputFile st := by
  obtain ⟨calculatorChan, fileChan, hv⟩ := verify_ok_verifySegments c args st h
  have h0 : reportInvariant args.createOutputFile { unread := calculatorChan } := by
    unfold reportInvariant; simp
  exact (verifySegmentsLoop_report _ fileChan _ st hv h0).1

/-- C16: for every verify run that completes, the diff count `d` is non-negative and the exit
code that `main` passes to the operating system is `min(d, 254)`; it lies in `[0, 254]` and
is never 255. -/
theorem main_exit_code_min (c : Crypto) (fuel : Nat) (args : verifyArgs) (st : verifyState)
    (h : verify c args = .ok st) :
    0 ≤ st.diffs ∧
    main c fuel none (some args) = some (min st.diffs 254) ∧
    0 ≤ min st.diffs 254 ∧ min st.diffs 254 ≤ 254 ∧
    main c fuel none (some args) ≠ some 255 := by
  obtain ⟨hd, -⟩ := verify_ok_reportInvariant c args st h
  have hmain : main c fuel none (some args) = some (min st.diffs 254) := by
    simp only [main, h]
    congr 1
    split <;> omega
  refine ⟨hd, hmain, by omega, by omega, ?_⟩
  rw [hmain]
  intro hc
  have : min st.diffs 254 = 255 := by simpa using hc
  omega

set_option maxRecDepth 4000 in
/-- Witness for C16: a three-byte image verified against a manifest whose only row has a
wrong digest: one diff, exit code 1. -/
theorem main_exit_code_min_witness :
    verify sumCrypto
      { input := { data := [1, 2, 3], pos := 0 },
        segmentHashesInput :=
          [{ hash := "00000000000000000000000000000007", startLba := "0", endLba := "0" }],
        createOutputFile := "Diffs.csv" } =
      .ok { diffs := 1, diffsFname := "Diffs.csv", errors := 0, csvWriter := some [["0", "0"]],
            created := 1, unread := [] } ∧
    ((0 : Int) ≤ 1 ∧
     main sumCrypto 0 none (some
      { input := { data := [1, 2, 3], pos := 0 },
        segmentHashesInput :=
          [{ hash := "00000000000000000000000000000007", startLba := "0", endLba := "0" }],
        createOutputFile := "Diffs.csv" }) = some (min 1 254) ∧
     (0 : Int) ≤ min 1 254 ∧ (min 1 254 : Int) ≤ 254 ∧
     main sumCrypto 0 none (some
      { input := { data := [1, 2, 3], pos := 0 },
        segmentHashesInput :=
          [{ hash := "00000000000000000000000000000007", startLba := "0", endLba := "0" }],
        createOutputFile := "Diffs.csv" }) ≠ some 255) :=
  ⟨by decide,
   main_exit_code_min sumCrypto 0
     { input := { data := [1, 2, 3], pos := 0 },
       segmentHashesInput :=
         [{ hash := "00000000000000000000000000000007", startLba := "0", endLba := "0" }],
       createOutputFile := "Diffs.csv" }
     { diffs := 1, diffsFname := "Diffs.csv", errors := 0, csvWriter := some [["0", "0"]],
       created := 1, unread := [] }
     (by decide)⟩

set_option maxRecDepth 4000 in
/-- C15 fails on the code: a three-byte image verified against a manifest whose first row is
the image's own row and whose second row is `zz,0,0` completes with one error and no diff,
and `main` exits with code 0, where the help text of the verify command promises 255. -/
theorem main_exit_code_ignores_errors :
    verify sumCrypto
      { input := { data := [1, 2, 3], pos := 0 },
        segmentHashesInput :=
          [{ hash := "00000000000000000000000000000006", startLba := "0", endLba := "0" },
           { hash := "zz", startLba := "0", endLba := "0" }],
        createOutputFile := "Diffs.csv" } =
      .ok { diffs := 0, diffsFname := "Diffs.csv", errors := 1,
            csvWriter := some [["Error in line 2: zz,0,0"]], created := 1, unread := [] } ∧
    main sumCrypto 0 none (some
      { input := { data := [1, 2, 3], pos := 0 },
        segmentHashesInput :=
          [{ hash := "00000000000000000000000000000006", startLba := "0", endLba := "0" },
           { hash := "zz", startLba := "0", endLba := "0" }],
        createOutputFile := "Diffs.csv" }) = some 0 := by
  constructor <;> decide

/-! ## One Segment per group of chunks -/

theorem calculateHashLoop_cons (hc : hashContainer) (c : segmentChunk)
    (rest : List segmentChunk) (cur : segment) (w : List Byte) :
    calculateHashLoop hc (c :: rest) cur w =
      if c.isLast then
        { start := if cur.length = 0 then c.baseSegmentStart else cur.start,
          length := cur.length + c.data.length,
          hash := hc.h (w ++ c.data), err := cur.err } :: calculateHashLoop hc rest {} []
      else
        calculateHashLoop hc rest
          { start := if cur.length = 0 then c.baseSegmentStart else cur.start,
            length := cur.length + c.data.length, hash := cur.hash, err := cur.err }
          (w ++ c.data) := by
  simp only [calculateHashLoop]
  by_cases h0 : cur.length = 0 <;> simp [h0]

theorem calculateHashLoop_group (hc : hashContainer) (rest : List segmentChunk) :
    ∀ (g : List segmentChunk) (cur : segment) (w : List Byte), chunkGroup g → 0 ≤ cur.length →
      calculateHashLoop hc (g ++ rest) cur w =
        { start := if cur.length = 0 then (groupSegment hc g).start else cur.start,
          length := cur.length + (groupSegment hc g).length,
          hash := hc.h (w ++ (g.map (fun c => c.data)).flatten),
          err := cur.err } :: calculateHashLoop hc rest {} [] := by
  intro g
  induction g with
  | nil => intro cur w h; exact absurd rfl h.1
  | cons c g ih =>
    intro cur w h hcur
    obtain ⟨-, hdata, hinit, hlast⟩ := h
    have hc0 : c.data ≠ [] := hdata c (List.mem_cons_self _ _)
    have hlen : 0 < c.data.length := List.length_pos.mpr hc0
    cases g with
    | nil =>
      have hl : c.isLast = true := hlast c (by simp)
      rw [List.cons_append, calculateHashLoop_cons, if_pos hl]
      simp [groupSegment]
    | cons c2 g2 =>
      have hl : c.isLast = false := hinit c (by simp [List.dropLast])
      have hg : chunkGroup (c2 :: g2) := by
        refine ⟨by simp, fun x hx => hdata x (List.mem_cons_of_mem _ hx),
          fun x hx => hinit x ?_, fun x hx => hlast x ?_⟩
        · simp only [List.dropLast_cons₂]; exact List.mem_cons_of_mem _ hx
        · simpa [List.getLast?_cons_cons] using hx
      rw [List.cons_append, calculateHashLoop_cons, if_neg (by simp [hl]),
        ih _ _ hg (by simp only; omega)]
      have hne : ¬ (cur.length + (c.data.length : Int) = 0) := by omega
      simp only [hne, if_false, groupSegment, List.map_cons, List.sum_cons, List.flatten,
        List.append_assoc, Nat.cast_add]
      congr 2
      ring

theorem calculateHashLoop_groups (hc : hashContainer) :
    ∀ groups : List (List segmentChunk), (∀ g ∈ groups, chunkGroup g) →
      calculateHashLoop hc groups.flatten {} [] = groups.map (groupSegment hc) := by
  intro groups
  induction groups with
  | nil => intro _; simp [calculateHashLoop]
  | cons g rest ih =>
    intro h
    rw [List.flatten, calculateHashLoop_group hc _ g {} [] (h g (List.mem_cons_self _ _))
      (le_refl _), ih (fun x hx => h x (List.mem_cons_of_mem _ hx))]
    simp [groupSegment]

/-- C19: for every chunk sequence made of consecutive groups of non-empty chunks in which
exactly the last chunk of each group has `isLast` set, and every digest function,
`calculateHash` emits exactly one Segment per group, in group order, whose start is the
`baseSegmentStart` of the group's first chunk, whose length is the sum of the sizes of the
group's chunks and whose hash is the digest of the bytes of the group's chunks alone. -/
theorem calculateHash_groups (hc : hashContainer) (groups : List (List segmentChunk))
    (hgroups : ∀ g ∈ groups, chunkGroup g) :
    calculateHash hc groups.flatten = groups.map (groupSegment hc) ∧
    (calculateHash hc groups.flatten).length = groups.length ∧
    ∀ (i : Nat) (g : List segmentChunk) (first : segmentChunk), groups[i]? = some g →
      g.head? = some first →
      (calculateHash hc groups.flatten)[i]? =
        some { start := first.baseSegmentStart,
               length := ((g.map (fun c => c.data.length)).sum : Nat),
               hash := hc.h (g.map (fun c => c.data)).flatten } := by
  have h := calculateHashLoop_groups hc groups hgroups
  unfold calculateHash
  rw [h]
  refine ⟨rfl, by simp, fun i g first hi hf => ?_⟩
  rw [List.getElem?_map, hi]
  cases g with
  | nil => simp at hf
  | cons c cs =>
    simp only [List.head?_cons, Option.some.injEq] at hf
    subst hf
    rfl

/-- Witness for C19: a group of two chunks followed by a group of one chunk. -/
theorem calculateHash_groups_witness :
    (∀ g ∈ ([[{ data := [1, 2], isLast := false, baseSegmentStart := 0 },
              { data := [3], isLast := true, baseSegmentStart := 0 }],
             [{ data := [4], isLast := true, baseSegmentStart := 512 }]] :
              List (List segmentChunk)), chunkGroup g) ∧
    (calculateHash (md5Container sumCrypto)
        ([[{ data := [1, 2], isLast := false, baseSegmentStart := 0 },
           { data := [3], isLast := true, baseSegmentStart := 0 }],
          [{ data := [4], isLast := true, baseSegmentStart := 512 }]] :
            List (List segmentChunk)).flatten =
      ([[{ data := [1, 2], isLast := false, baseSegmentStart := 0 },
         { data := [3], isLast := true, baseSegmentStart := 0 }],
        [{ data := [4], isLast := true, baseSegmentStart := 512 }]] :
          List (List segmentChunk)).map (groupSegment (md5Container sumCrypto)) ∧
    (calculateHash (md5Container sumCrypto)
        ([[{ data := [1, 2], isLast := false, baseSegmentStart := 0 },
           { data := [3], isLast := true, baseSegmentStart := 0 }],
          [{ data := [4], isLast := true, baseSegmentStart := 512 }]] :
            List (List segmentChunk)).flatten).length =
      ([[{ data := [1, 2], isLast := false, baseSegmentStart := 0 },
         { data := [3], isLast := true, baseSegmentStart := 0 }],
        [{ data := [4], isLast := true, baseSegmentStart := 512 }]] :
          List (List segmentChunk)).length ∧
    ∀ (i : Nat) (g : List segmentChunk) (first : segmentChunk),
      ([[{ data := [1, 2], isLast := false, baseSegmentStart := 0 },
         { data := [3], isLast := true, baseSegmentStart := 0 }],
        [{ data := [4], isLast := true, baseSegmentStart := 512 }]] :
          List (List segmentChunk))[i]? = some g →
      g.head? = some first →
      (calculateHash (md5Container sumCrypto)
        ([[{ data := [1, 2], isLast := false, baseSegmentStart := 0 },
           { data := [3], isLast := true, baseSegmentStart := 0 }],
          [{ data := [4], isLast := true, baseSegmentStart := 512 }]] :
            List (List segmentChunk)).flatten)[i]? =
        some { start := first.baseSegmentStart,
               length := ((g.map (fun c => c.data.length)).sum : Nat),
               hash := (md5Container sumCrypto).h (g.map (fun c => c.data)).flatten }) :=
  ⟨by decide,
   calculateHash_groups (md5Container sumCrypto)
     [[{ data := [1, 2], isLast := false, baseSegmentStart := 0 },
       { data := [3], isLast := true, baseSegmentStart := 0 }],
      [{ data := [4], isLast := true, baseSegmentStart := 512 }]] (by decide)⟩

/-! ## Chunks delivered for ranges inside the image -/

theorem ceilDiv_of_le (a b : Int) (ha : 0 < a) (hab : a ≤ b) : ceilDiv a b = 1 := by
  have hb : 0 < b := lt_of_lt_of_le ha hab
  have h1 := ceilDiv_mul_ge a b hb
  have h2 := ceilDiv_pred_mul_lt a b hb
  have h3 : 0 < ceilDiv a b := by
    by_contra hc
    push_neg at hc
    have : ceilDiv a b * b ≤ 0 := mul_nonpos_of_nonpos_of_nonneg hc (le_of_lt hb)
    omega
  by_contra hne
  have h4 : 2 ≤ ceilDiv a b := by omega
  have : b ≤ (ceilDiv a b - 1) * b := by nlinarith
  omega

theorem ceilDiv_sub_self (a b : Int) (hb : 0 < b) : ceilDiv (a - b) b = ceilDiv a b - 1 := by
  unfold ceilDiv
  have : -(a - b) = -a + 1 * b := by ring
  rw [this, Int.add_mul_ediv_right _ _ (ne_of_gt hb)]
  ring

theorem readRangeLoop_within (data : List Byte) (B : Int) (hB : 0 < B) (start : Int) :
    ∀ (fuel pos : Nat) (left : Int), left.toNat ≤ fuel → 0 < left →
      (pos : Int) + left ≤ data.length →
      ∃ g, readRangeLoop memFile.readSeeker B start fuel ⟨data, pos⟩ left =
          (⟨data, pos + left.toNat⟩, g) ∧
        (g.length : Int) = ceilDiv left B ∧
        (∀ c ∈ g, c.data ≠ [] ∧ (c.data.length : Int) ≤ B ∧ c.baseSegmentStart = start) ∧
        (∀ c ∈ g.dropLast, (c.data.length : Int) = B ∧ c.isLast = false) ∧
        (∀ c ∈ g.getLast?, c.isLast = true) ∧
        (g.map (fun c => c.data)).flatten = (data.drop pos).take left.toNat := by
  intro fuel
  induction fuel with
  | zero => intro pos left h1 h2 _; omega
  | succ k ih =>
    intro pos left hfuel hleft hin
    have hpos : pos < data.length := by omega
    by_cases hle : left ≤ B
    · -- a single read ends the range
      have hwant : (if left < B then left else B) = left := by split <;> omega
      have hread := memFile_Read_spec ⟨data, pos⟩ left.toNat (by omega) hpos
      have hmin : min left.toNat (data.length - pos) = left.toNat := by omega
      simp only [hmin] at hread
      have hlen : ((data.drop pos).take left.toNat).length = left.toNat := by
        simp only [List.length_take, List.length_drop]; omega
      have hcast : ((left.toNat : Nat) : Int) = left := Int.toNat_of_nonneg (le_of_lt hleft)
      refine ⟨[{ data := (data.drop pos).take left.toNat, isLast := true,
                  baseSegmentStart := start }], ?_, ?_, ?_, ?_, ?_, ?_⟩
      · simp only [readRangeLoop, gt_iff_lt, hleft, if_true, hwant, readSeeker_Read, hread, hlen,
          hcast, lt_irrefl, if_false, sub_self, le_refl, decide_True, Option.isSome_none,
          Bool.false_eq_true, readRangeLoop_zero]
        have hne : ¬ left = 0 := by omega
        simp [hne]
      · simp [ceilDiv_of_le left B hleft hle]
      · intro c hc
        simp only [List.mem_singleton] at hc
        subst hc
        refine ⟨?_, ?_, rfl⟩
        · intro h0
          have h1 : (data.drop pos).take left.toNat = [] := h0
          rw [h1] at hlen
          simp at hlen
          omega
        · simp only [hlen, hcast]; exact hle
      · simp
      · simp
      · simp
    · -- a full chunk, and the range goes on
      push_neg at hle
      have hwant : (if left < B then left else B) = B := by split <;> omega
      have hread := memFile_Read_spec ⟨data, pos⟩ B.toNat (by omega) hpos
      have hmin : min B.toNat (data.length - pos) = B.toNat := by omega
      simp only [hmin] at hread
      have hlen : ((data.drop pos).take B.toNat).length = B.toNat := by
        simp only [List.length_take, List.length_drop]; omega
      have hcast : ((B.toNat : Nat) : Int) = B := Int.toNat_of_nonneg (le_of_lt hB)
      obtain ⟨g, hrun, hg1, hg2, hg3, hg4, hg5⟩ := ih (pos + B.toNat) (left - B) (by omega)
        (by omega) (by push_cast; omega)
      have hgne : g ≠ [] := by
        intro h0
        rw [h0] at hg1
        have hge := ceilDiv_mul_ge (left - B) B hB
        simp only [List.length_nil, CharP.cast_eq_zero] at hg1
        rw [← hg1, zero_mul] at hge
        omega
      refine ⟨{ data := (data.drop pos).take B.toNat, isLast := false,
                baseSegmentStart := start } :: g, ?_, ?_, ?_, ?_, ?_, ?_⟩
      · have hne : ¬ B = 0 := by omega
        have hnl : ¬ (left - B ≤ 0) := by omega
        have htn : pos + B.toNat + (left - B).toNat = pos + left.toNat := by omega
        simp only [readRangeLoop, gt_iff_lt, hleft, if_true, hwant, readSeeker_Read, hread, hlen,
          hcast, lt_irrefl, if_false, hne, hnl, decide_False, Option.isSome_none,
          Bool.false_eq_true, hrun, htn]
      · rw [List.length_cons, Nat.cast_add, hg1, ceilDiv_sub_self left B hB]
        simp
      · intro c hc
        rcases List.mem_cons.mp hc with h1 | h2
        · subst h1
          refine ⟨?_, ?_, rfl⟩
          · intro h0
            have h1 : (data.drop pos).take B.toNat = [] := h0
            rw [h1] at hlen
            simp at hlen
            omega
          · simp only [hlen, hcast, le_refl]
        · exact hg2 c h2
      · intro c hc
        obtain ⟨x, xs, rfl⟩ := List.exists_cons_of_ne_nil hgne
        simp only [List.dropLast_cons₂] at hc
        rcases List.mem_cons.mp hc with h1 | h2
        · subst h1
          exact ⟨by simp only [hlen, hcast], rfl⟩
        · exact hg3 c h2
      · intro c hc
        obtain ⟨x, xs, rfl⟩ := List.exists_cons_of_ne_nil hgne
        rw [List.getLast?_cons_cons] at hc
        exact hg4 c hc
      · simp only [List.map_cons, List.flatten, hg5]
        have hsplit : left.toNat = B.toNat + (left - B).toNat := by omega
        rw [hsplit, List.take_add, List.drop_drop, Nat.add_comm pos]

theorem readFileLoop_within (data : List Byte) (B : Int) (hB : 0 < B) :
    ∀ (rs : List readRange) (pos : Nat) (cur : Int), (cur = pos ∨ cur < 0) →
      (∀ r ∈ rs, isInt64 r.start ∧ isInt64 r.length) →
      (∀ r ∈ rs, 0 ≤ r.start ∧ 0 < r.length ∧ r.start + r.length ≤ data.length) →
      ∃ groups, List.Forall₂ (rangeChunks data B) rs groups ∧
        readFileLoop memFile.readSeeker B rs ⟨data, pos⟩ cur = .ok groups.flatten := by
  intro rs
  induction rs with
  | nil => intro pos cur _ _ _; exact ⟨[], List.Forall₂.nil, rfl⟩
  | cons r rest ih =>
    intro pos cur hcur hint hin
    obtain ⟨h0, hlen, hend⟩ := hin r (List.mem_cons_self _ _)
    obtain ⟨⟨-, hsmax⟩, ⟨-, hlmax⟩⟩ := hint r (List.mem_cons_self _ _)
    have hcast : ((r.start.toNat : Nat) : Int) = r.start := Int.toNat_of_nonneg h0
    have hseek : (if r.start ≠ cur then memFile.readSeeker.Seek ⟨data, pos⟩ r.start
        else .ok ⟨data, pos⟩) = .ok ⟨data, r.start.toNat⟩ := by
      split
      · simp only [readSeeker_Seek, memFile.Seek, not_lt.mpr h0, if_false]
      · next heq =>
        have hc : cur = r.start := by
          by_contra hne
          exact heq (fun h => hne h.symm)
        have hp : pos = r.start.toNat := by omega
        rw [hp]
    obtain ⟨g, hrun, hg⟩ := readRangeLoop_within data B hB r.start r.length.toNat r.start.toNat
      r.length (le_refl _) hlen (by omega)
    have hnext : wrap64 (r.start + r.length) = ((r.start.toNat + r.length.toNat : Nat) : Int) ∨
        wrap64 (r.start + r.length) < 0 := by
      unfold maxInt64 at hsmax hlmax
      unfold wrap64
      omega
    obtain ⟨groups, hall, hrest⟩ := ih (r.start.toNat + r.length.toNat)
      (wrap64 (r.start + r.length)) hnext
      (fun x hx => hint x (List.mem_cons_of_mem _ hx))
      (fun x hx => hin x (List.mem_cons_of_mem _ hx))
    refine ⟨g :: groups, List.Forall₂.cons hg hall, ?_⟩
    simp only [readFileLoop, hseek, hrun, hrest, List.flatten]

/-- C18: for every data image read from offset 0, every chunk size `bufSize > 0`, every
number of consumers and every sequence of ranges (in any order, with gaps or overlaps) of
`int64` values with `0 ≤ start`, `length > 0` and `start + length` within the image,
`readFile` hands each consumer, range after range, `ceil(length / bufSize)` non-empty
chunks of at most `bufSize` bytes, all but the last of exactly `bufSize` bytes, which
together hold exactly the image bytes `[start, start + length)`, all carry
`baseSegmentStart = start`, and of which exactly the last has `isLast` set; so no range is
read from a wrong position, whether the seek was made or skipped. -/
theorem readFile_delivers_ranges (data : List Byte) (bufSize : Int) (hbuf : 0 < bufSize)
    (consumersCount : Nat) (ranges : List readRange)
    (hint : ∀ r ∈ ranges, isInt64 r.start ∧ isInt64 r.length)
    (hin : ∀ r ∈ ranges, 0 ≤ r.start ∧ 0 < r.length ∧ r.start + r.length ≤ data.length) :
    ∃ groups, List.Forall₂ (rangeChunks data bufSize) ranges groups ∧
      readFile memFile.readSeeker ⟨data, 0⟩ bufSize consumersCount ranges =
        .ok (List.replicate consumersCount groups.flatten) := by
  obtain ⟨groups, hall, hrun⟩ := readFileLoop_within data bufSize hbuf ranges 0 0
    (Or.inl rfl) hint hin
  refine ⟨groups, hall, ?_⟩
  rw [readFile_consumers, hrun]
  rfl

/-- Witness for C18: a five-byte image read in chunks of two bytes for two consumers, with
a range that overlaps the one before it. -/
theorem readFile_delivers_ranges_witness :
    ((0 : Int) < 2) ∧
    (∀ r ∈ ([{ start := 1, length := 4 }, { start := 0, length := 2 }] : List readRange),
      isInt64 r.start ∧ isInt64 r.length) ∧
    (∀ r ∈ ([{ start := 1, length := 4 }, { start := 0, length := 2 }] : List readRange),
      0 ≤ r.start ∧ 0 < r.length ∧ r.start + r.length ≤ ([10, 11, 12, 13, 14] : List Byte).length) ∧
    ∃ groups, List.Forall₂ (rangeChunks [10, 11, 12, 13, 14] 2)
        [{ start := 1, length := 4 }, { start := 0, length := 2 }] groups ∧
      readFile memFile.readSeeker ⟨[10, 11, 12, 13, 14], 0⟩ 2 2
          [{ start := 1, length := 4 }, { start := 0, length := 2 }] =
        .ok (List.replicate 2 groups.flatten) :=
  ⟨by decide, by decide, by decide,
   readFile_delivers_ranges [10, 11, 12, 13, 14] 2 (by decide) 2
     [{ start := 1, length := 4 }, { start := 0, length := 2 }] (by decide) (by decide)⟩

/-! ## Short and empty reads -/

theorem readRangeLoop_nonpos {σ : Type} (input : ReadSeeker σ) (bufSize start : Int) (fuel : Nat)
    (st : σ) (left : Int) (h : left ≤ 0) :
    readRangeLoop input bufSize start fuel st left = (st, []) := by
  have hn : ¬ left > 0 := by omega
  cases fuel <;> simp [readRangeLoop, hn]

theorem readRangeCalls_nonpos {σ : Type} (input : ReadSeeker σ) (bufSize : Int) (fuel : Nat)
    (st : σ) (left : Int) (h : left ≤ 0) :
    readRangeCalls input bufSize fuel st left = [] := by
  have hn : ¬ left > 0 := by omega
  cases fuel <;> simp [readRangeCalls, hn]

theorem readRangeCalls_spec {σ : Type} (input : ReadSeeker σ) (bufSize start : Int) :
    ∀ (fuel : Nat) (st : σ) (left : Int), left.toNat ≤ fuel →
      ((readRangeLoop input bufSize start fuel st left).2.map (fun c => c.data) =
        ((readRangeCalls input bufSize fuel st left).map (fun c => c.data)).filter
          (fun d => decide (d ≠ []))) ∧
      ∀ (i : Nat) (call : readCall), (readRangeCalls input bufSize fuel st left)[i]? = some call →
        (call.data = [] →
          i + 1 = (readRangeCalls input bufSize fuel st left).length ∧
          (readRangeLoop input bufSize start fuel st left).2.length = i ∧
          ∀ c ∈ (readRangeLoop input bufSize start fuel st left).2, c.isLast = false) ∧
        (0 < call.data.length ∧ (call.data.length : Int) < call.requested →
          i + 1 = (readRangeCalls input bufSize fuel st left).length ∧
          (readRangeLoop input bufSize start fuel st left).2.length = i + 1 ∧
          (readRangeLoop input bufSize start fuel st left).2[i]? =
            some { data := call.data, isLast := true, baseSegmentStart := start }) := by
  intro fuel
  induction fuel with
  | zero => intro st left _; simp [readRangeLoop, readRangeCalls]
  | succ k ih =>
    intro st left hfuel
    by_cases hpos : left > 0
    · simp only [readRangeLoop, readRangeCalls, hpos, if_true]
      generalize hw : (if left < bufSize then left else bufSize) = want
      generalize input.Read st want.toNat = r
      by_cases hn : ((r.2.1.length : Nat) : Int) = 0
      · have hnil : r.2.1 = [] := by
          have : r.2.1.length = 0 := by exact_mod_cast hn
          exact List.length_eq_zero.mp this
        simp only [hn, if_true]
        refine ⟨by simp [hnil], fun i call hi => ?_⟩
        cases i with
        | zero =>
          simp only [List.getElem?_cons_zero, Option.some.injEq] at hi
          subst hi
          refine ⟨fun _ => ⟨rfl, rfl, by simp⟩, fun h => ?_⟩
          simp only [hnil, List.length_nil, lt_irrefl, false_and] at h
        | succ j => simp at hi
      · simp only [hn, if_false]
        have hne : r.2.1 ≠ [] := by
          intro h0
          rw [h0] at hn
          simp at hn
        by_cases herr : r.2.2.isSome = true
        · simp only [herr, if_true]
          refine ⟨by simp [hne], fun i call hi => ?_⟩
          cases i with
          | zero =>
            simp only [List.getElem?_cons_zero, Option.some.injEq] at hi
            subst hi
            refine ⟨fun h => absurd h hne, fun h => ?_⟩
            simp only [h.2, if_true, sub_self, le_refl, decide_True]
            exact ⟨rfl, rfl, rfl⟩
          | succ j => simp at hi
        · simp only [herr, Bool.false_eq_true, if_false]
          have hlen : (1 : Int) ≤ ((r.2.1.length : Nat) : Int) := by omega
          have hfuel2 : ((if ((r.2.1.length : Nat) : Int) < want then ((r.2.1.length : Nat) : Int)
              else left) - ((r.2.1.length : Nat) : Int)).toNat ≤ k := by
            split <;> omega
          obtain ⟨ih1, ih2⟩ := ih r.1 _ hfuel2
          refine ⟨by simp [hne, ih1], fun i call hi => ?_⟩
          cases i with
          | zero =>
            simp only [List.getElem?_cons_zero, Option.some.injEq] at hi
            subst hi
            refine ⟨fun h => absurd h hne, fun h => ?_⟩
            simp only [h.2, if_true, sub_self, le_refl, decide_True,
              readRangeCalls_nonpos input bufSize k r.1 0 (le_refl _),
              readRangeLoop_nonpos input bufSize start k r.1 0 (le_refl _)]
            exact ⟨rfl, rfl, rfl⟩
          | succ j =>
            simp only [List.getElem?_cons_succ] at hi
            obtain ⟨hz, hs⟩ := ih2 j call hi
            have hleft2 : ¬ ((if ((r.2.1.length : Nat) : Int) < want
                then ((r.2.1.length : Nat) : Int) else left) - ((r.2.1.length : Nat) : Int) ≤ 0) := by
              intro hle
              rw [readRangeCalls_nonpos input bufSize k r.1 _ hle] at hi
              simp at hi
            constructor
            · intro h
              obtain ⟨a, b, c⟩ := hz h
              refine ⟨by simp only [List.length_cons]; omega, by simp only [List.length_cons]; omega,
                fun x hx => ?_⟩
              rcases List.mem_cons.mp hx with h1 | h2
              · rw [h1]; simp only [hleft2, decide_False]
              · exact c x h2
            · intro h
              obtain ⟨a, b, c⟩ := hs h
              exact ⟨by simp only [List.length_cons]; omega, by simp only [List.length_cons]; omega,
                by simpa only [List.getElem?_cons_succ] using c⟩
    · simp [readRangeLoop, readRangeCalls, hpos]

/-- C20: in `readFile`, for a range whose seek succeeded or was skipped and whatever the
source returns: a read that returns `n` bytes with `0 < n <` the number requested is the
last read of the range and its `n`-byte chunk is delivered with `isLast` set; a read that
returns 0 bytes is the last read of the range, no chunk is delivered for it and no chunk of
the range has `isLast` set; the chunks delivered are the non-empty results of the reads, in
order; and in every case the Streamer does not abort on the range and goes on to the next
range with the tracked offset set to the `int64` sum `range.start + range.length`. -/
theorem readFile_short_read {σ : Type} (input : ReadSeeker σ) (bufSize : Int) (r : readRange)
    (rs : List readRange) (st st1 : σ) (cur : Int)
    (hseek : (if r.start ≠ cur then input.Seek st r.start else .ok st) = .ok st1) :
    (∀ (i : Nat) (call : readCall),
      (readRangeCalls input bufSize r.length.toNat st1 r.length)[i]? = some call →
      (0 < call.data.length ∧ (call.data.length : Int) < call.requested →
        i + 1 = (readRangeCalls input bufSize r.length.toNat st1 r.length).length ∧
        (readRangeLoop input bufSize r.start r.length.toNat st1 r.length).2.length = i + 1 ∧
        (readRangeLoop input bufSize r.start r.length.toNat st1 r.length).2[i]? =
          some { data := call.data, isLast := true, baseSegmentStart := r.start }) ∧
      (call.data = [] →
        i + 1 = (readRangeCalls input bufSize r.length.toNat st1 r.length).length ∧
        (readRangeLoop input bufSize r.start r.length.toNat st1 r.length).2.length = i ∧
        ∀ c ∈ (readRangeLoop input bufSize r.start r.length.toNat st1 r.length).2,
          c.isLast = false)) ∧
    (readRangeLoop input bufSize r.start r.length.toNat st1 r.length).2.map (fun c => c.data) =
      ((readRangeCalls input bufSize r.length.toNat st1 r.length).map (fun c => c.data)).filter
        (fun d => decide (d ≠ [])) ∧
    readFileLoop input bufSize (r :: rs) st cur =
      match readFileLoop input bufSize rs
          (readRangeLoop input bufSize r.start r.length.toNat st1 r.length).1
          (wrap64 (r.start + r.length)) with
      | .error e => .error e
      | .ok rest =>
        .ok ((readRangeLoop input bufSize r.start r.length.toNat st1 r.length).2 ++ rest) := by
  obtain ⟨h1, h2⟩ := readRangeCalls_spec input bufSize r.start r.length.toNat st1 r.length
    (le_refl _)
  refine ⟨fun i call hi => ⟨(h2 i call hi).2, (h2 i call hi).1⟩, h1, ?_⟩
  simp only [readFileLoop, hseek]

/-- Witness for C20: the range of five bytes from offset 0 of a three-byte image read in
chunks of two bytes: a full read, then a short read of one byte. -/
theorem readFile_short_read_witness :
    ((if (0 : Int) ≠ 0 then memFile.readSeeker.Seek ⟨[10, 11, 12], 0⟩ 0
      else .ok ⟨[10, 11, 12], 0⟩) = .ok ⟨[10, 11, 12], 0⟩) ∧
    readRangeCalls memFile.readSeeker 2 5 ⟨[10, 11, 12], 0⟩ 5 =
      [{ requested := 2, data := [10, 11], err := none },
       { requested := 2, data := [12], err := none }] ∧
    ((∀ (i : Nat) (call : readCall),
      (readRangeCalls memFile.readSeeker 2 (5 : Int).toNat ⟨[10, 11, 12], 0⟩ 5)[i]? = some call →
      (0 < call.data.length ∧ (call.data.length : Int) < call.requested →
        i + 1 = (readRangeCalls memFile.readSeeker 2 (5 : Int).toNat ⟨[10, 11, 12], 0⟩ 5).length ∧
        (readRangeLoop memFile.readSeeker 2 0 (5 : Int).toNat ⟨[10, 11, 12], 0⟩ 5).2.length =
          i + 1 ∧
        (readRangeLoop memFile.readSeeker 2 0 (5 : Int).toNat ⟨[10, 11, 12], 0⟩ 5).2[i]? =
          some { data := call.data, isLast := true, baseSegmentStart := 0 }) ∧
      (call.data = [] →
        i + 1 = (readRangeCalls memFile.readSeeker 2 (5 : Int).toNat ⟨[10, 11, 12], 0⟩ 5).length ∧
        (readRangeLoop memFile.readSeeker 2 0 (5 : Int).toNat ⟨[10, 11, 12], 0⟩ 5).2.length = i ∧
        ∀ c ∈ (readRangeLoop memFile.readSeeker 2 0 (5 : Int).toNat ⟨[10, 11, 12], 0⟩ 5).2,
          c.isLast = false)) ∧
    (readRangeLoop memFile.readSeeker 2 0 (5 : Int).toNat ⟨[10, 11, 12], 0⟩ 5).2.map
        (fun c => c.data) =
      ((readRangeCalls memFile.readSeeker 2 (5 : Int).toNat ⟨[10, 11, 12], 0⟩ 5).map
        (fun c => c.data)).filter (fun d => decide (d ≠ [])) ∧
    readFileLoop memFile.readSeeker 2 [{ start := 0, length := 5 }] ⟨[10, 11, 12], 0⟩ 0 =
      match readFileLoop memFile.readSeeker 2 []
          (readRangeLoop memFile.readSeeker 2 0 (5 : Int).toNat ⟨[10, 11, 12], 0⟩ 5).1
          (wrap64 (0 + 5)) with
      | .error e => .error e
      | .ok rest =>
        .ok ((readRangeLoop memFile.readSeeker 2 0 (5 : Int).toNat ⟨[10, 11, 12], 0⟩ 5).2 ++
          rest)) :=
  ⟨by decide, by decide,
   readFile_short_read memFile.readSeeker 2 { start := 0, length := 5 } []
     ⟨[10, 11, 12], 0⟩ ⟨[10, 11, 12], 0⟩ 0 (by decide)⟩

/-! ## Double buffering is safe in every interleaving -/

theorem xor_one_of_mod_two (c : Nat) : (c % 2) ^^^ 1 = (c + 1) % 2 := by
  rcases Nat.mod_two_eq_zero_or_one c with h | h
  · rw [h]; have : (c + 1) % 2 = 1 := by omega
    rw [this]; rfl
  · rw [h]; have : (c + 1) % 2 = 0 := by omega
    rw [this]; rfl

theorem streamInvariant_set (n : Nat) (st : streamerPc) (cb ch : Nat) (hs : List hasherState)
    (j : Nat) (x y : hasherState) (hx : hs[j]? = some x) (hr : y.received = x.received)
    (hpc : ∀ b, y.pc ≠ .absorbing b)
    (hinv : streamInvariant n { streamer := st, curBuffer := cb, chunk := ch, hashers := hs }) :
    streamInvariant n
      { streamer := st, curBuffer := cb, chunk := ch, hashers := hs.set j y } := by
  obtain ⟨hlen, hbuf, habs, hrecv⟩ := hinv
  simp only at hlen hbuf habs hrecv
  have hget : ∀ (i : Nat) (z : hasherState), (hs.set j y)[i]? = some z →
      (i = j ∧ z = y) ∨ hs[i]? = some z := by
    intro i z hz
    rw [List.getElem?_set] at hz
    split at hz
    · next hij =>
      split at hz
      · simp only [Option.some.injEq] at hz
        exact Or.inl ⟨hij.symm, hz.symm⟩
      · cases hz
    · exact Or.inr hz
  refine ⟨by simpa using hlen, hbuf, fun i z hz b hb => ?_, ?_⟩
  · rcases hget i z hz with ⟨-, rfl⟩ | h1
    · exact absurd hb (hpc b)
    · exact habs i z h1 b hb
  · cases st with
    | sending k =>
      refine ⟨hrecv.1, fun i z hz => ?_⟩
      rcases hget i z hz with ⟨rfl, rfl⟩ | h1
      · rw [hr]; exact hrecv.2 i x hx
      · exact hrecv.2 i z h1
    | reading =>
      intro i z hz
      rcases hget i z hz with ⟨rfl, rfl⟩ | h1
      · rw [hr]; exact hrecv i x hx
      · exact hrecv i z h1
    | closed =>
      intro i z hz
      rcases hget i z hz with ⟨rfl, rfl⟩ | h1
      · rw [hr]; exact hrecv i x hx
      · exact hrecv i z h1

theorem streamStep_invariant (n : Nat) (s s1 : streamState) (e : streamEvent)
    (h : streamStep s e = some s1) (hinv : streamInvariant n s) : streamInvariant n s1 := by
  obtain ⟨st, cb, ch, hs⟩ := s
  obtain ⟨hlen, hbuf, habs, hrecv⟩ := hinv
  simp only at hlen hbuf habs hrecv
  cases e with
  | readData =>
    simp only [streamStep] at h
    split at h
    · next hst =>
      simp only [Option.some.injEq] at h
      subst h
      subst hst
      exact ⟨hlen, hbuf, habs, Nat.zero_le _, fun j x hx => by simpa using hrecv j x hx⟩
    · cases h
  | readNothing =>
    simp only [streamStep] at h
    split at h
    · simp only [Option.some.injEq] at h
      subst h
      exact ⟨hlen, hbuf, habs, hrecv⟩
    · cases h
  | deliver =>
    simp only [streamStep] at h
    split at h
    · next i =>
      obtain ⟨hi, hrecv⟩ := hrecv
      split at h
      · next x hx =>
        split at h
        · next hpc =>
          simp only [Option.some.injEq] at h
          subst h
          have hilt : i < hs.length := by
            by_contra hc
            rw [List.getElem?_eq_none (by omega)] at hx
            cases hx
          refine ⟨by simpa using hlen, hbuf, fun j y hy b hb => ?_, by omega, fun j y hy => ?_⟩
          · simp only [List.getElem?_set, hilt, if_true] at hy
            split at hy
            · simp only [Option.some.injEq] at hy
              subst hy
              simp only [hasherPc.absorbing.injEq] at hb
              have := hrecv i x hx
              simp only [lt_irrefl, if_false] at this
              subst hb
              simp only [add_tsub_cancel_right]
              exact ⟨by omega, by rw [this]; exact hbuf⟩
            · exact habs j y hy b hb
          · simp only [List.getElem?_set, hilt, if_true] at hy
            split at hy
            · next hij =>
              simp only [Option.some.injEq] at hy
              subst hy
              subst hij
              have := hrecv i x hx
              simp only [lt_irrefl, if_false] at this
              simp only [this, Nat.lt_succ_self, if_true]
            · next hij =>
              have := hrecv j y hy
              rw [this]
              by_cases hji : j < i
              · simp [hji, Nat.lt_succ_of_lt hji]
              · have : ¬ j < i + 1 := by omega
                simp [hji, this]
        · cases h
      · cases h
    · cases h
  | switch =>
    simp only [streamStep] at h
    split at h
    · next hst =>
      simp only [Option.some.injEq] at h
      subst h
      subst hst
      obtain ⟨-, hrecv⟩ := hrecv
      refine ⟨hlen, by rw [hbuf]; exact xor_one_of_mod_two ch, habs, fun j x hx => ?_⟩
      have hx1 : hs[j]? = some x := hx
      have hj : j < hs.length := by
        by_contra hc
        rw [List.getElem?_eq_none (by omega)] at hx1
        cases hx1
      have := hrecv j x hx1
      simpa [hj] using this
    · cases h
  | close =>
    simp only [streamStep] at h
    split at h
    · next hst =>
      simp only [Option.some.injEq] at h
      subst h
      subst hst
      exact ⟨hlen, hbuf, habs, hrecv⟩
    · cases h
  | written j =>
    simp only [streamStep] at h
    split at h
    · next x hx =>
      split at h
      · next b0 hpc =>
        simp only [Option.some.injEq] at h
        subst h
        exact streamInvariant_set n st cb ch hs j x _ hx rfl (by simp) ⟨hlen, hbuf, habs, hrecv⟩
      · cases h
    · cases h
  | accounted j =>
    simp only [streamStep] at h
    split at h
    · next x hx =>
      split at h
      · simp only [Option.some.injEq] at h
        subst h
        exact streamInvariant_set n st cb ch hs j x _ hx rfl (by simp) ⟨hlen, hbuf, habs, hrecv⟩
      · cases h
    · cases h
  | leave j =>
    simp only [streamStep] at h
    split at h
    · next x hx =>
      split at h
      · simp only [Option.some.injEq] at h
        subst h
        exact streamInvariant_set n st cb ch hs j x _ hx rfl (by simp) ⟨hlen, hbuf, habs, hrecv⟩
      · cases h
    · cases h

theorem streamStart_invariant (n : Nat) : streamInvariant n (streamStart n) := by
  refine ⟨by simp [streamStart], rfl, fun j h hj b hb => ?_, fun j h hj => ?_⟩
  · simp only [streamStart, List.getElem?_replicate] at hj
    split at hj
    · simp only [Option.some.injEq] at hj
      subst hj
      cases hb
    · cases hj
  · simp only [streamStart, List.getElem?_replicate] at hj
    split at hj
    · simp only [Option.some.injEq] at hj
      subst hj
      rfl
    · cases hj

theorem streamRun_invariant (n : Nat) :
    ∀ (events : List streamEvent) (s s1 : streamState), streamRun s events = some s1 →
      streamInvariant n s → streamInvariant n s1 := by
  intro events
  induction events with
  | nil =>
    intro s s1 h hinv
    simp only [streamRun, Option.some.injEq] at h
    subst h
    exact hinv
  | cons e es ih =>
    intro s s1 h hinv
    simp only [streamRun] at h
    split at h
    · next s2 hs2 => exact ih s2 s1 h (streamStep_invariant n s s2 e hs2 hinv)
    · cases h

/-- C17: in every state that the Streamer and `n` Segment Hashers reach by any interleaving
of their steps, the buffer in use is that of the parity of the chunk number (chunks `k` and
`k + 2` share a buffer), a hasher that is absorbing a chunk reads the buffer of the last
chunk it received, and whenever the Streamer is in the read that produces chunk number
`chunk` into `buffers[curBuffer]`, no hasher is reading that buffer and every hasher has
absorbed in full every chunk `k` with `k + 2 ≤ chunk`. -/
theorem streamRun_buffers_safe (n : Nat) (events : List streamEvent) (s : streamState)
    (hrun : streamRun (streamStart n) events = some s) :
    s.hashers.length = n ∧ s.curBuffer = s.chunk % 2 ∧
    (∀ h ∈ s.hashers, ∀ b, h.pc = .absorbing b → 1 ≤ h.received ∧ b = (h.received - 1) % 2) ∧
    (s.streamer = .reading →
      ∀ h ∈ s.hashers, (∀ b, h.pc = .absorbing b → b ≠ s.curBuffer) ∧
        ∀ k, k + 2 ≤ s.chunk → k < h.absorbed) := by
  obtain ⟨hlen, hbuf, habs, hrecv⟩ :=
    streamRun_invariant n events _ s hrun (streamStart_invariant n)
  refine ⟨hlen, hbuf, fun h hh b hb => ?_, fun hst h hh => ?_⟩
  · obtain ⟨j, hj⟩ := List.mem_iff_getElem?.mp hh
    exact habs j h hj b hb
  · obtain ⟨j, hj⟩ := List.mem_iff_getElem?.mp hh
    rw [hst] at hrecv
    have hr : h.received = s.chunk := hrecv j h hj
    constructor
    · intro b hb
      obtain ⟨h1, h2⟩ := habs j h hj b hb
      rw [h2, hbuf, hr]
      omega
    · intro k hk
      unfold hasherState.absorbed
      split <;> omega

/-- Witness for C17: two hashers and two chunks; the Streamer is in the read for chunk 2
into buffer 0 while both hashers are still absorbing chunk 1 out of buffer 1. -/
theorem streamRun_buffers_safe_witness :
    streamRun (streamStart 2)
        [.readData, .deliver, .deliver, .switch, .readData, .written 0, .accounted 0, .deliver,
         .written 1, .accounted 1, .deliver, .switch] =
      some { streamer := .reading, curBuffer := 0, chunk := 2,
             hashers := [{ pc := .absorbing 1, received := 2 },
                         { pc := .absorbing 1, received := 2 }] } ∧
    (([{ pc := .absorbing 1, received := 2 }, { pc := .absorbing 1, received := 2 }] :
        List hasherState).length = 2 ∧ 0 = 2 % 2 ∧
    (∀ h ∈ ([{ pc := .absorbing 1, received := 2 }, { pc := .absorbing 1, received := 2 }] :
        List hasherState),
      ∀ b, h.pc = .absorbing b → 1 ≤ h.received ∧ b = (h.received - 1) % 2) ∧
    (streamerPc.reading = .reading →
      ∀ h ∈ ([{ pc := .absorbing 1, received := 2 }, { pc := .absorbing 1, received := 2 }] :
          List hasherState),
        (∀ b, h.pc = .absorbing b → b ≠ 0) ∧ ∀ k, k + 2 ≤ 2 → k < h.absorbed)) :=
  ⟨by decide,
   streamRun_buffers_safe 2
     [.readData, .deliver, .deliver, .switch, .readData, .written 0, .accounted 0, .deliver,
      .written 1, .accounted 1, .deliver, .switch]
     { streamer := .reading, curBuffer := 0, chunk := 2,
       hashers := [{ pc := .absorbing 1, received := 2 },
                   { pc := .absorbing 1, received := 2 }] }
     (by decide)⟩

/-! ## The final Segment at the end of the chunk stream -/

theorem trailingChunks_of_not_any (cs : List segmentChunk)
    (h : cs.any (fun x => x.isLast) = false) : trailingChunks cs = cs := by
  cases cs with
  | nil => rfl
  | cons c cs =>
    simp only [List.any_cons, Bool.or_eq_false_iff] at h
    simp [trailingChunks, h.1, h.2]

theorem calculateHashLoop_end (hc : hashContainer) :
    ∀ (chunks : List segmentChunk) (cur : segment) (w : List Byte), 0 ≤ cur.length →
      ∃ (body : List segment) (fin : segment),
        calculateHashLoop hc chunks cur w =
          body ++ (if 0 < (if chunks.any (fun x => x.isLast) then 0 else cur.length) +
              (chunkBytes (trailingChunks chunks) : Int) then [fin] else []) ∧
        body.length = chunks.countP (fun x => x.isLast) ∧
        fin.length = (if chunks.any (fun x => x.isLast) then 0 else cur.length) +
          (chunkBytes (trailingChunks chunks) : Int) ∧
        fin.hash = hc.h ((if chunks.any (fun x => x.isLast) then [] else w) ++
          ((trailingChunks chunks).map (fun c => c.data)).flatten) ∧
        (body.map (fun s => s.length)).sum + fin.length = cur.length + (chunkBytes chunks : Int) := by
  intro chunks
  induction chunks with
  | nil =>
    intro cur w hcur
    refine ⟨[], { cur with hash := hc.h w }, ?_, rfl, ?_, ?_, ?_⟩
    · simp only [calculateHashLoop, List.any_nil, Bool.false_eq_true, if_false, trailingChunks,
        chunkBytes, List.map_nil, List.sum_nil, CharP.cast_eq_zero, add_zero, List.nil_append]
    · simp [trailingChunks, chunkBytes]
    · simp [trailingChunks]
    · simp [chunkBytes]
  | cons c cs ih =>
    intro cur w hcur
    rw [calculateHashLoop_cons]
    by_cases hl : c.isLast = true
    · obtain ⟨body, fin, h1, h2, h3, h4, h5⟩ := ih {} [] (le_refl _)
      have hany : (c :: cs).any (fun x => x.isLast) = true := by simp [hl]
      have htrail : chunkBytes (trailingChunks (c :: cs)) = chunkBytes (trailingChunks cs) ∧
          ((trailingChunks (c :: cs)).map (fun c => c.data)).flatten =
            ((trailingChunks cs).map (fun c => c.data)).flatten := by
        by_cases ha : cs.any (fun x => x.isLast) = true
        · simp [trailingChunks, ha]
        · have ha2 : cs.any (fun x => x.isLast) = false := by simpa using ha
          simp only [trailingChunks, ha2, Bool.false_eq_true, if_false, hl, if_true,
            trailingChunks_of_not_any cs ha2, and_self]
      have hzero : ∀ x : Int, (if cs.any (fun x => x.isLast) = true then (0 : Int)
          else ({} : segment).length) + x = x := by
        intro x; split <;> simp
      have hnil : (if cs.any (fun x => x.isLast) = true then ([] : List Byte) else []) = [] := by
        split <;> rfl
      rw [hzero] at h1 h3
      rw [hnil, List.nil_append] at h4
      refine ⟨{ start := if cur.length = 0 then c.baseSegmentStart else cur.start,
                length := cur.length + c.data.length, hash := hc.h (w ++ c.data),
                err := cur.err } :: body, fin, ?_, ?_, ?_, ?_, ?_⟩
      · simp only [hl, if_true, hany, zero_add, htrail.1, h1, List.cons_append]
      · simp [List.countP_cons, hl, h2]
      · simp only [hany, if_true, zero_add, htrail.1, h3]
      · simp only [hany, if_true, List.nil_append, htrail.2, h4]
      · simp only [List.map_cons, List.sum_cons, chunkBytes, Nat.cast_add] at h5 ⊢
        omega
    · have hl2 : c.isLast = false := by simpa using hl
      obtain ⟨body, fin, h1, h2, h3, h4, h5⟩ := ih
        { start := if cur.length = 0 then c.baseSegmentStart else cur.start,
          length := cur.length + c.data.length, hash := cur.hash, err := cur.err }
        (w ++ c.data) (by simp only; omega)
      simp only at h1 h3 h4 h5
      have hany : (c :: cs).any (fun x => x.isLast) = cs.any (fun x => x.isLast) := by
        simp [hl2]
      refine ⟨body, fin, ?_, ?_, ?_, ?_, ?_⟩
      · simp only [hl2, Bool.false_eq_true, if_false, h1, hany]
        by_cases ha : cs.any (fun x => x.isLast) = true
        · simp [trailingChunks, ha]
        · have ha2 : cs.any (fun x => x.isLast) = false := by simpa using ha
          simp only [ha2, Bool.false_eq_true, if_false, trailingChunks, hl2,
            trailingChunks_of_not_any cs ha2, chunkBytes, List.map_cons, List.sum_cons,
            Nat.cast_add, add_assoc]
      · simp [List.countP_cons, hl2, h2]
      · rw [h3, hany]
        by_cases ha : cs.any (fun x => x.isLast) = true
        · simp [trailingChunks, ha]
        · have ha2 : cs.any (fun x => x.isLast) = false := by simpa using ha
          simp only [ha2, Bool.false_eq_true, if_false, trailingChunks, hl2,
            trailingChunks_of_not_any cs ha2, chunkBytes, List.map_cons, List.sum_cons,
            Nat.cast_add, add_assoc]
      · rw [h4, hany]
        by_cases ha : cs.any (fun x => x.isLast) = true
        · simp [trailingChunks, ha]
        · have ha2 : cs.any (fun x => x.isLast) = false := by simpa using ha
          simp only [ha2, Bool.false_eq_true, if_false, trailingChunks, hl2,
            trailingChunks_of_not_any cs ha2, List.map_cons, List.flatten, List.append_assoc]
      · simp only [chunkBytes, List.map_cons, List.sum_cons, Nat.cast_add] at h5 ⊢
        linarith

/-- C21: for every chunk sequence and digest function, what `calculateHash` emits is one
Segment per chunk with `isLast` set, followed, when the stream ends, by one final Segment
exactly if the chunks after the last such chunk hold a non-zero number of bytes; the final
Segment has that number as its length and the digest of those bytes as its hash. Hence the
number of Segments is the number of chunks with `isLast` set, plus one if non-zero bytes
follow the last of them, and the lengths of the Segments add up to the number of bytes in
all the chunks. -/
theorem calculateHash_stream_end (hc : hashContainer) (chunks : List segmentChunk) :
    (∃ (body : List segment) (fin : segment),
      body.length = chunks.countP (fun c => c.isLast) ∧
      fin.length = chunkBytes (trailingChunks chunks) ∧
      fin.hash = hc.h ((trailingChunks chunks).map (fun c => c.data)).flatten ∧
      calculateHash hc chunks =
        body ++ (if 0 < chunkBytes (trailingChunks chunks) then [fin] else [])) ∧
    (calculateHash hc chunks).length =
      chunks.countP (fun c => c.isLast) +
        (if 0 < chunkBytes (trailingChunks chunks) then 1 else 0) ∧
    ((calculateHash hc chunks).map (fun s => s.length)).sum = chunkBytes chunks := by
  obtain ⟨body, fin, h1, h2, h3, h4, h5⟩ := calculateHashLoop_end hc chunks {} [] (le_refl _)
  have hzero : (if chunks.any (fun x => x.isLast) = true then (0 : Int)
      else ({} : segment).length) = 0 := by
    split <;> rfl
  have hnil : (if chunks.any (fun x => x.isLast) = true then ([] : List Byte) else []) = [] := by
    split <;> rfl
  rw [hzero, zero_add] at h1 h3
  rw [hnil, List.nil_append] at h4
  have hcast : ((0 : Int) < (chunkBytes (trailingChunks chunks) : Int)) ↔
      0 < chunkBytes (trailingChunks chunks) := by
    exact_mod_cast Iff.rfl
  simp only [hcast] at h1
  have h0 : (({} : segment).length : Int) = 0 := rfl
  rw [h0, zero_add] at h5
  unfold calculateHash
  refine ⟨⟨body, fin, h2, h3, h4, h1⟩, ?_, ?_⟩
  · rw [h1, List.length_append, h2]
    split <;> simp
  · rw [h1, List.map_append, List.sum_append, ← h5]
    split
    · simp
    · next hn =>
      have : chunkBytes (trailingChunks chunks) = 0 := by omega
      rw [h3, this]
      simp

/-! ## Iterations of the Range Producer -/

theorem ceilDiv_pos_iff (a b : Int) (hb : 0 < b) : 0 < ceilDiv a b ↔ 0 < a := by
  have h1 := ceilDiv_mul_ge a b hb
  have h2 := ceilDiv_pred_mul_lt a b hb
  constructor
  · intro h
    have : (0 : Int) ≤ (ceilDiv a b - 1) * b := mul_nonneg (by omega) (le_of_lt hb)
    omega
  · intro h
    by_contra hc
    push_neg at hc
    have : ceilDiv a b * b ≤ 0 := mul_nonpos_of_nonpos_of_nonneg hc (le_of_lt hb)
    omega

theorem produceReadRangesLoop_iterations (seg size : Int) (hseg : 0 < seg)
    (hsum : size + seg ≤ maxInt64) :
    ∀ (fuel : Nat) (pb : Int), 0 ≤ pb →
      produceReadRangesLoop seg size fuel pb =
        (rangesFrom seg size (min fuel (ceilDiv (size - pb) seg).toNat) pb,
          decide ((ceilDiv (size - pb) seg).toNat ≤ fuel)) := by
  intro fuel
  induction fuel with
  | zero =>
    intro pb _
    have h := ceilDiv_pos_iff (size - pb) seg hseg
    simp only [produceReadRangesLoop, Nat.zero_min, rangesFrom, Nat.le_zero_eq, Prod.mk.injEq,
      true_and, decide_eq_decide]
    constructor <;> intro hh <;> omega
  | succ f ih =>
    intro pb hpb
    have h := ceilDiv_pos_iff (size - pb) seg hseg
    by_cases hlt : pb < size
    · have hw1 : wrap64 (size - pb) = size - pb :=
        wrap64_of_isInt64 (by unfold isInt64 minInt64 maxInt64 at *; constructor <;> omega)
      have hw2 : wrap64 (pb + seg) = pb + seg :=
        wrap64_of_isInt64 (by unfold isInt64 minInt64 maxInt64 at *; constructor <;> omega)
      have hm : ceilDiv (size - (pb + seg)) seg = ceilDiv (size - pb) seg - 1 := by
        rw [← ceilDiv_sub_self (size - pb) seg hseg]
        congr 1
        ring
      have hpos : 0 < ceilDiv (size - pb) seg := h.mpr (by omega)
      have hmin : min (f + 1) (ceilDiv (size - pb) seg).toNat =
          min f (ceilDiv (size - pb) seg - 1).toNat + 1 := by omega
      simp only [produceReadRangesLoop, hlt, if_true, hw1, hw2, ih (pb + seg) (by omega), hm, hmin,
        rangesFrom, Prod.mk.injEq, decide_eq_decide]
      refine ⟨?_, by omega⟩
      congr 1
      by_cases hc : size - pb < seg
      · simp [hc, min_eq_right (le_of_lt hc)]
      · simp [hc, min_eq_left (not_lt.mp hc)]
    · have hz : ¬ 0 < ceilDiv (size - pb) seg := fun hc => by have := h.mp hc; omega
      have h0 : (ceilDiv (size - pb) seg).toNat = 0 := by omega
      simp [produceReadRangesLoop, hlt, h0, rangesFrom]

/-- C26: with the counter as a wrapping `int64`, for `segmentSize > 0` and `fileSize ≥ 0`
with `fileSize + segmentSize ≤ 2^63 - 1`, the loop of `produceReadRanges` has left within
`fuel` iterations exactly if `fuel` is at least `ceil(fileSize / segmentSize)`, and it makes
that many iterations and no more; in iteration `i` the counter is `i * segmentSize`, the
subtraction `fileSize - producedBytes` and the update `producedBytes + segmentSize` stay
within `int64` (they are not changed by the wrap), and the counter strictly increases and
stays at or below `fileSize + segmentSize`. -/
theorem produceReadRanges_terminates (segmentSize fileSize : Int) (hseg : 0 < segmentSize)
    (hsize : 0 ≤ fileSize) (hsum : fileSize + segmentSize ≤ maxInt64) (fuel : Nat) :
    ((produceReadRanges fuel segmentSize fileSize).2 = true ↔
      (ceilDiv fileSize segmentSize).toNat ≤ fuel) ∧
    (produceReadRanges fuel segmentSize fileSize).1.length =
      min fuel (ceilDiv fileSize segmentSize).toNat ∧
    ∀ (i : Nat) (r : readRange), (produceReadRanges fuel segmentSize fileSize).1[i]? = some r →
      r.start = i * segmentSize ∧
      isInt64 (fileSize - r.start) ∧ wrap64 (fileSize - r.start) = fileSize - r.start ∧
      isInt64 (r.start + segmentSize) ∧ wrap64 (r.start + segmentSize) = r.start + segmentSize ∧
      r.start < r.start + segmentSize ∧ r.start + segmentSize ≤ fileSize + segmentSize := by
  have hrun := produceReadRangesLoop_iterations segmentSize fileSize hseg hsum fuel 0 (le_refl _)
  simp only [sub_zero] at hrun
  unfold produceReadRanges
  rw [hrun]
  refine ⟨by simp, by simp [rangesFrom_length], fun i r hi => ?_⟩
  simp only at hi
  have hik : i < min fuel (ceilDiv fileSize segmentSize).toNat := by
    by_contra hc
    rw [List.getElem?_eq_none (by rw [rangesFrom_length]; omega)] at hi
    cases hi
  rw [rangesFrom_getElem? _ _ _ _ _ hik] at hi
  simp only [Option.some.injEq] at hi
  subst hi
  simp only [zero_add]
  have hlt := ceilDiv_pred_mul_lt fileSize segmentSize hseg
  have hn := ceilDiv_nonneg fileSize segmentSize hsize hseg
  have hi1 : (i : Int) ≤ ceilDiv fileSize segmentSize - 1 := by omega
  have hmul : (i : Int) * segmentSize ≤ (ceilDiv fileSize segmentSize - 1) * segmentSize :=
    mul_le_mul_of_nonneg_right hi1 (le_of_lt hseg)
  have h0 : (0 : Int) ≤ i * segmentSize := by positivity
  have hint1 : isInt64 (fileSize - i * segmentSize) := by
    unfold isInt64 minInt64 maxInt64 at *; constructor <;> omega
  have hint2 : isInt64 (i * segmentSize + segmentSize) := by
    unfold isInt64 minInt64 maxInt64 at *; constructor <;> omega
  exact ⟨trivial, hint1, wrap64_of_isInt64 hint1, hint2, wrap64_of_isInt64 hint2, by omega, by omega⟩

/-- Witness for C26: 1300 bytes in segments of 512 bytes, three iterations allowed. -/
theorem produceReadRanges_terminates_witness :
    ((0 : Int) < 512 ∧ (0 : Int) ≤ 1300 ∧ (1300 : Int) + 512 ≤ maxInt64) ∧
    (((produceReadRanges 3 512 1300).2 = true ↔ (ceilDiv 1300 512).toNat ≤ 3) ∧
    (produceReadRanges 3 512 1300).1.length = min 3 (ceilDiv 1300 512).toNat ∧
    ∀ (i : Nat) (r : readRange), (produceReadRanges 3 512 1300).1[i]? = some r →
      r.start = i * 512 ∧
      isInt64 (1300 - r.start) ∧ wrap64 (1300 - r.start) = 1300 - r.start ∧
      isInt64 (r.start + 512) ∧ wrap64 (r.start + 512) = r.start + 512 ∧
      r.start < r.start + 512 ∧ r.start + 512 ≤ 1300 + 512) :=
  ⟨by decide, produceReadRanges_terminates 512 1300 (by decide) (by decide) (by decide) 3⟩

/-! ## Segments and ranges of the Manifest Reader, row by row -/

theorem readHashesLoop_cons (e : Int) (record : csvRecord) (rest : List csvRecord) (line : Nat) :
    readHashesLoop e (record :: rest) line =
      (match (if (readSegmentLine record).2.1 > e then
            some ("segment with range (" ++ formatInt (readSegmentLine record).1 ++ ", " ++
              formatInt (readSegmentLine record).2.1 ++ ") exceeds input file range")
          else (readSegmentLine record).2.2.2) with
       | some t =>
         ((readHashesLoop e rest (line + 1)).1,
          { start := (sectorToBytes (readSegmentLine record).1 (readSegmentLine record).2.1).1,
            length := (sectorToBytes (readSegmentLine record).1 (readSegmentLine record).2.1).2,
            hash := (readSegmentLine record).2.2.1,
            err := some ("Error in line " ++ formatInt line ++ ": " ++ t) } ::
            (readHashesLoop e rest (line + 1)).2)
       | none =>
         ({ start := (sectorToBytes (readSegmentLine record).1 (readSegmentLine record).2.1).1,
            length := (sectorToBytes (readSegmentLine record).1 (readSegmentLine record).2.1).2 } ::
            (readHashesLoop e rest (line + 1)).1,
          { start := (sectorToBytes (readSegmentLine record).1 (readSegmentLine record).2.1).1,
            length := (sectorToBytes (readSegmentLine record).1 (readSegmentLine record).2.1).2,
            hash := (readSegmentLine record).2.2.1 } ::
            (readHashesLoop e rest (line + 1)).2)) := by
  simp only [readHashesLoop]

theorem readHashesLoop_row (e : Int) :
    ∀ (records : List csvRecord) (line i : Nat) (record : csvRecord),
      records[i]? = some record →
      (readHashesLoop e records line).2[i]? = some
        { start := (sectorToBytes (readSegmentLine record).1 (readSegmentLine record).2.1).1,
          length := (sectorToBytes (readSegmentLine record).1 (readSegmentLine record).2.1).2,
          hash := (readSegmentLine record).2.2.1,
          err :=
            if (readSegmentLine record).2.1 > e then
              some ("Error in line " ++ formatInt ((line + i : Nat) : Int) ++ ": " ++
                ("segment with range (" ++ formatInt (readSegmentLine record).1 ++ ", " ++
                  formatInt (readSegmentLine record).2.1 ++ ") exceeds input file range"))
            else
              (readSegmentLine record).2.2.2.map
                (fun t => "Error in line " ++ formatInt ((line + i : Nat) : Int) ++ ": " ++ t) } := by
  intro records
  induction records with
  | nil => intro line i record h; simp at h
  | cons r rest ih =>
    intro line i record h
    cases i with
    | zero =>
      simp only [List.getElem?_cons_zero, Option.some.injEq] at h
      subst h
      rw [readHashesLoop_cons]
      by_cases hgt : (readSegmentLine r).2.1 > e
      · simp only [hgt, if_true, List.getElem?_cons_zero, Nat.add_zero]
      · simp only [hgt, if_false]
        cases herr : (readSegmentLine r).2.2.2 with
        | none => simp only [List.getElem?_cons_zero, Option.map_none']
        | some t => simp only [List.getElem?_cons_zero, Option.map_some', Nat.add_zero]
    | succ j =>
      simp only [List.getElem?_cons_succ] at h
      have hj := ih (line + 1) j record h
      have e1 : line + 1 + j = line + (j + 1) := by omega
      rw [e1] at hj
      rw [readHashesLoop_cons]
      split <;> simpa only [List.getElem?_cons_succ] using hj

theorem readHashesLoop_lockstep (e : Int) :
    ∀ (records : List csvRecord) (line : Nat),
      (readHashesLoop e records line).2.length = records.length ∧
      (readHashesLoop e records line).1 =
        ((readHashesLoop e records line).2.filter (fun s => s.err.isNone)).map
          (fun s => { start := s.start, length := s.length }) := by
  intro records
  induction records with
  | nil => intro line; simp [readHashesLoop]
  | cons r rest ih =>
    intro line
    obtain ⟨h1, h2⟩ := ih (line + 1)
    rw [readHashesLoop_cons]
    split
    · refine ⟨by simp [h1], ?_⟩
      simp only [List.filter_cons, Option.isNone_some, Bool.false_eq_true, if_false]
      exact h2
    · refine ⟨by simp [h1], ?_⟩
      simp only [List.filter_cons, Option.isNone_none, if_true, List.map_cons]
      rw [← h2]

/-- C22 (amended): for every manifest and data size, `readHashesFromFile` does not abort and
emits as many Segments as the manifest has rows, the Segment of each row at the position of
the row: its start and length are `sectorToBytes(startLBA, endLBA)` of the LBAs read from
the row, its hash is the decoded digest, and it carries no `err` exactly if the row passes
every check. The ranges emitted are those of the Segments without `err`, in the same order,
each with the start and length of its Segment. For a row with `0 ≤ startLBA ≤ endLBA` and
`(endLBA + 1) * 512 ≤ 2^63 - 1`, start and length are
`(startLBA * 512, (endLBA - startLBA + 1) * 512)`. -/
theorem readHashesFromFile_lockstep (manifest : List csvRecord) (dataSize : Int) :
    ∃ ranges segments, readHashesFromFile manifest dataSize = .ok (ranges, segments) ∧
      segments.length = manifest.length ∧
      (∀ (i : Nat) (record : csvRecord), manifest[i]? = some record →
        ∃ seg, segments[i]? = some seg ∧
          (seg.start, seg.length) =
            sectorToBytes (readSegmentLine record).1 (readSegmentLine record).2.1 ∧
          seg.hash = (readSegmentLine record).2.2.1 ∧
          (seg.err = none ↔ rowValid (ceilSectors dataSize - 1) record) ∧
          (0 ≤ (readSegmentLine record).1 →
            (readSegmentLine record).1 ≤ (readSegmentLine record).2.1 →
            ((readSegmentLine record).2.1 + 1) * 512 ≤ maxInt64 →
            (seg.start, seg.length) =
              ((readSegmentLine record).1 * 512,
               ((readSegmentLine record).2.1 - (readSegmentLine record).1 + 1) * 512))) ∧
      ranges = (segments.filter (fun s => s.err.isNone)).map
        (fun s => { start := s.start, length := s.length }) := by
  obtain ⟨hlen, hranges⟩ := readHashesLoop_lockstep (ceilSectors dataSize - 1) manifest 1
  refine ⟨_, _, readHashesFromFile_eq manifest dataSize, hlen, fun i record hi => ?_, hranges⟩
  refine ⟨_, readHashesLoop_row (ceilSectors dataSize - 1) manifest 1 i record hi, rfl, rfl, ?_,
    fun h0 hse hmax => ?_⟩
  · unfold rowValid
    by_cases hgt : (readSegmentLine record).2.1 > ceilSectors dataSize - 1
    · simp [hgt]
    · cases herr : (readSegmentLine record).2.2.2 <;> simp [hgt, herr]
  · generalize (readSegmentLine record).1 = s at h0 hse ⊢
    generalize (readSegmentLine record).2.1 = e at hse hmax ⊢
    unfold maxInt64 at hmax
    have h1 : wrap64 (s * 512) = s * 512 :=
      wrap64_of_isInt64 (by unfold isInt64 minInt64 maxInt64; constructor <;> omega)
    have h2 : wrap64 (e - s) = e - s :=
      wrap64_of_isInt64 (by unfold isInt64 minInt64 maxInt64; constructor <;> omega)
    have h3 : wrap64 (e - s + 1) = e - s + 1 :=
      wrap64_of_isInt64 (by unfold isInt64 minInt64 maxInt64; constructor <;> omega)
    have h4 : wrap64 ((e - s + 1) * 512) = (e - s + 1) * 512 :=
      wrap64_of_isInt64 (by unfold isInt64 minInt64 maxInt64; constructor <;> omega)
    simp only [sectorToBytes, sectorSize, h1, h2, h3, h4]

/-- C22 as stated fails: for data of `2^63 - 1` bytes, whose last sector is `2^54 - 1`, the
row `d41d8cd98f00b204e9800998ecf8427e,0,18014398509481983` passes every check of the
Manifest Reader, and the range emitted for it has the length `-2^63`, because
`(endLBA - startLBA + 1) * 512 = 2^63` is not an `int64`. -/
theorem readHashesFromFile_lockstep_counterexample :
    ceilDiv 9223372036854775807 512 - 1 = 18014398509481983 ∧
    rowValid (ceilSectors 9223372036854775807 - 1)
      { hash := "d41d8cd98f00b204e9800998ecf8427e", startLba := "0",
        endLba := "18014398509481983" } ∧
    (readHashesFromFile
        [{ hash := "d41d8cd98f00b204e9800998ecf8427e", startLba := "0",
           endLba := "18014398509481983" }] 9223372036854775807).map
      (fun r => (r.1, r.2.map (fun s => (s.start, s.length, s.err)))) =
      .ok ([{ start := 0, length := -9223372036854775808 }],
           [(0, -9223372036854775808, none)]) ∧
    ({ start := 0 * 512, length := (18014398509481983 - 0 + 1) * 512 } : readRange) ≠
      { start := 0, length := -9223372036854775808 } := by
  refine ⟨by decide, by decide, by decide, by decide⟩

/-! ## Error text of a rejected row -/

/-- C25 (amended): for every manifest and data size and the `n`-th row of the manifest
(counting from 1): if the end LBA read from the row is beyond the data's last sector, the
`err` text of its Segment is `Error in line n: segment with range (startLBA, endLBA)
exceeds input file range`, which names line `n` and the LBAs read, not the raw row;
otherwise, if the row fails one of the other three checks (bad hex digest, unparsable LBA,
endLBA < startLBA), the `err` text is `Error in line n: ` followed by the raw row, its three
fields joined by commas. -/
theorem readHashesFromFile_err_text (manifest : List csvRecord) (dataSize : Int) (n : Nat)
    (record : csvRecord) (hn : 1 ≤ n) (hrow : manifest[n - 1]? = some record) :
    ∃ ranges segments seg, readHashesFromFile manifest dataSize = .ok (ranges, segments) ∧
      segments[n - 1]? = some seg ∧
      ((readSegmentLine record).2.1 > ceilSectors dataSize - 1 →
        seg.err = some ("Error in line " ++ formatInt n ++ ": " ++
          ("segment with range (" ++ formatInt (readSegmentLine record).1 ++ ", " ++
            formatInt (readSegmentLine record).2.1 ++ ") exceeds input file range"))) ∧
      (¬ (readSegmentLine record).2.1 > ceilSectors dataSize - 1 →
        ((hexDecodeString record.hash).2 = true ∨ (parseInt record.startLba).2 = true ∨
          (parseInt record.endLba).2 = true ∨
          (parseInt record.endLba).1 < (parseInt record.startLba).1) →
        seg.err = some ("Error in line " ++ formatInt n ++ ": " ++ record.join) ∧
        record.join = record.hash ++ "," ++ record.startLba ++ "," ++ record.endLba) := by
  have hrowseg := readHashesLoop_row (ceilSectors dataSize - 1) manifest 1 (n - 1) record hrow
  have hline : 1 + (n - 1) = n := by omega
  rw [hline] at hrowseg
  refine ⟨_, _, _, readHashesFromFile_eq manifest dataSize, hrowseg, fun hgt => ?_,
    fun hgt hfail => ⟨?_, rfl⟩⟩
  · simp only [hgt, if_true]
  · have herr : (readSegmentLine record).2.2.2 = some record.join := by
      unfold readSegmentLine
      simp only [Bool.decide_eq_true] at *
      rw [if_pos (by simpa using hfail)]
    simp only [hgt, if_false, herr, Option.map_some']

/-- Witness for C25: the row `zz,0,0` as first row of a manifest for 600 bytes of data. -/
theorem readHashesFromFile_err_text_witness :
    (1 ≤ 1 ∧
     ([{ hash := "zz", startLba := "0", endLba := "0" }] : List csvRecord)[1 - 1]? =
       some { hash := "zz", startLba := "0", endLba := "0" }) ∧
    ∃ ranges segments seg,
      readHashesFromFile [{ hash := "zz", startLba := "0", endLba := "0" }] 600 =
        .ok (ranges, segments) ∧
      segments[1 - 1]? = some seg ∧
      ((readSegmentLine { hash := "zz", startLba := "0", endLba := "0" }).2.1 >
          ceilSectors 600 - 1 →
        seg.err = some ("Error in line " ++ formatInt (1 : Nat) ++ ": " ++
          ("segment with range (" ++
            formatInt (readSegmentLine { hash := "zz", startLba := "0", endLba := "0" }).1 ++
            ", " ++
            formatInt (readSegmentLine { hash := "zz", startLba := "0", endLba := "0" }).2.1 ++
            ") exceeds input file range"))) ∧
      (¬ (readSegmentLine { hash := "zz", startLba := "0", endLba := "0" }).2.1 >
          ceilSectors 600 - 1 →
        ((hexDecodeString "zz").2 = true ∨ (parseInt "0").2 = true ∨ (parseInt "0").2 = true ∨
          (parseInt "0").1 < (parseInt "0").1) →
        seg.err = some ("Error in line " ++ formatInt (1 : Nat) ++ ": " ++
          csvRecord.join { hash := "zz", startLba := "0", endLba := "0" }) ∧
        csvRecord.join { hash := "zz", startLba := "0", endLba := "0" } =
          "zz" ++ "," ++ "0" ++ "," ++ "0") :=
  ⟨by decide,
   readHashesFromFile_err_text [{ hash := "zz", startLba := "0", endLba := "0" }] 600 1
     { hash := "zz", startLba := "0", endLba := "0" } (by decide) (by decide)⟩

/-- C25 as stated fails: the row `d41d8cd98f00b204e9800998ecf8427e,5,9` for 600 bytes of
data (last sector 1) fails the check of its end LBA, and the `err` text of its Segment,
`Error in line 1: segment with range (5, 9) exceeds input file range`, does not contain the
raw row. -/
theorem readHashesFromFile_err_text_counterexample :
    (readSegmentLine
        { hash := "d41d8cd98f00b204e9800998ecf8427e", startLba := "5", endLba := "9" }).2.1 >
      ceilSectors 600 - 1 ∧
    (readHashesFromFile
        [{ hash := "d41d8cd98f00b204e9800998ecf8427e", startLba := "5", endLba := "9" }] 600).map
      (fun r => r.2.map (fun s => s.err)) =
      .ok [some "Error in line 1: segment with range (5, 9) exceeds input file range"] ∧
    ¬ (csvRecord.join
        { hash := "d41d8cd98f00b204e9800998ecf8427e", startLba := "5", endLba := "9" }).data <:+:
      ("Error in line 1: segment with range (5, 9) exceeds input file range" : String).data := by
  refine ⟨by decide, by decide, by decide⟩

/-! ## Exactness of the sector conversions -/

/-- C23 fails on the code: for start 0 and length `2^53 + 1` (9007199254740993),
`bytesToSectors` returns the end LBA 17592186044415, because `float64(length)` is `2^53`,
where `0 + ceil(length / 512) - 1` is 17592186044416. -/
theorem bytesToSectors_not_exact :
    bytesToSectors 0 9007199254740993 = .ok (0, 17592186044415) ∧
    float64OfInt 9007199254740993 = 9007199254740992 ∧
    ceilDiv 0 512 + ceilDiv 9007199254740993 512 - 1 = 17592186044416 := by
  refine ⟨by decide, by decide, by decide⟩

/-- C24 as stated fails: for the LBA pair `(2^54, 2^54)` the byte offset `2^54 * 512`
leaves `int64`, `sectorToBytes` returns the start `-2^63`, and `bytesToSectors` of the
result is `(-2^54, -2^54)`. -/
theorem bytesToSectors_sectorToBytes_counterexample :
    (0 : Int) ≤ 18014398509481984 ∧ (18014398509481984 : Int) ≤ 18014398509481984 ∧
    sectorToBytes 18014398509481984 18014398509481984 = (-9223372036854775808, 512) ∧
    bytesToSectors (sectorToBytes 18014398509481984 18014398509481984).1
        (sectorToBytes 18014398509481984 18014398509481984).2 =
      .ok (-18014398509481984, -18014398509481984) := by
  refine ⟨by decide, by decide, by decide, by decide⟩

theorem float64DropBits_le :
    ∀ (k j n : Nat), n / 2 ^ j < 2 ^ 53 → float64DropBits k n ≤ j := by
  intro k
  induction k with
  | zero => intro j n _; simp [float64DropBits]
  | succ k ih =>
    intro j n h
    rw [float64DropBits]
    split
    · exact Nat.zero_le _
    · next hge =>
      cases j with
      | zero => simp at h; omega
      | succ j =>
        have : n / 2 / 2 ^ j < 2 ^ 53 := by
          rw [Nat.div_div_eq_div_mul]
          have e : 2 * 2 ^ j = 2 ^ (j + 1) := by rw [pow_succ]; ring
          rw [e]; exact h
        have := ih j (n / 2) this
        omega

theorem float64OfNat_mul_512 (m : Nat) (hm : m ≤ 2 ^ 53) : float64OfNat (m * 512) = m * 512 := by
  rcases Nat.lt_or_ge m (2 ^ 53) with hlt | hge
  · have he : float64DropBits 11 (m * 512) ≤ 9 :=
      float64DropBits_le 11 9 (m * 512) (by
        have : m * 512 / 2 ^ 9 = m := by
          have e : (2 : Nat) ^ 9 = 512 := by norm_num
          rw [e, Nat.mul_div_cancel _ (by norm_num)]
        rw [this]; exact hlt)
    have hdvd : 2 ^ float64DropBits 11 (m * 512) ∣ m * 512 := by
      have h1 : 2 ^ float64DropBits 11 (m * 512) ∣ 2 ^ 9 := Nat.pow_dvd_pow 2 he
      have h2 : (2 : Nat) ^ 9 ∣ m * 512 := ⟨m, by ring⟩
      exact Nat.dvd_trans h1 h2
    have hr : m * 512 % 2 ^ float64DropBits 11 (m * 512) = 0 := Nat.mod_eq_zero_of_dvd hdvd
    have hpos : 0 < 2 ^ float64DropBits 11 (m * 512) := Nat.pow_pos (by norm_num)
    simp only [float64OfNat, hr, Nat.mul_zero, hpos, if_true]
    exact Nat.div_mul_cancel hdvd
  · have : m = 2 ^ 53 := by omega
    subst this
    decide

theorem ceilSectors_mul_512 (m : Int) (h0 : 0 ≤ m) (hm : m ≤ 2 ^ 53) :
    ceilSectors (m * 512) = m := by
  obtain ⟨n, rfl⟩ := Int.eq_ofNat_of_zero_le h0
  have hn : n ≤ 2 ^ 53 := by exact_mod_cast hm
  have hf : float64OfInt (((n : Nat) : Int) * 512) = (n : Int) * 512 := by
    unfold float64OfInt
    have hnat : (((n : Nat) : Int) * 512).natAbs = n * 512 := by
      have : ((n : Nat) : Int) * 512 = ((n * 512 : Nat) : Int) := by push_cast; ring
      rw [this, Int.natAbs_ofNat]
    rw [if_neg (by omega), hnat, float64OfNat_mul_512 n hn]
    push_cast
    ring
  unfold ceilSectors
  rw [hf]
  unfold ceilDiv sectorSize
  omega

theorem sectorToBytes_exact (startLba endLba : Int) (h0 : 0 ≤ startLba)
    (hse : startLba ≤ endLba) (hmax : (endLba + 1) * 512 ≤ maxInt64) :
    sectorToBytes startLba endLba = (startLba * 512, (endLba - startLba + 1) * 512) := by
  unfold maxInt64 at hmax
  have h1 : wrap64 (startLba * 512) = startLba * 512 :=
    wrap64_of_isInt64 (by unfold isInt64 minInt64 maxInt64; constructor <;> omega)
  have h2 : wrap64 (endLba - startLba) = endLba - startLba :=
    wrap64_of_isInt64 (by unfold isInt64 minInt64 maxInt64; constructor <;> omega)
  have h3 : wrap64 (endLba - startLba + 1) = endLba - startLba + 1 :=
    wrap64_of_isInt64 (by unfold isInt64 minInt64 maxInt64; constructor <;> omega)
  have h4 : wrap64 ((endLba - startLba + 1) * 512) = (endLba - startLba + 1) * 512 :=
    wrap64_of_isInt64 (by unfold isInt64 minInt64 maxInt64; constructor <;> omega)
  simp only [sectorToBytes, sectorSize, h1, h2, h3, h4]

theorem bytesToSectors_sectorToBytes_eq (startLba endLba : Int) (h0 : 0 ≤ startLba)
    (hse : startLba ≤ endLba) (hmax : endLba < 2 ^ 53) :
    bytesToSectors (sectorToBytes startLba endLba).1 (sectorToBytes startLba endLba).2 =
      .ok (startLba, endLba) := by
  have hm : (endLba + 1) * 512 ≤ maxInt64 := by unfold maxInt64; omega
  rw [sectorToBytes_exact startLba endLba h0 hse hm]
  simp only
  rw [bytesToSectors_of_emod _ _ (by omega),
    ceilSectors_mul_512 startLba h0 (by omega),
    ceilSectors_mul_512 (endLba - startLba + 1) (by omega) (by omega)]
  congr 2
  ring

/-- C24 (amended): for all LBA pairs with `0 ≤ startLBA ≤ endLBA < 2^53`,
`bytesToSectors(sectorToBytes(startLBA, endLBA)) = (startLBA, endLBA)`; hence for a manifest
row with these LBAs that passes the checks of `readSegmentLine`, the diff row that
`verifySegments` writes when the digest of the computed Segment differs holds the decimal
forms of the row's start and end LBA, which are the row's two fields when these are written
in that form. -/
theorem bytesToSectors_sectorToBytes (startLba endLba : Int) (h0 : 0 ≤ startLba)
    (hse : startLba ≤ endLba) (hmax : endLba < 2 ^ 53) :
    bytesToSectors (sectorToBytes startLba endLba).1 (sectorToBytes startLba endLba).2 =
      .ok (startLba, endLba) ∧
    ∀ (outName : String) (record : csvRecord) (hash : List Byte) (computed : segment),
      readSegmentLine record = (startLba, endLba, hash, none) →
      computed.start = (sectorToBytes startLba endLba).1 → hash ≠ computed.hash →
      verifySegments outName [computed]
          [{ start := (sectorToBytes startLba endLba).1,
             length := (sectorToBytes startLba endLba).2, hash := hash }] =
        .ok { diffs := 1, diffsFname := outName, errors := 0,
              csvWriter := some [[formatInt startLba, formatInt endLba]], created := 1,
              unread := [] } ∧
      (record.startLba = formatInt startLba → record.endLba = formatInt endLba →
        [formatInt startLba, formatInt endLba] = [record.startLba, record.endLba]) := by
  have hrt := bytesToSectors_sectorToBytes_eq startLba endLba h0 hse hmax
  refine ⟨hrt, fun outName record hash computed _ hstart hhash => ⟨?_, fun h1 h2 => by rw [h1, h2]⟩⟩
  exact verifySegments_one_diff outName [] [] [] []
    { start := (sectorToBytes startLba endLba).1, length := (sectorToBytes startLba endLba).2,
      hash := hash } computed List.Forall₂.nil List.Forall₂.nil rfl hstart.symm hhash
    startLba endLba hrt

/-- Witness for C24: the LBA pair `(3, 7)`. -/
theorem bytesToSectors_sectorToBytes_witness :
    ((0 : Int) ≤ 3 ∧ (3 : Int) ≤ 7 ∧ (7 : Int) < 2 ^ 53) ∧
    (bytesToSectors (sectorToBytes 3 7).1 (sectorToBytes 3 7).2 = .ok (3, 7) ∧
    ∀ (outName : String) (record : csvRecord) (hash : List Byte) (computed : segment),
      readSegmentLine record = (3, 7, hash, none) →
      computed.start = (sectorToBytes 3 7).1 → hash ≠ computed.hash →
      verifySegments outName [computed]
          [{ start := (sectorToBytes 3 7).1, length := (sectorToBytes 3 7).2, hash := hash }] =
        .ok { diffs := 1, diffsFname := outName, errors := 0,
              csvWriter := some [[formatInt 3, formatInt 7]], created := 1, unread := [] } ∧
      (record.startLba = formatInt 3 → record.endLba = formatInt 7 →
        [formatInt 3, formatInt 7] = [record.startLba, record.endLba])) :=
  ⟨by decide, bytesToSectors_sectorToBytes 3 7 (by decide) (by decide) (by decide)⟩

end Seghash
